import Mathlib

/-!
# rs25519: Borromean ring signatures over ed25519

A shallow embedding of `rs25519.go` and `util.go`.

* Byte strings (`[]byte`, `[32]byte`, `[64]byte`) are lists of `Byte = Fin 256`.
* Go values of type `byte` used as counters or indices are natural numbers and every
  arithmetic operation on them is reduced `% 256` explicitly.
* A run-time panic is a `Fault`; functions that can panic return `Run α = Except Fault α`.
* The imported packages (`edwards25519`, `crypto/sha512`, `salsa20/salsa`) are not part of the
  repository.  Scalar arithmetic modulo the group order is modelled by its documented
  contract; the curve group, the hash functions and the stream cipher are the fields of a
  structure `Lib`, together with the laws of the group.
-/

namespace RS25519

/-! ## Bytes and little-endian integers -/

/-- One byte. -/
abbrev Byte := Fin 256

/-- Run-time failures of the Go program. -/
inductive Fault where
  /-- the explicit `panic("sig.s element over 2^252, ...")` of `BRSign` -/
  | rangeCheck
  /-- index or slice bound out of range, division by zero -/
  | runtime
  deriving DecidableEq, Repr

deriving instance DecidableEq for Except

/-- Result of a computation that may panic. -/
abbrev Run (α : Type) := Except Fault α

/-- The order of the base point of ed25519. -/
def L : Nat := 2 ^ 252 + 27742317777372353535851937790883648493

/-- The integer a byte string denotes, little-endian. -/
def leNat : List Byte → Nat
  | [] => 0
  | b :: bs => b.val + 256 * leNat bs

/-- The `n` low bytes of `v`, little-endian. -/
def toLE : Nat → Nat → List Byte
  | 0, _ => []
  | n + 1, v => Fin.ofNat (v % 256) :: toLE n (v / 256)

/-- A zeroed buffer, `make([]byte, n)`. -/
def zeros (n : Nat) : List Byte := List.replicate n 0

/-- The Go builtin `copy(dst, src)`: the contents of `dst` afterwards. -/
def copyInto (dst src : List Byte) : List Byte := src.take dst.length ++ dst.drop src.length

/-- The Go idiom `var buf [32]byte; copy(buf[:], b)`: the first 32 bytes of `b`,
zero-filled when `b` is shorter. -/
def copy32 (b : List Byte) : List Byte := copyInto (zeros 32) b

/-- Indexing `l[i]`, which panics out of range. -/
def idx {α : Type} (l : List α) (i : Nat) : Run α :=
  match l[i]? with
  | some a => .ok a
  | none => .error .runtime

/-- Slicing `l[off:]`, which panics when `off > len(l)`. -/
def sliceFrom {α : Type} (l : List α) (off : Nat) : Run (List α) :=
  if off ≤ l.length then .ok (l.drop off) else .error .runtime

/-- Byte 31 of a `[32]byte`. -/
def byte31 (s : List Byte) : Byte := s.getD 31 0

/-! ## Scalars (`type Scalar [32]byte`) -/

/-- Modelled from the spec: `edwards25519.ScMulAdd(s, a, b, c)` of the imported package, which
is not part of the repository; its contract is `s = (a*b + c) mod L` on little-endian
32-byte integers. -/
def ScMulAdd (a b c : List Byte) : List Byte :=
  toLE 32 ((leNat a * leNat b + leNat c) % L)

/-- Modelled from the spec: `edwards25519.ScReduce(out, s)` of the imported package, which is
not part of the repository; its contract is `out = s mod L` for a 64-byte little-endian `s`. -/
def ScReduce (s : List Byte) : List Byte := toLE 32 (leNat s % L)

/-- The function `reduce` of `util.go`. -/
def reduce (inp : List Byte) : List Byte := ScReduce inp

/-- The constant `negone` of `Scalar.Negate`. -/
def negone : List Byte :=
  [0xec, 0xd3, 0xf5, 0x5c, 0x1a, 0x63, 0x12, 0x58,
   0xd6, 0x9c, 0xf7, 0xa2, 0xde, 0xf9, 0xde, 0x14,
   0x00, 0x00, 0x00, 0x00, 0x00, 0x00, 0x00, 0x00,
   0x00, 0x00, 0x00, 0x00, 0x00, 0x00, 0x00, 0x10]

/-- The method `(a *Scalar) Negate`: `ScMulAdd(res, negone, a, zero)`. -/
def Scalar.Negate (a : List Byte) : List Byte := ScMulAdd negone a (zeros 32)

/-- The method `(a *Scalar) MulAdd(b, c)`: `a*b + c (mod L)`. -/
def Scalar.MulAdd (a b c : List Byte) : List Byte := ScMulAdd a b c

/-- The function `clampSave` of `util.go`: `copy(out[:], in)`, `out[31] &= 0xf`,
`w = in[31] & 0xf0`; reading `in[31]` panics when `in` has fewer than 32 bytes. -/
def clampSave (inp : List Byte) : Run (List Byte × Byte) :=
  let out := copy32 inp
  let out := out.set 31 (byte31 out &&& 0x0f)
  match inp[31]? with
  | some b => .ok (out, b &&& 0xf0)
  | none => .error .runtime

/-- The statement `copy(data[off:], src)`; slicing panics when `off > len(data)`. -/
def writeAt (data : List Byte) (off : Nat) (src : List Byte) : Run (List Byte) :=
  if off ≤ data.length then .ok (data.take off ++ copyInto (data.drop off) src)
  else .error .runtime

/-- Sequential execution of a loop body over the iterations `ts`, collecting the value each
iteration stores at its own index. -/
def mapRun {α β : Type} (f : α → Run β) : List α → Run (List β)
  | [] => .ok []
  | a :: as =>
    match f a with
    | .error e => .error e
    | .ok b =>
      match mapRun f as with
      | .error e => .error e
      | .ok bs => .ok (b :: bs)

/-- Sequential execution of a loop body over the iterations `ts` with a loop state. -/
def foldRun {α σ : Type} (f : σ → α → Run σ) : List α → σ → Run σ
  | [], s => .ok s
  | a :: as, s =>
    match f s a with
    | .error e => .error e
    | .ok s1 => foldRun f as s1

/-! ## The imported primitives -/

/-- The imported packages: the group of curve points with its 32-byte encoding
(`edwards25519`), three hash functions (`crypto/sha512`) and the Salsa20 key stream
(`salsa20/salsa`).  `Pt` is the group of all valid curve points; a `Point`
(`ExtendedGroupElement`) and a `PPoint` (`ProjectiveGroupElement`) are both read as the group
element they represent. -/
structure Lib where
  /-- the valid curve points -/
  Pt : Type
  /-- the group law of the curve -/
  grp : AddCommGroup Pt
  /-- the base point -/
  G : Pt
  /-- the encoding `ToBytes` -/
  encode : Pt → List Byte
  /-- the decoding `FromBytes`, which fails on bytes that are no curve point -/
  decode : List Byte → Option Pt
  /-- SHA-512 of everything written to `sha512.New()` -/
  sha512 : List Byte → List Byte
  /-- SHA-512/256 of everything written to `sha512.New512_256()` -/
  sha512_256 : List Byte → List Byte
  /-- SHA-384 of everything written to `sha512.New384()` -/
  sha384 : List Byte → List Byte
  /-- the byte at a given position of the Salsa20 key stream for `counter` and `key` -/
  salsa : List Byte → List Byte → Nat → Byte
  /-- an encoding has 32 bytes -/
  encode_length : ∀ P, (encode P).length = 32
  /-- a point decodes from its own encoding -/
  decode_encode : ∀ P, decode (encode P) = some P
  /-- the base point has order `L` -/
  order_G : L • G = 0
  /-- a SHA-512 digest has 64 bytes -/
  sha512_length : ∀ x, (sha512 x).length = 64
  /-- a SHA-512/256 digest has 32 bytes -/
  sha512_256_length : ∀ x, (sha512_256 x).length = 32
  /-- a SHA-384 digest has 48 bytes -/
  sha384_length : ∀ x, (sha384 x).length = 48

instance instGrp (B : Lib) : AddCommGroup B.Pt := B.grp

/-- The function `HashToScalar`: `reduce(sha512.Sum512(seed))`. -/
def HashToScalar (B : Lib) (seed : List Byte) : List Byte := reduce (B.sha512 seed)

/-- The function `hash512`: SHA-512 of the items written one after the other. -/
def hash512 (B : Lib) (items : List (List Byte)) : List Byte := B.sha512 items.flatten

/-- The method `(inp *Point) Negate`: `X` and `T` of the extended coordinates are negated,
which is the inverse of the point in the group. -/
def Point.Negate (B : Lib) (P : B.Pt) : B.Pt := -P

/-- The method `(p *Point) Encode`. -/
def Point.Encode (B : Lib) (P : B.Pt) : List Byte := B.encode P

/-- The method `(p *Point) Marshal`. -/
def Point.Marshal (B : Lib) (P : B.Pt) : List Byte := Point.Encode B P

/-- The method `(p *PPoint) Encode`. -/
def PPoint.Encode (B : Lib) (P : B.Pt) : List Byte := B.encode P

/-- The method `(P *Point) MulAdd(a, b)`: `aP + bG` by `GeDoubleScalarMultVartime`. -/
def Point.MulAdd (B : Lib) (P : B.Pt) (a b : List Byte) : B.Pt :=
  leNat a • P + leNat b • B.G

/-- The method `(a *Scalar) MulBase`: `aG` by `GeScalarMultBase`. -/
def Scalar.MulBase (B : Lib) (a : List Byte) : B.Pt := leNat a • B.G

/-- The method `(P *Point) ToProjective`: the same point without its `T` coordinate. -/
def Point.ToProjective (B : Lib) (P : B.Pt) : B.Pt := P

/-- The method `(P *Point) Unmarshal(b)`: decodes the first 32 bytes of `b` and returns the
rest `b[32:]`, or nil when the bytes are no curve point. -/
def Point.Unmarshal (B : Lib) (b : List Byte) : Run (Option (B.Pt × List Byte)) :=
  match B.decode (copy32 b) with
  | none => .ok none
  | some P =>
    match sliceFrom b 32 with
    | .error e => .error e
    | .ok rest => .ok (some (P, rest))

/-- The function `chameleon` of `util.go`. -/
def chameleon (B : Lib) (R : B.Pt) (msg : List Byte) (x y : Nat) (z : Byte) : List Byte :=
  reduce (hash512 B [PPoint.Encode B R, msg, [Fin.ofNat x, Fin.ofNat y, z]])

/-- The call `salsa.XORKeyStream(out, in, counter, key)`: `out[i] = in[i] XOR stream[i]` for
every byte of `in`; it runs past the end of `out` when `out` is shorter than `in`. -/
def XORKeyStream (B : Lib) (out inp counter key : List Byte) : Run (List Byte) :=
  if out.length < inp.length then .error .runtime
  else .ok (List.zipWith (fun a b => a ^^^ b) inp
      ((List.range inp.length).map (B.salsa counter key)) ++ out.drop inp.length)

/-- The function `xornoise` of `util.go`; the result is the new content of `r`.  A nil `data`
is `none`. -/
def xornoise (B : Lib) (msg r : List Byte) (data : Option (List Byte))
    (priv : List (List Byte)) (indices : List Byte) : Run (List Byte) :=
  let data :=
    match data with
    | none => zeros r.length
    | some d => if d.length < r.length then d ++ zeros (r.length - d.length) else d
  let hdata := B.sha384 (msg ++ priv.flatten ++ indices)
  let key := copy32 hdata
  let counter := copyInto (zeros 16) (hdata.take 32)
  XORKeyStream B r data counter key

/-! ## Packing and unpacking the key matrix -/

/-- The function `BRPack`: the digest and the serialized key list. -/
def BRPack (B : Lib) (msg : List Byte) (pub : List (List B.Pt)) : List Byte × List Byte :=
  let st := pub.foldl (fun acc ring =>
    ring.foldl (fun (acc : List Byte × List Byte) v =>
      let buf := Point.Marshal B v
      (acc.1 ++ buf, acc.2 ++ buf)) acc) (([] : List Byte), ([] : List Byte))
  (B.sha512_256 (st.1 ++ msg), st.2)

/-- The inner loop of `BRUnpack` for the `cnt` remaining slots of a ring: the state is the
bytes hashed so far and the rest of the blob; `none` is the early `return hash, nil`. -/
def unpackRing (B : Lib) :
    Nat → List Byte → List Byte → Run (Option (List B.Pt × List Byte × List Byte))
  | 0, h, pubs => .ok (some ([], h, pubs))
  | cnt + 1, h, pubs =>
    if pubs.length < 32 then .ok none
    else
      match Point.Unmarshal B pubs with
      | .error e => .error e
      | .ok none => .ok none
      | .ok (some (P, rest)) =>
        match unpackRing B cnt (h ++ pubs.take 32) rest with
        | .error e => .error e
        | .ok none => .ok none
        | .ok (some (ps, h1, rest1)) => .ok (some (P :: ps, h1, rest1))

/-- The outer loop of `BRUnpack` for the `cnt` remaining rings of `n` slots each. -/
def unpackRings (B : Lib) (n : Nat) :
    Nat → List Byte → List Byte → Run (Option (List (List B.Pt) × List Byte))
  | 0, h, _ => .ok (some ([], h))
  | cnt + 1, h, pubs =>
    match unpackRing B n h pubs with
    | .error e => .error e
    | .ok none => .ok none
    | .ok (some (ring, h1, rest)) =>
      match unpackRings B n cnt h1 rest with
      | .error e => .error e
      | .ok none => .ok none
      | .ok (some (rings, h2)) => .ok (some (ring :: rings, h2))

/-- The function `BRUnpack(msg, pubs, m, n)`: `m` rings of `n` points each.  On failure the
digest is the zero value and the matrix is nil (`none`). -/
def BRUnpack (B : Lib) (msg pubs : List Byte) (m n : Byte) :
    Run (List Byte × Option (List (List B.Pt))) :=
  match unpackRings B n.val m.val [] pubs with
  | .error e => .error e
  | .ok none => .ok (zeros 32, none)
  | .ok (some (points, h)) => .ok (B.sha512_256 (h ++ msg), some points)

/-! ## Signing -/

/-- The byte expression `(t*m+i)*32` that `BRSign` and `Recover` use as an offset. -/
def slotOff (t m i : Nat) : Nat := (t * m % 256 + i) % 256 * 32 % 256

/-- The body shared by the two inner loops of `BRSign`, for slot `i` of ring `t`: the state
is the row `s[t]` and the running challenge `e`. -/
def signStep (B : Lib) (msghash r : List Byte) (pub : List (List B.Pt)) (t m : Nat)
    (st : List (List Byte) × List Byte) (i : Nat) : Run (List (List Byte) × List Byte) :=
  match idx st.1 i with
  | .error e => .error e
  | .ok old =>
    match sliceFrom r (slotOff t m i) with
    | .error e => .error e
    | .ok src =>
      let sti := copyInto old src
      match clampSave sti with
      | .error e => .error e
      | .ok (z, w) =>
        match idx pub t with
        | .error e => .error e
        | .ok ring =>
          match idx ring i with
          | .error e => .error e
          | .ok P =>
            let pneg := Point.Negate B P
            .ok (st.1.set i sti,
              chameleon B (Point.MulAdd B pneg st.2 z) msghash t ((i + 1) % 256 % m) w)

/-- What the first loop of `BRSign` leaves for ring `t`: the row `s[t]`, the nonce `k[t]`,
the nibble `saved[t]` and the closing challenge written to `E`. -/
structure Opened where
  /-- the row `s[t]` -/
  row : List (List Byte)
  /-- the clamped nonce `k[t]` -/
  k : List Byte
  /-- the nibble `saved[t]` -/
  saved : Byte
  /-- the closing challenge of the ring -/
  closing : List Byte

/-- Iteration `t` of the first loop of `BRSign`. -/
def signOpen (B : Lib) (msghash r : List Byte) (pub : List (List B.Pt))
    (indices : List Byte) (m t : Nat) : Run Opened :=
  let row0 := List.replicate m (zeros 32)
  match idx indices t with
  | .error e => .error e
  | .ok jb =>
    let j := jb.val
    match sliceFrom r (slotOff t m j) with
    | .error e => .error e
    | .ok src =>
      match clampSave src with
      | .error e => .error e
      | .ok (k, saved) =>
        let ext := Scalar.MulBase B k
        if m = 0 then .error .runtime
        else
          let e := chameleon B (Point.ToProjective B ext) msghash t ((j + 1) % 256 % m) saved
          match foldRun (signStep B msghash r pub t m)
              (List.range' ((j + 1) % 256) (m - (j + 1) % 256)) (row0, e) with
          | .error e => .error e
          | .ok st => .ok ⟨st.1, k, saved, st.2⟩

/-- Iteration `t` of the second loop of `BRSign`: the finished row `s[t]`. -/
def signClose (B : Lib) (msghash r : List Byte) (pub : List (List B.Pt))
    (priv : List (List Byte)) (indices : List Byte) (m : Nat) (e0 : List Byte)
    (opened : List Opened) (t : Nat) : Run (List (List Byte)) :=
  match idx opened t with
  | .error e => .error e
  | .ok o =>
    match idx indices t with
    | .error e => .error e
    | .ok jb =>
      let j := jb.val
      match foldRun (signStep B msghash r pub t m) (List.range j) (o.row, e0) with
      | .error e => .error e
      | .ok st =>
        match idx priv t with
        | .error e => .error e
        | .ok p =>
          let z := Scalar.MulAdd p st.2 o.k
          if byte31 z &&& 0xf0 ≠ 0 then .error .rangeCheck
          else
            match idx st.1 j with
            | .error e => .error e
            | .ok _ => .ok (st.1.set j (z.set 31 (byte31 z ||| o.saved)))

/-- The function `BRSign`.  The arrays `s`, `k` and `saved` are written at index `t` by
iteration `t`, so the first loop is the list of what each iteration leaves. -/
def BRSign (B : Lib) (msghash : List Byte) (data : Option (List Byte))
    (pub : List (List B.Pt)) (priv : List (List Byte)) (indices : List Byte) :
    Run (List Byte) :=
  match idx pub 0 with
  | .error e => .error e
  | .ok pub0 =>
    let n := pub.length % 256
    let m := pub0.length % 256
    match xornoise B msghash (zeros (pub.length * pub0.length * 32)) data priv indices with
    | .error e => .error e
    | .ok r =>
      match mapRun (signOpen B msghash r pub indices m) (List.range n) with
      | .error e => .error e
      | .ok opened =>
        let E := (opened.map Opened.closing).flatten
        let e0 := reduce (B.sha512 E)
        match mapRun (signClose B msghash r pub priv indices m e0 opened) (List.range n) with
        | .error e => .error e
        | .ok s => .ok (e0 ++ s.flatten.flatten)

/-! ## Loading, verifying, recovering -/

/-- The inner loop of `load` for the `cnt` remaining slots of a row: `p = p[32:]`, then
`copy(s[i][j][:], p[:32])`. -/
def loadRow : Nat → List Byte → List (List Byte) × List Byte
  | 0, p => ([], p)
  | cnt + 1, p =>
    let p1 := p.drop 32
    let rest := loadRow cnt p1
    (copy32 (p1.take 32) :: rest.1, rest.2)

/-- The outer loop of `load` for the `cnt` remaining rows of `m` slots each. -/
def loadRows (m : Nat) : Nat → List Byte → List (List (List Byte))
  | 0, _ => []
  | cnt + 1, p =>
    let row := loadRow m p
    row.1 :: loadRows m cnt row.2

/-- The method `(brs BRSignature) load(pub)`: `(nret, mret, e, s)`, with `s` nil (`none`) on
the three early returns. -/
def BRSignature.load {Pt : Type} (brs : List Byte) (pub : List (List Pt)) :
    Nat × Nat × List Byte × Option (List (List (List Byte))) :=
  let p := brs
  let n := pub.length
  match pub with
  | [] => (0, 0, zeros 32, none)
  | pub0 :: _ =>
    let m := pub0.length
    if m = 0 then (0, 0, zeros 32, none)
    else if p.length ≠ m * n * 32 + 32 then (0, 0, zeros 32, none)
    else
      (n % 256, m % 256, copy32 (p.take 32), some (loadRows m n p))

/-- The body of the inner loop of `Verify` for slot `i` of ring `t`. -/
def verifyStep (B : Lib) (msghash : List Byte) (pub : List (List B.Pt))
    (brss : List (List (List Byte))) (t m : Nat) (e : List Byte) (i : Nat) :
    Run (List Byte) :=
  match idx brss t with
  | .error e => .error e
  | .ok row =>
    match idx row i with
    | .error e => .error e
    | .ok si =>
      let z := si.set 31 (byte31 si &&& 0x0f)
      let w := byte31 si &&& 0xf0
      match idx pub t with
      | .error e => .error e
      | .ok ring =>
        match idx ring i with
        | .error e => .error e
        | .ok P =>
          let pneg := Point.Negate B P
          .ok (chameleon B (Point.MulAdd B pneg e z) msghash t ((i + 1) % 256 % m) w)

/-- The body of the outer loop of `Verify` for ring `t`: the bytes written to `E` so far. -/
def verifyRing (B : Lib) (msghash : List Byte) (pub : List (List B.Pt))
    (brss : List (List (List Byte))) (m : Nat) (e0 : List Byte) (E : List Byte) (t : Nat) :
    Run (List Byte) :=
  match foldRun (verifyStep B msghash pub brss t m) (List.range m) e0 with
  | .error e => .error e
  | .ok e => .ok (E ++ e)

/-- The method `(brs BRSignature) Verify(msghash, pub)`. -/
def BRSignature.Verify (B : Lib) (brs msghash : List Byte) (pub : List (List B.Pt)) :
    Run Bool :=
  match BRSignature.load brs pub with
  | (_, _, _, none) => .ok false
  | (n, m, e0, some brss) =>
    match foldRun (verifyRing B msghash pub brss m e0) (List.range n) [] with
    | .error e => .error e
    | .ok E => if e0 ≠ reduce (B.sha512 E) then .ok false else .ok true

/-- The body of the inner loop of `Recover` for slot `i` of ring `t`: the state is the
buffer `data` and the running challenge `e`. -/
def recoverStep (B : Lib) (msghash : List Byte) (pub : List (List B.Pt))
    (priv : List (List Byte)) (indices : List Byte) (brss : List (List (List Byte)))
    (t m : Nat) (st : List Byte × List Byte) (i : Nat) : Run (List Byte × List Byte) :=
  let e := Scalar.Negate st.2
  match idx brss t with
  | .error e => .error e
  | .ok row =>
    match idx row i with
    | .error e => .error e
    | .ok si =>
      let z := si.set 31 (byte31 si &&& 0x0f)
      let w := byte31 si &&& 0xf0
      match idx indices t with
      | .error e => .error e
      | .ok jb =>
        let written :=
          if i = jb.val then
            match idx priv t with
            | .error e => .error e
            | .ok p =>
              let k := Scalar.MulAdd e p z
              writeAt st.1 (slotOff t m i) (k.set 31 (byte31 k ||| w))
          else writeAt st.1 (slotOff t m i) si
        match written with
        | .error e => .error e
        | .ok data =>
          match idx pub t with
          | .error e => .error e
          | .ok ring =>
            match idx ring i with
            | .error e => .error e
            | .ok P =>
              .ok (data, chameleon B (Point.MulAdd B P e z) msghash t ((i + 1) % 256 % m) w)

/-- The body of the outer loop of `Recover` for ring `t`: the state is `data` and the bytes
written to `E` so far. -/
def recoverRing (B : Lib) (msghash : List Byte) (pub : List (List B.Pt))
    (priv : List (List Byte)) (indices : List Byte) (brss : List (List (List Byte)))
    (m : Nat) (e0 : List Byte) (st : List Byte × List Byte) (t : Nat) :
    Run (List Byte × List Byte) :=
  match foldRun (recoverStep B msghash pub priv indices brss t m) (List.range m)
      (st.1, e0) with
  | .error e => .error e
  | .ok st1 => .ok (st1.1, st.2 ++ st1.2)

/-- The method `(brs BRSignature) Recover(msghash, pub, priv, indices)`; nil is `none`. -/
def BRSignature.Recover (B : Lib) (brs msghash : List Byte) (pub : List (List B.Pt))
    (priv : List (List Byte)) (indices : List Byte) : Run (Option (List Byte)) :=
  match BRSignature.load brs pub with
  | (_, _, _, none) => .ok none
  | (n, m, e0, some brss) =>
    let data := zeros (n * m * 32)
    match foldRun (recoverRing B msghash pub priv indices brss m e0) (List.range n)
        (data, []) with
    | .error e => .error e
    | .ok st =>
      match xornoise B msghash st.1 (some st.1) priv indices with
      | .error e => .error e
      | .ok data1 => if e0 ≠ reduce (B.sha512 st.2) then .ok none else .ok (some data1)

/-! ## Vocabulary of the statements -/

/-- The 32 bytes that `BRSign` reads from the randomness array `r` for slot `i` of ring `t`:
`copy` of `r[(t*m+i)*32:]` into a `[32]byte`. -/
def chunk (r : List Byte) (t m i : Nat) : List Byte := copy32 (r.drop (slotOff t m i))

/-- The scalar part of a 32-byte response: byte 31 masked with `0x0f`. -/
def clamp (s : List Byte) : List Byte := s.set 31 (byte31 s &&& 0x0f)

/-- The nibble carried by a 32-byte response: byte 31 masked with `0xf0`. -/
def nibble (s : List Byte) : Byte := byte31 s &&& 0xf0

/-- One link of the challenge chain, at slot `i` of ring `t` with key `P`, challenge `e` and
response `s`: `chameleon(e*(-P) + z*G, msghash, t, (i+1)%m, w)`. -/
def link (B : Lib) (msghash : List Byte) (t m : Nat) (P : B.Pt) (e s : List Byte)
    (i : Nat) : List Byte :=
  chameleon B (Point.MulAdd B (Point.Negate B P) e (clamp s)) msghash t ((i + 1) % 256 % m)
    (nibble s)

/-- The chain walked over the slots `slots` of a ring, where slot `i` has response `c i`. -/
def chain (B : Lib) (msghash : List Byte) (t m : Nat) (ring : List B.Pt)
    (c : Nat → List Byte) (slots : List Nat) (e : List Byte) : List Byte :=
  slots.foldl (fun e i => link B msghash t m (ring.getD i 0) e (c i) i) e

/-- A valid signing input: a matrix of `n` rings of `m` points each, `1 ≤ n, m ≤ 255`, and
for every ring `t` an index `indices[t] < m` and a private key `priv[t]` with
`priv[t]*G = pub[t][indices[t]]`. -/
structure ValidInput (B : Lib) (pub : List (List B.Pt)) (priv : List (List Byte))
    (indices : List Byte) (n m : Nat) : Prop where
  /-- the matrix has `n` rings -/
  rings : pub.length = n
  /-- there is a ring -/
  n_pos : 1 ≤ n
  /-- the number of rings fits a byte -/
  n_le : n ≤ 255
  /-- every ring has `m` points -/
  slots : ∀ ring ∈ pub, ring.length = m
  /-- a ring has a point -/
  m_pos : 1 ≤ m
  /-- the size of a ring fits a byte -/
  m_le : m ≤ 255
  /-- the real key of every ring -/
  real : ∀ t, t < n → ∃ ring p j, pub[t]? = some ring ∧ priv[t]? = some p ∧
    indices[t]? = some j ∧ j.val < m ∧ ring[j.val]? = some (Scalar.MulBase B p)

/-- The payload, zero-padded to `N` bytes; a nil payload is `N` zero bytes. -/
def padTo (N : Nat) (data : Option (List Byte)) : List Byte :=
  match data with
  | none => zeros N
  | some d => d ++ zeros (N - d.length)

/-- The challenge that seeds the chain of ring `t` at its real slot `j`, from the nonce
`k = clamp (c j)`: `chameleon(k*G, msghash, t, (j+1)%m, saved)`. -/
def seedOf (B : Lib) (msghash r : List Byte) (t m j : Nat) : List Byte :=
  chameleon B (Point.ToProjective B (Scalar.MulBase B (clamp (chunk r t m j)))) msghash t
    ((j + 1) % 256 % m) (nibble (chunk r t m j))

/-- What the first loop of `BRSign` leaves for ring `t` with real slot `j`, in closed form. -/
def openedOf (B : Lib) (msghash r : List Byte) (ring : List B.Pt) (t m j : Nat) : Opened :=
  ⟨(List.range' (j + 1) (m - (j + 1))).foldl (fun row i => row.set i (chunk r t m i))
      (List.replicate m (zeros 32)),
    clamp (chunk r t m j), nibble (chunk r t m j),
    chain B msghash t m ring (chunk r t m) (List.range' (j + 1) (m - (j + 1)))
      (seedOf B msghash r t m j)⟩

/-- The challenge at the real slot `j` of ring `t` in the second loop of `BRSign`. -/
def realChallenge (B : Lib) (msghash r : List Byte) (ring : List B.Pt) (t m j : Nat)
    (e0 : List Byte) : List Byte :=
  chain B msghash t m ring (chunk r t m) (List.range j) e0

/-- The response `priv[t]*e + k[t] (mod L)` of the real slot `j` of ring `t`. -/
def realResponse (B : Lib) (msghash r : List Byte) (ring : List B.Pt) (p : List Byte)
    (t m j : Nat) (e0 : List Byte) : List Byte :=
  Scalar.MulAdd p (realChallenge B msghash r ring t m j e0) (clamp (chunk r t m j))

/-- The row `s[t]` that `BRSign` emits for ring `t` with real slot `j`, in closed form: the
chunk of the slot at every decoy slot and the response with the saved nibble at slot `j`. -/
def rowOf (B : Lib) (msghash r : List Byte) (ring : List B.Pt) (p : List Byte)
    (t m j : Nat) (e0 : List Byte) : List (List Byte) :=
  (List.range m).map (fun i =>
    if i = j then
      (realResponse B msghash r ring p t m j e0).set 31
        (byte31 (realResponse B msghash r ring p t m j e0) ||| nibble (chunk r t m j))
    else chunk r t m i)

/-- The key stream that `xornoise` derives from the digest, the private keys and the indices:
the Salsa20 stream for the key and the counter cut from SHA-384 of
`msg || priv[0] || ... || indices`. -/
def keystream (B : Lib) (msg : List Byte) (priv : List (List Byte)) (indices : List Byte)
    (i : Nat) : Byte :=
  B.salsa (copyInto (zeros 16) ((B.sha384 (msg ++ priv.flatten ++ indices)).take 32))
    (copy32 (B.sha384 (msg ++ priv.flatten ++ indices))) i

/-- A buffer XORed with the key stream of `xornoise`. -/
def xorStream (B : Lib) (msg : List Byte) (priv : List (List Byte)) (indices : List Byte)
    (d : List Byte) : List Byte :=
  List.zipWith (fun a b => a ^^^ b) d ((List.range d.length).map (keystream B msg priv indices))

/-- What the first loop of `BRSign` leaves for all `n` rings, in closed form. -/
def openedAll (B : Lib) (msghash r : List Byte) (pub : List (List B.Pt))
    (indices : List Byte) (n m : Nat) : List Opened :=
  (List.range n).map (fun t =>
    openedOf B msghash r (pub.getD t []) t m (indices.getD t 0).val)

/-- The global challenge `e0` of `BRSign`: SHA-512 of the closing challenges of all rings,
reduced. -/
def challenge0 (B : Lib) (msghash r : List Byte) (pub : List (List B.Pt))
    (indices : List Byte) (n m : Nat) : List Byte :=
  reduce (B.sha512 ((openedAll B msghash r pub indices n m).map Opened.closing).flatten)

/-- The response grid `s` of `BRSign`, in closed form. -/
def rowsOf (B : Lib) (msghash r : List Byte) (pub : List (List B.Pt))
    (priv : List (List Byte)) (indices : List Byte) (n m : Nat) : List (List (List Byte)) :=
  (List.range n).map (fun t =>
    rowOf B msghash r (pub.getD t []) (priv.getD t []) t m (indices.getD t 0).val
      (challenge0 B msghash r pub indices n m))

/-- The range check of `BRSign` passes in every ring: no real-slot response reaches
`2^252`. -/
def rangeOk (B : Lib) (msghash r : List Byte) (pub : List (List B.Pt))
    (priv : List (List Byte)) (indices : List Byte) (n m : Nat) : Prop :=
  ∀ t, t < n →
    byte31 (realResponse B msghash r (pub.getD t []) (priv.getD t []) t m
      (indices.getD t 0).val (challenge0 B msghash r pub indices n m)) &&& 0xf0 = 0

/-- The randomness array `r` of `BRSign`: the payload, zero-padded to `n*m*32` bytes, XORed
with the key stream. -/
def randomness (B : Lib) (msghash : List Byte) (data : Option (List Byte))
    (priv : List (List Byte)) (indices : List Byte) (n m : Nat) : List Byte :=
  xorStream B msghash priv indices (padTo (n * m * 32) data)

/-- The signature that `BRSign` returns on randomness `r`, in closed form: `e0` followed by
the response grid, ring by ring and slot by slot. -/
def signatureOf (B : Lib) (msghash r : List Byte) (pub : List (List B.Pt))
    (priv : List (List Byte)) (indices : List Byte) (n m : Nat) : List Byte :=
  challenge0 B msghash r pub indices n m ++
    (rowsOf B msghash r pub priv indices n m).flatten.flatten

/-- `Recover` applied to what `BRSign` returns, with the same digest, matrix, keys and
indices. -/
def signThenRecover (B : Lib) (msghash : List Byte) (data : Option (List Byte))
    (pub : List (List B.Pt)) (priv : List (List Byte)) (indices : List Byte) :
    Run (Option (List Byte)) :=
  match BRSign B msghash data pub priv indices with
  | .error e => .error e
  | .ok sig => BRSignature.Recover B sig msghash pub priv indices

/-- `Verify` applied to what `BRSign` returns, with the same digest and matrix. -/
def signThenVerify (B : Lib) (msghash : List Byte) (data : Option (List Byte))
    (pub : List (List B.Pt)) (priv : List (List Byte)) (indices : List Byte) : Run Bool :=
  match BRSign B msghash data pub priv indices with
  | .error e => .error e
  | .ok sig => BRSignature.Verify B sig msghash pub

/-- The key derivation of `xornoise` as the specification words it: SHA-384 of
`msg || priv[0] || ... || indices`, bytes 0-31 as the key and the remaining bytes 32-47 as the
counter.  Only the counter differs from `xornoise`. -/
def xornoiseSplit (B : Lib) (msg r : List Byte) (data : Option (List Byte))
    (priv : List (List Byte)) (indices : List Byte) : Run (List Byte) :=
  let data :=
    match data with
    | none => zeros r.length
    | some d => if d.length < r.length then d ++ zeros (r.length - d.length) else d
  let hdata := B.sha384 (msg ++ priv.flatten ++ indices)
  let key := hdata.take 32
  let counter := hdata.drop 32
  XORKeyStream B r data counter key

/-- The bytes that `BRPack` writes to its hash, in the order of the calls of `h.Write`: the
encoding of every point, ring by ring, then the message. -/
def BRPackPreimage (B : Lib) (msg : List Byte) (pub : List (List B.Pt)) : List Byte :=
  pub.foldl (fun acc ring => ring.foldl (fun acc v => acc ++ Point.Marshal B v) acc) [] ++ msg

/-- The private key vector of `Test1x1BRS`: `HashToScalar([]byte("123"))`. -/
def testPriv (B : Lib) : List (List Byte) := [HashToScalar B [49, 50, 51]]

/-- The key matrix of `Test1x1BRS`: the public key of the private key. -/
def testPub (B : Lib) : List (List B.Pt) := [[Scalar.MulBase B (HashToScalar B [49, 50, 51])]]

/-- The message of `Test1x1BRS`, `"hello"`. -/
def testMsg : List Byte := [104, 101, 108, 108, 111]

/-- The index vector of `Test1x1BRS`. -/
def testIndices : List Byte := [0]

/-- The payload of `Test1x1BRS`, the bytes of the Go string literal
`"The quick brown fox jumps over \x80"`: 31 ASCII characters and the byte `0x80`. -/
def testPayload : List Byte :=
  [84, 104, 101, 32, 113, 117, 105, 99, 107, 32, 98, 114, 111, 119, 110, 32,
   102, 111, 120, 32, 106, 117, 109, 112, 115, 32, 111, 118, 101, 114, 32, 128]

/-- The accumulator as the specification words it: the closing values of all `len(pub)` rings
of the matrix, one per ring `t`, each the chain walked from `e0` over all the slots of ring
`t` with the response grid `brss`. -/
def ringAccumulator (B : Lib) (msghash : List Byte) (pub : List (List B.Pt))
    (e0 : List Byte) (brss : List (List (List Byte))) : List Byte :=
  ((List.range pub.length).map (fun t =>
    chain B msghash t (pub.getD 0 []).length (pub.getD t [])
      (fun i => (brss.getD t []).getD i []) (List.range (pub.getD t []).length) e0)).flatten

/-! ## Reference primitives

The functions of the imported packages that the scenario of `Test1x1BRS` evaluates, written
out from their specifications: SHA-512 with its truncated variants (FIPS 180-4), the Salsa20
key stream, and the encoding of a multiple of the ed25519 base point (RFC 8032). -/

/-- Big-endian bytes of `v`, `n` of them. -/
def toBE (n v : Nat) : List Byte := (toLE n v).reverse

/-- The big-endian value of a byte string. -/
def beNat (b : List Byte) : Nat := leNat b.reverse

/-- Rotation of a 64-bit word to the right by `n` bits. -/
def rotr64 (n x : Nat) : Nat := ((x >>> n) ||| (x <<< (64 - n))) % 2 ^ 64

/-- The 80 round constants of SHA-512. -/
def sha512.K : List Nat :=
  [0x428a2f98d728ae22, 0x7137449123ef65cd, 0xb5c0fbcfec4d3b2f, 0xe9b5dba58189dbbc,
   0x3956c25bf348b538, 0x59f111f1b605d019, 0x923f82a4af194f9b, 0xab1c5ed5da6d8118,
   0xd807aa98a3030242, 0x12835b0145706fbe, 0x243185be4ee4b28c, 0x550c7dc3d5ffb4e2,
   0x72be5d74f27b896f, 0x80deb1fe3b1696b1, 0x9bdc06a725c71235, 0xc19bf174cf692694,
   0xe49b69c19ef14ad2, 0xefbe4786384f25e3, 0x0fc19dc68b8cd5b5, 0x240ca1cc77ac9c65,
   0x2de92c6f592b0275, 0x4a7484aa6ea6e483, 0x5cb0a9dcbd41fbd4, 0x76f988da831153b5,
   0x983e5152ee66dfab, 0xa831c66d2db43210, 0xb00327c898fb213f, 0xbf597fc7beef0ee4,
   0xc6e00bf33da88fc2, 0xd5a79147930aa725, 0x06ca6351e003826f, 0x142929670a0e6e70,
   0x27b70a8546d22ffc, 0x2e1b21385c26c926, 0x4d2c6dfc5ac42aed, 0x53380d139d95b3df,
   0x650a73548baf63de, 0x766a0abb3c77b2a8, 0x81c2c92e47edaee6, 0x92722c851482353b,
   0xa2bfe8a14cf10364, 0xa81a664bbc423001, 0xc24b8b70d0f89791, 0xc76c51a30654be30,
   0xd192e819d6ef5218, 0xd69906245565a910, 0xf40e35855771202a, 0x106aa07032bbd1b8,
   0x19a4c116b8d2d0c8, 0x1e376c085141ab53, 0x2748774cdf8eeb99, 0x34b0bcb5e19b48a8,
   0x391c0cb3c5c95a63, 0x4ed8aa4ae3418acb, 0x5b9cca4f7763e373, 0x682e6ff3d6b2b8a3,
   0x748f82ee5defb2fc, 0x78a5636f43172f60, 0x84c87814a1f0ab72, 0x8cc702081a6439ec,
   0x90befffa23631e28, 0xa4506cebde82bde9, 0xbef9a3f7b2c67915, 0xc67178f2e372532b,
   0xca273eceea26619c, 0xd186b8c721c0c207, 0xeada7dd6cde0eb1e, 0xf57d4f7fee6ed178,
   0x06f067aa72176fba, 0x0a637dc5a2c898a6, 0x113f9804bef90dae, 0x1b710b35131c471b,
   0x28db77f523047d84, 0x32caab7b40c72493, 0x3c9ebe0a15c9bebc, 0x431d67c49c100d4c,
   0x4cc5d4becb3e42b6, 0x597f299cfc657e2a, 0x5fcb6fab3ad6faec, 0x6c44198c4a475817]

/-- The initial hash value of SHA-512. -/
def sha512.init512 : List Nat :=
  [0x6a09e667f3bcc908, 0xbb67ae8584caa73b, 0x3c6ef372fe94f82b, 0xa54ff53a5f1d36f1,
   0x510e527fade682d1, 0x9b05688c2b3e6c1f, 0x1f83d9abfb41bd6b, 0x5be0cd19137e2179]

/-- The initial hash value of SHA-384. -/
def sha512.init384 : List Nat :=
  [0xcbbb9d5dc1059ed8, 0x629a292a367cd507, 0x9159015a3070dd17, 0x152fecd8f70e5939,
   0x67332667ffc00b31, 0x8eb44a8768581511, 0xdb0c2e0d64f98fa7, 0x47b5481dbefa4fa4]

/-- The initial hash value of SHA-512/256. -/
def sha512.init512_256 : List Nat :=
  [0x22312194fc2bf72c, 0x9f555fa3c84c64c2, 0x2393b86b6f53b151, 0x963877195940eabd,
   0x96283ee2a88effe3, 0xbe5e1e2553863992, 0x2b0199fc2c85b8aa, 0x0eb72ddc81c52ca2]

/-- The padding of SHA-512: the byte `0x80`, zero bytes up to 112 modulo 128, and the length
of the message in bits as 16 big-endian bytes. -/
def sha512.pad (msg : List Byte) : List Byte :=
  msg ++ [0x80] ++ zeros ((239 - msg.length % 128) % 128) ++ toBE 16 (8 * msg.length)

/-- The message schedule: the next `k` words, from the window `w` of the last 16 words,
`W[t] = s1(W[t-2]) + W[t-7] + s0(W[t-15]) + W[t-16]`. -/
def sha512.schedule : Nat → List Nat → List Nat
  | k + 1, [a0, a1, a2, a3, a4, a5, a6, a7, a8, a9, a10, a11, a12, a13, a14, a15] =>
    let s0 := rotr64 1 a1 ^^^ rotr64 8 a1 ^^^ (a1 >>> 7)
    let s1 := rotr64 19 a14 ^^^ rotr64 61 a14 ^^^ (a14 >>> 6)
    a0 :: sha512.schedule k
      [a1, a2, a3, a4, a5, a6, a7, a8, a9, a10, a11, a12, a13, a14, a15,
       (s1 + a9 + s0 + a0) % 2 ^ 64]
  | _, _ => []

/-- One round on the working variables `a .. h`, with the round constant and the schedule
word as `kw`. -/
def sha512.round (s : List Nat) (kw : Nat × Nat) : List Nat :=
  match s with
  | [a, b, c, d, e, f, g, h] =>
    let S1 := rotr64 14 e ^^^ rotr64 18 e ^^^ rotr64 41 e
    let ch := (e &&& f) ^^^ ((e ^^^ (2 ^ 64 - 1)) &&& g)
    let t1 := (h + S1 + ch + kw.1 + kw.2) % 2 ^ 64
    let S0 := rotr64 28 a ^^^ rotr64 34 a ^^^ rotr64 39 a
    let maj := (a &&& b) ^^^ (a &&& c) ^^^ (b &&& c)
    let t2 := (S0 + maj) % 2 ^ 64
    [(t1 + t2) % 2 ^ 64, a, b, c, (d + t1) % 2 ^ 64, e, f, g]
  | _ => s

/-- The compression of one block of 128 bytes into the hash value `s`. -/
def sha512.compress (s : List Nat) (block : List Byte) : List Nat :=
  let w := sha512.schedule 80
    ((List.range 16).map (fun i => beNat ((block.drop (8 * i)).take 8)))
  List.zipWith (fun x y => (x + y) % 2 ^ 64) s ((sha512.K.zip w).foldl sha512.round s)

/-- The compression of the first `k` blocks of `msg`. -/
def sha512.blocks (s : List Nat) : Nat → List Byte → List Nat
  | 0, _ => s
  | k + 1, msg => sha512.blocks (sha512.compress s (msg.take 128)) k (msg.drop 128)

/-- The hash with initial value `iv`, truncated to `outLen` bytes. -/
def sha512.sum (iv : List Nat) (outLen : Nat) (msg : List Byte) : List Byte :=
  (((sha512.blocks iv ((sha512.pad msg).length / 128) (sha512.pad msg)).map (toBE 8)).flatten).take
    outLen

/-- Modelled from the spec: `sha512.Sum512` of the imported package `crypto/sha512`, SHA-512
of FIPS 180-4. -/
def sha512.Sum512 (msg : List Byte) : List Byte := sha512.sum sha512.init512 64 msg

/-- Modelled from the spec: `sha512.Sum384`, SHA-384 of FIPS 180-4. -/
def sha512.Sum384 (msg : List Byte) : List Byte := sha512.sum sha512.init384 48 msg

/-- Modelled from the spec: `sha512.Sum512_256`, SHA-512/256 of FIPS 180-4. -/
def sha512.Sum512_256 (msg : List Byte) : List Byte := sha512.sum sha512.init512_256 32 msg

/-- Rotation of a 32-bit word to the left by `n` bits. -/
def rotl32 (n x : Nat) : Nat := ((x <<< n) ||| (x >>> (32 - n))) % 2 ^ 32

/-- The quarter round of Salsa20 on the words `(y0, y1, y2, y3)`. -/
def salsa.quarter (y0 y1 y2 y3 : Nat) : Nat × Nat × Nat × Nat :=
  let z1 := y1 ^^^ rotl32 7 ((y0 + y3) % 2 ^ 32)
  let z2 := y2 ^^^ rotl32 9 ((z1 + y0) % 2 ^ 32)
  let z3 := y3 ^^^ rotl32 13 ((z2 + z1) % 2 ^ 32)
  let z0 := y0 ^^^ rotl32 18 ((z3 + z2) % 2 ^ 32)
  (z0, z1, z2, z3)

/-- The double round of Salsa20 on the 16 words of the state: the quarter round on the four
columns `(0,4,8,12)`, `(5,9,13,1)`, `(10,14,2,6)`, `(15,3,7,11)`, then on the four rows
`(0,1,2,3)`, `(5,6,7,4)`, `(10,11,8,9)`, `(15,12,13,14)`. -/
def salsa.doubleRound (x : List Nat) : List Nat :=
  match x with
  | [x0, x1, x2, x3, x4, x5, x6, x7, x8, x9, x10, x11, x12, x13, x14, x15] =>
    let a := salsa.quarter x0 x4 x8 x12
    let b := salsa.quarter x5 x9 x13 x1
    let c := salsa.quarter x10 x14 x2 x6
    let d := salsa.quarter x15 x3 x7 x11
    let e := salsa.quarter a.1 b.2.2.2 c.2.2.1 d.2.1
    let f := salsa.quarter b.1 c.2.2.2 d.2.2.1 a.2.1
    let g := salsa.quarter c.1 d.2.2.2 a.2.2.1 b.2.1
    let h := salsa.quarter d.1 a.2.2.2 b.2.2.1 c.2.1
    [e.1, e.2.1, e.2.2.1, e.2.2.2, f.2.2.2, f.1, f.2.1, f.2.2.1,
     g.2.2.1, g.2.2.2, g.1, g.2.1, h.2.1, h.2.2.1, h.2.2.2, h.1]
  | _ => x

/-- The constant `Sigma`, "expand 32-byte k". -/
def salsa.Sigma : List Byte :=
  [101, 120, 112, 97, 110, 100, 32, 51, 50, 45, 98, 121, 116, 101, 32, 107]

/-- Word `i` of a byte string, little-endian. -/
def word32 (b : List Byte) (i : Nat) : Nat := leNat ((b.drop (4 * i)).take 4)

/-- The Salsa20 block of 64 bytes for the 16 bytes `counter` (nonce and block number) and the
key: 20 rounds on the input words, which are then added to the result. -/
def salsa.block (counter key : List Byte) : List Byte :=
  let inp : List Nat :=
    [word32 salsa.Sigma 0, word32 key 0, word32 key 1, word32 key 2,
     word32 key 3, word32 salsa.Sigma 1, word32 counter 0, word32 counter 1,
     word32 counter 2, word32 counter 3, word32 salsa.Sigma 2, word32 key 4,
     word32 key 5, word32 key 6, word32 key 7, word32 salsa.Sigma 3]
  let out := (List.range 10).foldl (fun x _ => salsa.doubleRound x) inp
  ((List.zipWith (fun x y => (x + y) % 2 ^ 32) out inp).map (toLE 4)).flatten

/-- Modelled from the spec: byte `i` of the key stream that `salsa.XORKeyStream` of the
imported package `salsa20/salsa` XORs to its input: block `i / 64` is made with the bytes 8-15
of the counter, read as a little-endian number, advanced by `i / 64`. -/
def salsa.stream (counter key : List Byte) (i : Nat) : Byte :=
  (salsa.block
    (counter.take 8 ++ toLE 8 ((leNat ((counter.drop 8).take 8) + i / 64) % 2 ^ 64))
    key).getD (i % 64) 0

/-- The prime `2^255 - 19` of the field of ed25519. -/
def edwards25519.p : Nat := 2 ^ 255 - 19

/-- The constant `d = -121665/121666` of the curve `-x^2 + y^2 = 1 + d x^2 y^2`. -/
def edwards25519.d : Nat :=
  37095705934669439343138083508754565189542113879843219016388785533085940283555

/-- The base point in extended coordinates `(X, Y, Z, T)`, `y = 4/5`. -/
def edwards25519.base : Nat × Nat × Nat × Nat :=
  (15112221349535400772501151409588531511454012693041857206046113283949847762202,
   46316835694926478169428394003475163141307993866256225615783033603165251855960,
   1,
   15112221349535400772501151409588531511454012693041857206046113283949847762202 *
     46316835694926478169428394003475163141307993866256225615783033603165251855960 %
     edwards25519.p)

/-- The addition of two points in extended coordinates (RFC 8032, section 5.1.4). -/
def edwards25519.add (P Q : Nat × Nat × Nat × Nat) : Nat × Nat × Nat × Nat :=
  let p := edwards25519.p
  let A := (P.2.1 + p - P.1) * (Q.2.1 + p - Q.1) % p
  let B := (P.2.1 + P.1) * (Q.2.1 + Q.1) % p
  let C := P.2.2.2 * 2 * edwards25519.d % p * Q.2.2.2 % p
  let D := P.2.2.1 * 2 * Q.2.2.1 % p
  let E := (B + p - A) % p
  let F := (D + p - C) % p
  let G := (D + C) % p
  let H := (B + A) % p
  (E * F % p, G * H % p, F * G % p, E * H % p)

/-- The multiple `k * P` by doubling and adding over the `f` low bits of `k`. -/
def edwards25519.mul : Nat → Nat → Nat × Nat × Nat × Nat → Nat × Nat × Nat × Nat
  | 0, _, _ => (0, 1, 1, 0)
  | f + 1, k, P =>
    let R := edwards25519.mul f (k / 2) (edwards25519.add P P)
    if k % 2 = 1 then edwards25519.add R P else R

/-- The power `b ^ e` modulo `m`, over the `f` low bits of `e`. -/
def powMod (b m : Nat) : Nat → Nat → Nat
  | 0, _ => 1 % m
  | f + 1, e =>
    let h := powMod (b * b % m) m f (e / 2)
    if e % 2 = 1 then h * b % m else h

/-- The encoding of a point: `y` in 255 bits, little-endian, and the low bit of `x` as bit
255 (`ToBytes`). -/
def edwards25519.toBytes (P : Nat × Nat × Nat × Nat) : List Byte :=
  let p := edwards25519.p
  let zinv := powMod P.2.2.1 p 255 (p - 2)
  let x := P.1 * zinv % p
  let y := P.2.1 * zinv % p
  toLE 32 (y + 2 ^ 255 * (x % 2))

/-- Modelled from the spec: the encoding of `a * G` as `GeScalarMultBase` followed by
`ToBytes` of the imported package `edwards25519` computes it, for a scalar `a < 2^256`. -/
def edwards25519.encodeBase (a : Nat) : List Byte :=
  edwards25519.toBytes (edwards25519.mul 256 a edwards25519.base)
/-! ## The scenario of `Test1x1BRS` on the reference primitives -/

/-- The private key of the scenario with the reference primitives: SHA-512 of `"123"`,
reduced. -/
def refKey : List Byte := reduce (sha512.Sum512 [49, 50, 51])

/-- The digest of the scenario: SHA-512/256 of the encoded public key and `"hello"`. -/
def refDigest : List Byte :=
  sha512.Sum512_256 (edwards25519.encodeBase (leNat refKey) ++ testMsg)

/-- The randomness array of the scenario: the payload XORed with the Salsa20 key stream for
the key and the counter that `xornoise` cuts from SHA-384 of digest, private key and index. -/
def refRandom : List Byte :=
  List.zipWith (fun a b => a ^^^ b) testPayload
    ((List.range testPayload.length).map
      (salsa.stream
        (copyInto (zeros 16) ((sha512.Sum384 (refDigest ++ refKey ++ testIndices)).take 32))
        (copy32 (sha512.Sum384 (refDigest ++ refKey ++ testIndices)))))

/-- The nonce of the one ring of the scenario. -/
def refNonce : List Byte := clamp (chunk refRandom 0 1 0)

/-- The closing challenge of the one ring: the chameleon hash of the commitment
`refNonce * G`. -/
def refClosing : List Byte :=
  reduce (sha512.Sum512 (edwards25519.encodeBase (leNat refNonce) ++ refDigest ++
    [Fin.ofNat 0, Fin.ofNat ((0 + 1) % 256 % 1), nibble (chunk refRandom 0 1 0)]))

/-- The global challenge `e0` of the scenario. -/
def refE0 : List Byte := reduce (sha512.Sum512 refClosing)

/-- The response of the real slot of the scenario, `priv * e0 + k (mod L)`. -/
def refResponse : List Byte := Scalar.MulAdd refKey refE0 refNonce

/-- The signature of the scenario: `e0`, then the response with the saved nibble. -/
def refSignature : List Byte :=
  refE0 ++ refResponse.set 31 (byte31 refResponse ||| nibble (chunk refRandom 0 1 0))

/-- The instance `B` computes what the imported packages compute where the scenario of
`Test1x1BRS` uses them: its hashes are SHA-512, SHA-384 and SHA-512/256, its key stream is
the Salsa20 stream, and it encodes the public key and the commitment of the scenario, the
multiples of the base point by `refKey` and by `refNonce`, as ed25519 does. -/
structure ReferencePrimitives (B : Lib) : Prop where
  /-- the hash `sha512` -/
  sum512 : B.sha512 = sha512.Sum512
  /-- the hash `sha384` -/
  sum384 : B.sha384 = sha512.Sum384
  /-- the hash `sha512_256` -/
  sum512_256 : B.sha512_256 = sha512.Sum512_256
  /-- the key stream -/
  stream : B.salsa = salsa.stream
  /-- the encoding of the public key -/
  encodeKey : B.encode (Scalar.MulBase B refKey) = edwards25519.encodeBase (leNat refKey)
  /-- the encoding of the commitment -/
  encodeNonce : B.encode (Scalar.MulBase B refNonce) =
    edwards25519.encodeBase (leNat refNonce)

/-! ## A small instance of the primitives

The theorems below hold for every `Lib`.  `toyLib` is one instance on which the definitions
can be evaluated: the cyclic group of order `2 * L` with base point `2` (so that the base
point has order `L` and the point `L` is a point of order 2 outside the subgroup of the base
point), and simple stand-ins for the hash functions and the key stream. -/

/-- The order of the group of `toyLib`. -/
def toyOrder : Nat := 2 * L

instance toyOrder_neZero : NeZero toyOrder := ⟨by decide⟩

/-- The cyclic group of order `toyOrder`, with multiplication by a natural number computed
by one multiplication. -/
def toyGrp : AddCommGroup (Fin toyOrder) :=
  { (inferInstance : AddCommGroup (Fin toyOrder)) with
    nsmul := fun n a => ⟨n * a.val % toyOrder, Nat.mod_lt _ (by decide)⟩
    nsmul_zero := by
      intro a; apply Fin.ext; simp
    nsmul_succ := by
      intro n a; apply Fin.ext
      simp only [Fin.val_add]
      rw [Nat.succ_mul, Nat.add_mod, Nat.mod_eq_of_lt a.isLt] }

/-- Decoding in `toyLib`: the little-endian value, when it is below the order. -/
def toyDecode (b : List Byte) : Option (Fin toyOrder) :=
  if h : leNat b < toyOrder then some ⟨leNat b, h⟩ else none

/-- The stand-in for a hash function with `n` bytes of output. -/
def toyHash (n : Nat) (x : List Byte) : List Byte :=
  toLE n ((leNat x + x.length + 7) ^ 3 % (2 ^ 255 - 19))

/-- The stand-in for the key stream. -/
def toyStream (counter key : List Byte) (i : Nat) : Byte :=
  Fin.ofNat (leNat counter + leNat key + 3 * i + 1)

/-- The instance of the primitives used to evaluate the definitions. -/
def toyLib : Lib where
  Pt := Fin toyOrder
  grp := toyGrp
  G := ⟨2, by decide⟩
  encode := fun P => toLE 32 P.val
  decode := toyDecode
  sha512 := toyHash 64
  sha512_256 := toyHash 32
  sha384 := toyHash 48
  salsa := toyStream
  encode_length := by
    have h : ∀ n v, (toLE n v).length = n := by
      intro n
      induction n with
      | zero => intro v; rfl
      | succ n ih => intro v; simp [toLE, ih]
    intro P; exact h 32 P.val
  decode_encode := by
    have h : ∀ n v, leNat (toLE n v) = v % 256 ^ n := by
      intro n
      induction n with
      | zero => intro v; simp [toLE, leNat, Nat.mod_one]
      | succ n ih =>
        intro v
        simp only [toLE, leNat, ih, Fin.ofNat, pow_succ]
        have h1 : v % 256 % (255 + 1) = v % 256 := by omega
        rw [h1, Nat.mul_comm (256 ^ n) 256, Nat.mod_mul]
    intro P
    have hlt : P.val < 256 ^ 32 := lt_trans P.isLt (by decide)
    have hv : leNat (toLE 32 P.val) = P.val := by rw [h, Nat.mod_eq_of_lt hlt]
    unfold toyDecode
    rw [dif_pos (by rw [hv]; exact P.isLt)]
    exact congrArg some (Fin.ext hv)
  order_G := by decide
  sha512_length := by
    have h : ∀ n v, (toLE n v).length = n := by
      intro n
      induction n with
      | zero => intro v; rfl
      | succ n ih => intro v; simp [toLE, ih]
    intro x; exact h 64 _
  sha512_256_length := by
    have h : ∀ n v, (toLE n v).length = n := by
      intro n
      induction n with
      | zero => intro v; rfl
      | succ n ih => intro v; simp [toLE, ih]
    intro x; exact h 32 _
  sha384_length := by
    have h : ∀ n v, (toLE n v).length = n := by
      intro n
      induction n with
      | zero => intro v; rfl
      | succ n ih => intro v; simp [toLE, ih]
    intro x; exact h 48 _

/-! ## A sample input -/

/-- The private keys of the sample input: two rings. -/
def toyPriv : List (List Byte) := [HashToScalar toyLib [1], HashToScalar toyLib [2]]

/-- The real slots of the sample input. -/
def toyIndices : List Byte := [1, 2]

/-- The key matrix of the sample input: two rings of three points; the decoys are points
outside the subgroup of the base point. -/
def toyPub : List (List toyLib.Pt) :=
  [[⟨7, by decide⟩, Scalar.MulBase toyLib (HashToScalar toyLib [1]), ⟨11, by decide⟩],
   [⟨13, by decide⟩, ⟨17, by decide⟩, Scalar.MulBase toyLib (HashToScalar toyLib [2])]]

/-- The message of the sample input, `"hello"`. -/
def toyMsg : List Byte := [104, 101, 108, 108, 111]

/-- The payload of the sample input. -/
def toyPayload : List Byte := [84, 104, 101, 32, 113, 117, 105, 99, 107]

/-- The private keys of the second sample input: three rings. -/
def toyPriv9 : List (List Byte) :=
  [HashToScalar toyLib [0], HashToScalar toyLib [1], HashToScalar toyLib [2]]

/-- The real slots of the second sample input. -/
def toyIndices9 : List Byte := [1, 2, 0]

/-- A decoy key in the subgroup of the base point, made as in the test of the repository
from the ring and the slot. -/
def toyDecoy (t i : Byte) : toyLib.Pt :=
  Scalar.MulBase toyLib (HashToScalar toyLib [t, i, 0xde, 0xad])

/-- The key matrix of the second sample input: three rings of three points, nine slots. -/
def toyPub9 : List (List toyLib.Pt) :=
  [[toyDecoy 0 0, Scalar.MulBase toyLib (HashToScalar toyLib [0]), toyDecoy 0 2],
   [toyDecoy 1 0, toyDecoy 1 1, Scalar.MulBase toyLib (HashToScalar toyLib [1])],
   [Scalar.MulBase toyLib (HashToScalar toyLib [2]), toyDecoy 2 1, toyDecoy 2 2]]

/-- The payload of the second sample input: 288 bytes `A`, as many as the nine slots hold. -/
def toyPayload9 : List Byte := List.replicate 288 65

/-- A key matrix of 256 rings of one key each, all with the private key `HashToScalar [1]`. -/
def toyPub256 : List (List toyLib.Pt) :=
  List.replicate 256 [Scalar.MulBase toyLib (HashToScalar toyLib [1])]

/-- The private keys for `toyPub256`. -/
def toyPriv256 : List (List Byte) := List.replicate 256 (HashToScalar toyLib [1])

/-- The real slots for `toyPub256`. -/
def toyIndices256 : List Byte := List.replicate 256 0

/-- The key matrix of the third sample input: two rings of three points, all in the subgroup
of the base point; the private keys and real slots are `toyPriv` and `toyIndices`. -/
def toyPub6 : List (List toyLib.Pt) :=
  [[toyDecoy 0 0, Scalar.MulBase toyLib (HashToScalar toyLib [1]), toyDecoy 0 2],
   [toyDecoy 1 0, toyDecoy 1 1, Scalar.MulBase toyLib (HashToScalar toyLib [2])]]

/-- A private key below `L` for which the range check of `BRSign` fires on `toyLib`: with the
nonce 0 the global challenge `e0` is 66559624783526447 and this key times `e0` is `L - 1`
modulo `L`. -/
def toyPrivRC : List Byte :=
  toLE 32 5923100460981809051593774183762892768309374281990576116716724949955781729061

/-- The payload that makes the randomness of the one slot zero: the first 32 bytes of the key
stream. -/
def toyPayloadRC : List Byte :=
  (List.range 32).map (keystream toyLib (zeros 32) [toyPrivRC] [0])

/-- A forged signature for `toyPub256`: the reduced hash of the empty string as `e0`, then
256 response elements of 32 zero bytes. -/
def toySig256 : List Byte := reduce (toyLib.sha512 []) ++ zeros (256 * 1 * 32)

/-! ## An instance with the reference primitives -/

/-- The public key of the scenario in the group of `toyLib`. -/
def refKeyPoint : Fin toyOrder := Scalar.MulBase toyLib refKey

/-- The commitment of the scenario in the group of `toyLib`. -/
def refNoncePoint : Fin toyOrder := Scalar.MulBase toyLib refNonce

set_option maxRecDepth 1000000 in
/-- An instance of the primitives with the reference hashes and key stream: its group is the
one of `toyLib`, and its encoding is the one of `toyLib` except at the public key and the
commitment of the scenario, which have their ed25519 encodings. -/
def refLib : Lib :=
  have hlen : ∀ (iv : List Nat) (n : Nat) (msg : List Byte), iv.length = 8 → n ≤ 64 →
      (sha512.sum iv n msg).length = n := by
    intro iv n msg hiv hn
    have hround : ∀ (s : List Nat) (kw : Nat × Nat), (sha512.round s kw).length = s.length := by
      intro s kw
      unfold sha512.round
      split
      · rfl
      · rfl
    have hfold : ∀ (l : List (Nat × Nat)) (s : List Nat),
        (l.foldl sha512.round s).length = s.length := by
      intro l
      induction l with
      | nil => intro s; rfl
      | cons a l ih => intro s; rw [List.foldl_cons, ih, hround]
    have hcomp : ∀ (s : List Nat) (b : List Byte), (sha512.compress s b).length = s.length := by
      intro s b
      unfold sha512.compress
      simp only [List.length_zipWith, hfold, Nat.min_self]
    have hblocks : ∀ (k : Nat) (s : List Nat) (m : List Byte),
        (sha512.blocks s k m).length = s.length := by
      intro k
      induction k with
      | zero => intro s m; rfl
      | succ k ih => intro s m; rw [sha512.blocks, ih, hcomp]
    have hbe : ∀ v : Nat, (toBE 8 v).length = 8 := by
      intro v
      unfold toBE
      rw [List.length_reverse]
      have h : ∀ n v, (toLE n v).length = n := by
        intro n
        induction n with
        | zero => intro v; rfl
        | succ n ih => intro v; simp [toLE, ih]
      exact h 8 v
    have hflat : ∀ l : List Nat, ((l.map (toBE 8)).flatten).length = 8 * l.length := by
      intro l
      induction l with
      | nil => rfl
      | cons a l ih =>
        rw [List.map_cons, List.flatten_cons, List.length_append, ih, hbe, List.length_cons]
        ring
    unfold sha512.sum
    rw [List.length_take, hflat, hblocks, hiv]
    omega
  { Pt := Fin toyOrder
    grp := toyGrp
    G := ⟨2, by decide⟩
    encode := fun P =>
      if P = refKeyPoint then edwards25519.encodeBase (leNat refKey)
      else if P = refNoncePoint then edwards25519.encodeBase (leNat refNonce)
      else toyLib.encode P
    decode := fun b =>
      if b = edwards25519.encodeBase (leNat refKey) then some refKeyPoint
      else if b = edwards25519.encodeBase (leNat refNonce) then some refNoncePoint
      else toyLib.decode b
    sha512 := sha512.Sum512
    sha512_256 := sha512.Sum512_256
    sha384 := sha512.Sum384
    salsa := salsa.stream
    encode_length := by
      intro P
      show (if P = refKeyPoint then edwards25519.encodeBase (leNat refKey)
        else if P = refNoncePoint then edwards25519.encodeBase (leNat refNonce)
        else toyLib.encode P).length = 32
      split
      · decide!
      · split
        · decide!
        · exact toyLib.encode_length P
    decode_encode := by
      have hne : edwards25519.encodeBase (leNat refNonce) ≠
          edwards25519.encodeBase (leNat refKey) := by decide!
      have h1 : (toyLib.decode (edwards25519.encodeBase (leNat refKey))).isNone = true := by
        decide!
      have h2 : (toyLib.decode (edwards25519.encodeBase (leNat refNonce))).isNone = true := by
        decide!
      intro P
      show (if (if P = refKeyPoint then edwards25519.encodeBase (leNat refKey)
            else if P = refNoncePoint then edwards25519.encodeBase (leNat refNonce)
            else toyLib.encode P) = edwards25519.encodeBase (leNat refKey)
          then some refKeyPoint
          else if (if P = refKeyPoint then edwards25519.encodeBase (leNat refKey)
            else if P = refNoncePoint then edwards25519.encodeBase (leNat refNonce)
            else toyLib.encode P) = edwards25519.encodeBase (leNat refNonce)
          then some refNoncePoint
          else toyLib.decode (if P = refKeyPoint then edwards25519.encodeBase (leNat refKey)
            else if P = refNoncePoint then edwards25519.encodeBase (leNat refNonce)
            else toyLib.encode P)) = some P
      by_cases hk : P = refKeyPoint
      · rw [if_pos hk, if_pos rfl, hk]
      · by_cases hn : P = refNoncePoint
        · rw [if_neg hk, if_pos hn, if_neg hne, if_pos rfl, hn]
        · have hd := toyLib.decode_encode P
          have e1 : toyLib.encode P ≠ edwards25519.encodeBase (leNat refKey) := by
            intro he
            rw [he] at hd
            rw [hd] at h1
            cases h1
          have e2 : toyLib.encode P ≠ edwards25519.encodeBase (leNat refNonce) := by
            intro he
            rw [he] at hd
            rw [hd] at h2
            cases h2
          rw [if_neg hk, if_neg hn, if_neg e1, if_neg e2]
          exact hd
    order_G := toyLib.order_G
    sha512_length := fun x => hlen _ 64 x rfl (le_refl _)
    sha512_256_length := fun x => hlen _ 32 x rfl (by decide)
    sha384_length := fun x => hlen _ 48 x rfl (by decide) }

/-! ## Lemmas on bytes and little-endian integers -/

theorem toLE_length (n v : Nat) : (toLE n v).length = n := by
  induction n generalizing v with
  | zero => rfl
  | succ n ih => simp [toLE, ih]

theorem leNat_lt (l : List Byte) : leNat l < 256 ^ l.length := by
  induction l with
  | nil => simp [leNat]
  | cons b bs ih =>
    have hb := b.isLt
    simp only [leNat, List.length_cons, pow_succ]
    nlinarith

theorem leNat_toLE (n v : Nat) : leNat (toLE n v) = v % 256 ^ n := by
  induction n generalizing v with
  | zero => simp [toLE, leNat, Nat.mod_one]
  | succ n ih =>
    simp only [toLE, leNat, ih, Fin.ofNat, pow_succ]
    have h1 : v % 256 % (255 + 1) = v % 256 := by omega
    rw [h1, Nat.mul_comm (256 ^ n) 256, Nat.mod_mul]

theorem toLE_leNat (l : List Byte) : toLE l.length (leNat l) = l := by
  induction l with
  | nil => rfl
  | cons b bs ih =>
    have hb := b.isLt
    simp only [List.length_cons, toLE, leNat]
    have h1 : (b.val + 256 * leNat bs) % 256 = b.val := by omega
    have h2 : (b.val + 256 * leNat bs) / 256 = leNat bs := by omega
    rw [h1, h2, ih]
    congr 1
    apply Fin.ext
    simp [Fin.ofNat]

theorem leNat_toLE_of_lt {n v : Nat} (h : v < 256 ^ n) : leNat (toLE n v) = v := by
  rw [leNat_toLE, Nat.mod_eq_of_lt h]

theorem L_lt : L < 256 ^ 32 := by unfold L; norm_num

theorem L_pos : 0 < L := by unfold L; norm_num

theorem leNat_negone : leNat negone = L - 1 := by decide!

theorem leNat_zeros (n : Nat) : leNat (zeros n) = 0 := by
  induction n with
  | zero => rfl
  | succ n ih =>
    simp only [zeros, List.replicate_succ, leNat] at ih ⊢
    simp [ih]

theorem leNat_ScMulAdd (a b c : List Byte) :
    leNat (ScMulAdd a b c) = (leNat a * leNat b + leNat c) % L := by
  unfold ScMulAdd
  exact leNat_toLE_of_lt (lt_trans (Nat.mod_lt _ L_pos) L_lt)

theorem leNat_reduce (s : List Byte) : leNat (reduce s) = leNat s % L := by
  unfold reduce ScReduce
  exact leNat_toLE_of_lt (lt_trans (Nat.mod_lt _ L_pos) L_lt)

theorem leNat_append (a b : List Byte) :
    leNat (a ++ b) = leNat a + 256 ^ a.length * leNat b := by
  induction a with
  | nil => simp [leNat]
  | cons x xs ih =>
    rw [List.cons_append, leNat, leNat, ih, List.length_cons, pow_succ]
    ring

theorem getElem?_toLE (n v i : Nat) (h : i < n) :
    (toLE n v)[i]? = some (Fin.ofNat (v / 256 ^ i % 256)) := by
  induction n generalizing v i with
  | zero => omega
  | succ n ih =>
    cases i with
    | zero => simp [toLE]
    | succ i =>
      simp only [toLE, List.getElem?_cons_succ]
      rw [ih (v / 256) i (by omega), Nat.div_div_eq_div_mul, pow_succ, Nat.mul_comm]

theorem byte31_toLE (v : Nat) : byte31 (toLE 32 v) = Fin.ofNat (v / 256 ^ 31 % 256) := by
  unfold byte31
  rw [List.getD_eq_getElem?_getD, getElem?_toLE 32 v 31 (by omega)]
  rfl

theorem byte_and_f0_eq_zero_iff (b : Byte) : b &&& 0xf0 = 0 ↔ b.val < 16 := by
  revert b; decide!

theorem byte_and_e0_eq_zero_iff (b : Byte) : b &&& 0xe0 = 0 ↔ b.val < 32 := by
  revert b; decide!

theorem byte_and_0f_lt (b : Byte) : (b &&& 0x0f).val < 16 := by
  revert b; decide!

theorem byte_and_0f_and_f0 (b : Byte) : (b &&& 0x0f) &&& 0xf0 = 0 := by
  revert b; decide!

theorem byte_split (b : Byte) : (b &&& 0x0f) ||| (b &&& 0xf0) = b := by
  revert b; decide!

theorem copyInto_length (dst src : List Byte) : (copyInto dst src).length = dst.length := by
  unfold copyInto
  simp only [List.length_append, List.length_take, List.length_drop]
  omega

theorem copy32_length (b : List Byte) : (copy32 b).length = 32 := by
  unfold copy32
  rw [copyInto_length]
  simp [zeros]

theorem set31_eq (l : List Byte) (hl : l.length = 32) (b : Byte) :
    l.set 31 b = l.take 31 ++ [b] := by
  rw [List.set_eq_take_append_cons_drop, if_pos (by omega)]
  congr 2
  apply List.eq_nil_of_length_eq_zero
  simp [hl]

theorem byte31_set31 (l : List Byte) (hl : l.length = 32) (b : Byte) :
    byte31 (l.set 31 b) = b := by
  unfold byte31
  rw [List.getD_eq_getElem?_getD, List.getElem?_set_self (by omega)]
  rfl

theorem leNat_set31 (l : List Byte) (hl : l.length = 32) (b : Byte) :
    leNat (l.set 31 b) = leNat (l.take 31) + 256 ^ 31 * b.val := by
  rw [set31_eq l hl, leNat_append]
  simp [leNat, hl]

theorem leNat_take31_lt (l : List Byte) (hl : l.length = 32) :
    leNat (l.take 31) < 256 ^ 31 := by
  have h := leNat_lt (l.take 31)
  simpa [hl] using h

/-- The clamped copy that `clampSave` and `Verify` make of a 32-byte element. -/
theorem leNat_clamp_lt (l : List Byte) (hl : l.length = 32) :
    leNat (l.set 31 (byte31 l &&& 0x0f)) < 2 ^ 252 := by
  rw [leNat_set31 l hl]
  have h1 := leNat_take31_lt l hl
  have h2 := byte_and_0f_lt (byte31 l)
  have h3 : (2 : Nat) ^ 252 = 256 ^ 31 * 16 := by norm_num
  rw [h3]
  nlinarith

theorem clampSave_eq (inp : List Byte) (h : 32 ≤ inp.length) :
    clampSave inp =
      .ok ((copy32 inp).set 31 (byte31 (copy32 inp) &&& 0x0f), byte31 (copy32 inp) &&& 0xf0) := by
  unfold clampSave
  have h1 : inp[31]? = some (byte31 (copy32 inp)) := by
    unfold byte31 copy32 copyInto
    rw [List.getD_eq_getElem?_getD, List.getElem?_append_left (by simp [zeros]; omega),
      List.getElem?_take]
    simp only [zeros, List.length_replicate, Nat.lt_add_one, ↓reduceIte]
    rw [List.getElem?_eq_getElem (by omega)]
    rfl
  rw [h1]

theorem clampSave_error (inp : List Byte) (h : inp.length < 32) :
    clampSave inp = .error .runtime := by
  unfold clampSave
  rw [List.getElem?_eq_none (by omega)]

theorem byte31_reduce_val (y : List Byte) :
    (byte31 (reduce y)).val = leNat y % L / 256 ^ 31 := by
  unfold reduce ScReduce
  rw [byte31_toLE]
  have h : leNat y % L < L := Nat.mod_lt _ L_pos
  have h2 : leNat y % L / 256 ^ 31 < 256 := by
    apply Nat.div_lt_of_lt_mul
    exact lt_trans h (by unfold L; norm_num)
  simp only [Fin.ofNat, Nat.mod_eq_of_lt h2]

/-- C9: for every 32-byte scalar `a`, `Negate a` is canonical (below `L`), its sum with `a`
is `0` modulo `L`, and it is computed as `(L-1)*a + 0 mod L`. -/
theorem Scalar_Negate_law (a : List Byte) (_ha : a.length = 32) :
    (Scalar.Negate a).length = 32 ∧ leNat (Scalar.Negate a) < L ∧
      (leNat a + leNat (Scalar.Negate a)) % L = 0 ∧
      leNat (Scalar.Negate a) = ((L - 1) * leNat a + 0) % L := by
  have hv : leNat (Scalar.Negate a) = ((L - 1) * leNat a + 0) % L := by
    unfold Scalar.Negate
    rw [leNat_ScMulAdd, leNat_negone, leNat_zeros]
  refine ⟨toLE_length _ _, ?_, ?_, hv⟩
  · rw [hv]; exact Nat.mod_lt _ L_pos
  · rw [hv, Nat.add_zero, Nat.add_mod_mod]
    have h : leNat a + (L - 1) * leNat a = L * leNat a := by
      have := L_pos
      obtain ⟨k, hk⟩ : ∃ k, L = k + 1 := ⟨L - 1, by omega⟩
      rw [hk]; simp; ring
    rw [h, Nat.mul_mod_right]

/-- C9 at the scalar `1`: its negation is `L - 1`. -/
theorem Scalar_Negate_law_witness :
    (toLE 32 1).length = 32 ∧ (leNat (toLE 32 1) + leNat (Scalar.Negate (toLE 32 1))) % L = 0 :=
  ⟨by decide, (Scalar_Negate_law (toLE 32 1) (by decide)).2.2.1⟩

/-- C10 as stated fails: the 64-byte input `2^252` is below `L`, so `reduce` returns it
unchanged and byte 31 of the result is `0x10`. -/
theorem top_nibble_counterexample :
    byte31 (reduce (toLE 64 (2 ^ 252))) &&& 0xf0 ≠ 0 := by decide!

/-- C10, amended: a scalar produced by `clampSave` has bits 252-255 zero and is below
`2^252`; a scalar produced by `reduce` (hence by `HashToScalar` and `chameleon`) is below `L`,
so its bits 253-255 are zero, and its bit 252 is zero exactly when the reduced value is below
`2^252`. -/
theorem top_nibble_amended (B : Lib) (x y out : List Byte) (w : Byte)
    (h : clampSave x = .ok (out, w)) :
    (byte31 out &&& 0xf0 = 0 ∧ leNat out < 2 ^ 252) ∧
      (leNat (reduce y) < L ∧ byte31 (reduce y) &&& 0xe0 = 0 ∧
        (byte31 (reduce y) &&& 0xf0 = 0 ↔ leNat y % L < 2 ^ 252)) ∧
      HashToScalar B y = reduce (B.sha512 y) ∧
      ∀ R msg t i z, ∃ s, chameleon B R msg t i z = reduce s := by
  have hx : 32 ≤ x.length := by
    by_contra hc
    rw [clampSave_error x (by omega)] at h
    cases h
  rw [clampSave_eq x hx] at h
  injection h with h
  injection h with h1 h2
  subst h1
  have hv := byte31_reduce_val y
  have hL : leNat y % L < L := Nat.mod_lt _ L_pos
  refine ⟨⟨?_, leNat_clamp_lt _ (copy32_length x)⟩, ⟨?_, ?_, ?_⟩, rfl, ?_⟩
  · rw [byte31_set31 _ (copy32_length x)]
    exact byte_and_0f_and_f0 _
  · rw [leNat_reduce]; exact hL
  · rw [byte_and_e0_eq_zero_iff, hv]
    apply Nat.div_lt_of_lt_mul
    exact lt_trans hL (by unfold L; norm_num)
  · rw [byte_and_f0_eq_zero_iff, hv]
    have h3 : (2 : Nat) ^ 252 = 256 ^ 31 * 16 := by norm_num
    rw [h3, Nat.div_lt_iff_lt_mul (by norm_num)]
    constructor <;> intro h <;> linarith
  · intro R msg t i z
    exact ⟨_, rfl⟩

/-- C10, amended, at the 32 bytes `0xff`: the clamped scalar is `2^252 - 1`. -/
theorem top_nibble_amended_witness :
    clampSave (List.replicate 32 0xff) =
        .ok (List.replicate 31 0xff ++ [0x0f], 0xf0) ∧
      byte31 (List.replicate 31 (0xff : Byte) ++ [0x0f]) &&& 0xf0 = 0 ∧
      leNat (reduce (toLE 64 (2 ^ 252))) < L :=
  ⟨by decide,
   (top_nibble_amended toyLib (List.replicate 32 0xff) (toLE 64 (2 ^ 252))
      (List.replicate 31 0xff ++ [0x0f]) 0xf0 (by decide)).1.1,
   (top_nibble_amended toyLib (List.replicate 32 0xff) (toLE 64 (2 ^ 252))
      (List.replicate 31 0xff ++ [0x0f]) 0xf0 (by decide)).2.1.1⟩

/-! ## Loading a signature -/

/-- C4: when the matrix is empty, its first ring is empty, or the signature has not
`32 + len(pub)*len(pub[0])*32` bytes, `load` returns no response grid, `Verify` returns false
and `Recover` returns nil. -/
theorem length_rejection (B : Lib) (brs msghash : List Byte) (pub : List (List B.Pt))
    (priv : List (List Byte)) (indices : List Byte)
    (h : pub = [] ∨ pub.head? = some [] ∨
      brs.length ≠ 32 + pub.length * (pub.headD []).length * 32) :
    (BRSignature.load brs pub).2.2.2 = none ∧
      BRSignature.Verify B brs msghash pub = .ok false ∧
      BRSignature.Recover B brs msghash pub priv indices = .ok none := by
  have hload : BRSignature.load brs pub = (0, 0, zeros 32, none) := by
    unfold BRSignature.load
    cases pub with
    | nil => rfl
    | cons pub0 rest =>
      simp only
      by_cases hm : pub0.length = 0
      · rw [if_pos hm]
      · rw [if_neg hm]
        rcases h with h | h | h
        · cases h
        · simp only [List.head?_cons, Option.some.injEq] at h
          rw [h] at hm
          exact absurd rfl hm
        · rw [if_pos]
          simp only [List.headD_cons] at h
          intro hc
          apply h
          rw [hc]
          ring
  unfold BRSignature.Verify BRSignature.Recover
  rw [hload]
  exact ⟨rfl, rfl, rfl⟩

/-- C4 on a one-key matrix and a 63-byte signature. -/
theorem length_rejection_witness :
    (List.replicate 63 (0 : Byte)).length ≠ 32 + 1 * 1 * 32 ∧
      BRSignature.Verify toyLib (List.replicate 63 0) (zeros 32) [[toyLib.G]] = .ok false ∧
      BRSignature.Recover toyLib (List.replicate 63 0) (zeros 32) [[toyLib.G]] [zeros 32] [0]
        = .ok none :=
  ⟨by decide,
   (length_rejection toyLib (List.replicate 63 0) (zeros 32) [[toyLib.G]] [zeros 32] [0]
      (Or.inr (Or.inr (by decide)))).2⟩

/-! ## Packing -/

theorem BRPack_ring_fold (B : Lib) (ring : List B.Pt) (acc : List Byte × List Byte) :
    ring.foldl (fun (acc : List Byte × List Byte) v =>
        (acc.1 ++ Point.Marshal B v, acc.2 ++ Point.Marshal B v)) acc =
      (acc.1 ++ (ring.map B.encode).flatten, acc.2 ++ (ring.map B.encode).flatten) := by
  induction ring generalizing acc with
  | nil => simp
  | cons P ps ih =>
    simp only [List.foldl_cons, ih, List.map_cons, List.flatten_cons, List.append_assoc]
    rfl

theorem BRPack_fold (B : Lib) (pub : List (List B.Pt)) (acc : List Byte × List Byte) :
    pub.foldl (fun acc ring =>
        ring.foldl (fun (acc : List Byte × List Byte) v =>
          (acc.1 ++ Point.Marshal B v, acc.2 ++ Point.Marshal B v)) acc) acc =
      (acc.1 ++ (pub.flatten.map B.encode).flatten,
        acc.2 ++ (pub.flatten.map B.encode).flatten) := by
  induction pub generalizing acc with
  | nil => simp
  | cons ring rest ih =>
    rw [List.foldl_cons, BRPack_ring_fold, ih]
    simp only [List.flatten_cons, List.map_append, List.flatten_append, List.append_assoc]

theorem BRPack_eq (B : Lib) (msg : List Byte) (pub : List (List B.Pt)) :
    BRPack B msg pub =
      (B.sha512_256 ((pub.flatten.map B.encode).flatten ++ msg),
        (pub.flatten.map B.encode).flatten) := by
  unfold BRPack
  simp only [BRPack_fold, List.nil_append]

theorem encodings_length (B : Lib) (ps : List B.Pt) :
    ((ps.map B.encode).flatten).length = 32 * ps.length := by
  induction ps with
  | nil => rfl
  | cons P ps ih =>
    simp only [List.map_cons, List.flatten_cons, List.length_append, B.encode_length, ih,
      List.length_cons]
    ring

/-- C8: the key list that `BRPack` returns is the concatenation of the 32-byte encodings of
all points, ring by ring and slot by slot, of length 32 times the number of points, and the
digest is SHA-512/256 of that concatenation followed by the message. -/
theorem BRPack_output (B : Lib) (msg : List Byte) (pub : List (List B.Pt)) :
    (BRPack B msg pub).2 = (pub.flatten.map (Point.Encode B)).flatten ∧
      (BRPack B msg pub).2.length = 32 * pub.flatten.length ∧
      (BRPack B msg pub).1 = B.sha512_256 ((BRPack B msg pub).2 ++ msg) ∧
      (BRPack B msg pub).1.length = 32 := by
  rw [BRPack_eq]
  exact ⟨rfl, encodings_length B _, rfl, B.sha512_256_length _⟩

/-! ## Unpacking -/

theorem copy32_of_le (b : List Byte) (h : 32 ≤ b.length) : copy32 b = b.take 32 := by
  unfold copy32 copyInto
  have h1 : (zeros 32).drop b.length = [] := by
    apply List.drop_eq_nil_of_le
    simp [zeros]; omega
  rw [h1]
  simp [zeros]

theorem copy32_append (a rest : List Byte) (h : a.length = 32) : copy32 (a ++ rest) = a := by
  rw [copy32_of_le _ (by simp [h]), List.take_append_of_le_length (by omega),
    List.take_of_length_le (by omega)]

theorem Unmarshal_encode (B : Lib) (P : B.Pt) (rest : List Byte) :
    Point.Unmarshal B (B.encode P ++ rest) = .ok (some (P, rest)) := by
  unfold Point.Unmarshal
  rw [copy32_append _ _ (B.encode_length P), B.decode_encode]
  simp only [sliceFrom, List.length_append, B.encode_length]
  rw [if_pos (by omega), List.drop_append_of_le_length (by rw [B.encode_length]),
    List.drop_of_length_le (by rw [B.encode_length]), List.nil_append]

theorem unpackRing_pack (B : Lib) (ring : List B.Pt) (h rest : List Byte) :
    unpackRing B ring.length h ((ring.map B.encode).flatten ++ rest) =
      .ok (some (ring, h ++ (ring.map B.encode).flatten, rest)) := by
  induction ring generalizing h with
  | nil => simp [unpackRing]
  | cons P ps ih =>
    simp only [List.length_cons, List.map_cons, List.flatten_cons, List.append_assoc]
    unfold unpackRing
    rw [if_neg (by simp [B.encode_length]), Unmarshal_encode]
    simp only
    rw [List.take_append_of_le_length (by rw [B.encode_length]),
      List.take_of_length_le (by rw [B.encode_length]), ih]
    simp only [List.append_assoc]

theorem unpackRings_pack (B : Lib) (m : Nat) (pub : List (List B.Pt))
    (hm : ∀ ring ∈ pub, ring.length = m) (h rest : List Byte) :
    unpackRings B m pub.length h ((pub.flatten.map B.encode).flatten ++ rest) =
      .ok (some (pub, h ++ (pub.flatten.map B.encode).flatten)) := by
  induction pub generalizing h with
  | nil => simp [unpackRings]
  | cons ring rings ih =>
    have hr : ring.length = m := hm ring (List.mem_cons_self _ _)
    simp only [List.length_cons, List.flatten_cons, List.map_append, List.flatten_append,
      List.append_assoc]
    unfold unpackRings
    rw [← hr, unpackRing_pack]
    simp only
    rw [hr, ih (fun r hmem => hm r (List.mem_cons_of_mem _ hmem))]
    simp only [List.append_assoc]

/-- C5: unpacking the key list that `BRPack` made of a rectangular matrix of `n` rings of `m`
valid points, `1 ≤ n, m ≤ 255`, returns a non-nil matrix of the same shape whose entries have
the same encodings as those of `pub`, and the digest that `BRPack` returned. -/
theorem pack_unpack_roundtrip (B : Lib) (msg : List Byte) (pub : List (List B.Pt))
    (n m : Nat) (hn : pub.length = n) (hn1 : 1 ≤ n) (hn2 : n ≤ 255)
    (hm : ∀ ring ∈ pub, ring.length = m) (hm1 : 1 ≤ m) (hm2 : m ≤ 255) :
    ∃ points, BRUnpack B msg (BRPack B msg pub).2 (Fin.ofNat n) (Fin.ofNat m) =
        .ok ((BRPack B msg pub).1, some points) ∧
      points.length = n ∧ (∀ ring ∈ points, ring.length = m) ∧
      points.map (fun ring => ring.map (Point.Encode B)) =
        pub.map (fun ring => ring.map (Point.Encode B)) := by
  refine ⟨pub, ?_, hn, hm, rfl⟩
  have h1 : (Fin.ofNat n : Byte).val = pub.length := by
    simp only [Fin.ofNat]; omega
  have h2 : (Fin.ofNat m : Byte).val = m := by
    simp only [Fin.ofNat]; omega
  unfold BRUnpack
  rw [BRPack_eq, h1, h2]
  have h3 := unpackRings_pack B m pub hm [] []
  rw [List.append_nil] at h3
  rw [h3]
  simp

/-- C5 on the one-key matrix of the base point. -/
theorem pack_unpack_roundtrip_witness :
    ∃ points, BRUnpack toyLib [104, 105] (BRPack toyLib [104, 105] [[toyLib.G]]).2
        (Fin.ofNat 1) (Fin.ofNat 1) =
        .ok ((BRPack toyLib [104, 105] [[toyLib.G]]).1, some points) ∧
      points.length = 1 ∧ (∀ ring ∈ points, ring.length = 1) ∧
      points.map (fun ring => ring.map (Point.Encode toyLib)) =
        [[toyLib.G]].map (fun ring => ring.map (Point.Encode toyLib)) :=
  pack_unpack_roundtrip toyLib [104, 105] [[toyLib.G]] 1 1 rfl (by decide) (by decide)
    (by intro ring hr; simp at hr; rw [hr]; rfl) (by decide) (by decide)

theorem Unmarshal_of_le (B : Lib) (b : List Byte) (h : 32 ≤ b.length) :
    Point.Unmarshal B b =
      .ok ((B.decode (copy32 b)).map (fun P => (P, b.drop 32))) := by
  unfold Point.Unmarshal
  cases B.decode (copy32 b) with
  | none => rfl
  | some P => simp [sliceFrom, h]

theorem unpackRing_some (B : Lib) (cnt : Nat) (h pubs : List Byte) (ps : List B.Pt)
    (h1 rest : List Byte) (hr : unpackRing B cnt h pubs = .ok (some (ps, h1, rest))) :
    32 * cnt ≤ pubs.length ∧ rest = pubs.drop (32 * cnt) ∧ h1 = h ++ pubs.take (32 * cnt) ∧
      ∀ k, k < cnt → B.decode (copy32 (pubs.drop (32 * k))) ≠ none := by
  induction cnt generalizing h pubs ps h1 rest with
  | zero =>
    simp only [unpackRing, Except.ok.injEq, Option.some.injEq, Prod.mk.injEq] at hr
    obtain ⟨-, h2, h3⟩ := hr
    subst h2 h3
    simp
  | succ cnt ih =>
    unfold unpackRing at hr
    by_cases hlen : pubs.length < 32
    · rw [if_pos hlen] at hr; cases hr
    · rw [if_neg hlen, Unmarshal_of_le B pubs (by omega)] at hr
      cases hd : B.decode (copy32 pubs) with
      | none => rw [hd] at hr; cases hr
      | some P =>
        rw [hd] at hr
        simp only [Option.map_some'] at hr
        cases hrec : unpackRing B cnt (h ++ pubs.take 32) (pubs.drop 32) with
        | error e => rw [hrec] at hr; cases hr
        | ok r =>
          rw [hrec] at hr
          cases r with
          | none => cases hr
          | some r =>
            obtain ⟨ps1, h2, rest1⟩ := r
            simp only [Except.ok.injEq, Option.some.injEq, Prod.mk.injEq] at hr
            obtain ⟨-, hh, hrest⟩ := hr
            subst hh hrest
            obtain ⟨i1, i2, i3, i4⟩ := ih _ _ _ _ _ hrec
            rw [List.length_drop] at i1
            refine ⟨by omega, ?_, ?_, ?_⟩
            · rw [i2, List.drop_drop]; congr 1; ring
            · rw [i3, List.append_assoc]
              congr 1
              have h5 : 32 * (cnt + 1) = 32 + 32 * cnt := by ring
              rw [h5, List.take_add]
            · intro k hk
              cases k with
              | zero => simp [hd]
              | succ k =>
                have := i4 k (by omega)
                rw [List.drop_drop] at this
                have h5 : 32 * (k + 1) = 32 + 32 * k := by ring
                rw [h5]
                exact this

theorem unpackRing_ok (B : Lib) (cnt : Nat) (h pubs : List Byte) :
    ∃ r, unpackRing B cnt h pubs = .ok r := by
  induction cnt generalizing h pubs with
  | zero => exact ⟨_, rfl⟩
  | succ cnt ih =>
    unfold unpackRing
    by_cases hlen : pubs.length < 32
    · rw [if_pos hlen]; exact ⟨_, rfl⟩
    · rw [if_neg hlen, Unmarshal_of_le B pubs (by omega)]
      cases hd : B.decode (copy32 pubs) with
      | none => exact ⟨_, rfl⟩
      | some P =>
        simp only [Option.map_some']
        obtain ⟨r, hr⟩ := ih (h ++ pubs.take 32) (pubs.drop 32)
        rw [hr]
        cases r with
        | none => exact ⟨_, rfl⟩
        | some r => exact ⟨_, rfl⟩

theorem unpackRings_some (B : Lib) (n cnt : Nat) (h pubs : List Byte)
    (rings : List (List B.Pt)) (h1 : List Byte)
    (hr : unpackRings B n cnt h pubs = .ok (some (rings, h1))) :
    32 * (cnt * n) ≤ pubs.length ∧ h1 = h ++ pubs.take (32 * (cnt * n)) ∧
      ∀ k, k < cnt * n → B.decode (copy32 (pubs.drop (32 * k))) ≠ none := by
  induction cnt generalizing h pubs rings h1 with
  | zero =>
    simp only [unpackRings, Except.ok.injEq, Option.some.injEq, Prod.mk.injEq] at hr
    obtain ⟨-, h2⟩ := hr
    subst h2
    simp
  | succ cnt ih =>
    unfold unpackRings at hr
    cases hring : unpackRing B n h pubs with
    | error e => rw [hring] at hr; cases hr
    | ok r =>
      rw [hring] at hr
      cases r with
      | none => cases hr
      | some r =>
        obtain ⟨ring, h2, rest⟩ := r
        simp only at hr
        cases hrec : unpackRings B n cnt h2 rest with
        | error e => rw [hrec] at hr; cases hr
        | ok r2 =>
          rw [hrec] at hr
          cases r2 with
          | none => cases hr
          | some r2 =>
            obtain ⟨rings1, h3⟩ := r2
            simp only [Except.ok.injEq, Option.some.injEq, Prod.mk.injEq] at hr
            obtain ⟨-, hh⟩ := hr
            subst hh
            obtain ⟨a1, a2, a3, a4⟩ := unpackRing_some B n h pubs ring h2 rest hring
            obtain ⟨b1, b2, b3⟩ := ih _ _ _ _ hrec
            subst a2
            rw [List.length_drop] at b1
            have e1 : 32 * ((cnt + 1) * n) = 32 * n + 32 * (cnt * n) := by ring
            refine ⟨by rw [e1]; omega, ?_, ?_⟩
            · rw [b2, a3, List.append_assoc, e1, List.take_add]
            · intro k hk
              by_cases hkn : k < n
              · exact a4 k hkn
              · have := b3 (k - n) (by
                  have : (cnt + 1) * n = n + cnt * n := by ring
                  omega)
                rw [List.drop_drop] at this
                have e2 : 32 * n + 32 * (k - n) = 32 * k := by
                  have : n ≤ k := by omega
                  obtain ⟨d, rfl⟩ := Nat.exists_eq_add_of_le this
                  simp; ring
                rw [e2] at this
                exact this

theorem unpackRings_ok (B : Lib) (n cnt : Nat) (h pubs : List Byte) :
    ∃ r, unpackRings B n cnt h pubs = .ok r := by
  induction cnt generalizing h pubs with
  | zero => exact ⟨_, rfl⟩
  | succ cnt ih =>
    unfold unpackRings
    obtain ⟨r, hr⟩ := unpackRing_ok B n h pubs
    rw [hr]
    cases r with
    | none => exact ⟨_, rfl⟩
    | some r =>
      obtain ⟨ring, h2, rest⟩ := r
      simp only
      obtain ⟨r2, hr2⟩ := ih h2 rest
      rw [hr2]
      cases r2 with
      | none => exact ⟨_, rfl⟩
      | some r2 => exact ⟨_, rfl⟩

/-- What `BRUnpack` returns: nil with the zero digest, or a matrix; it never panics. -/
theorem BRUnpack_cases (B : Lib) (msg pubs : List Byte) (m n : Byte) :
    BRUnpack B msg pubs m n = .ok (zeros 32, none) ∨
      ∃ points h, unpackRings B n.val m.val [] pubs = .ok (some (points, h)) ∧
        BRUnpack B msg pubs m n = .ok (B.sha512_256 (h ++ msg), some points) := by
  unfold BRUnpack
  obtain ⟨r, hr⟩ := unpackRings_ok B n.val m.val [] pubs
  rw [hr]
  cases r with
  | none => exact Or.inl rfl
  | some r => exact Or.inr ⟨r.1, r.2, rfl, rfl⟩

theorem BRUnpack_nil (B : Lib) (msg pubs : List Byte) (n m : Byte)
    (h : pubs.length < n.val * m.val * 32 ∨
      ∃ k, k < n.val * m.val ∧ B.decode (copy32 (pubs.drop (32 * k))) = none) :
    BRUnpack B msg pubs n m = .ok (zeros 32, none) := by
  rcases BRUnpack_cases B msg pubs n m with hc | ⟨points, h1, hu, -⟩
  · exact hc
  · obtain ⟨a1, -, a3⟩ := unpackRings_some B _ _ _ _ _ _ hu
    rcases h with h | ⟨k, hk, hd⟩
    · exfalso
      have : 32 * (n.val * m.val) = n.val * m.val * 32 := by ring
      omega
    · exact absurd hd (a3 k hk)

/-- C6: `BRUnpack` for `n` rings of `m` points returns a nil matrix when the key blob has
fewer than `n*m*32` bytes, and also when one of the `n*m` chunks of 32 bytes is not the
encoding of a curve point. -/
theorem unpack_insufficient (B : Lib) (msg pubs : List Byte) (n m : Byte)
    (h : pubs.length < n.val * m.val * 32 ∨
      ∃ k, k < n.val * m.val ∧ B.decode (copy32 (pubs.drop (32 * k))) = none) :
    BRUnpack B msg pubs n m = .ok (zeros 32, none) :=
  BRUnpack_nil B msg pubs n m h

/-- C6 on a 31-byte blob for a one-key matrix. -/
theorem unpack_insufficient_witness :
    (List.replicate 31 (1 : Byte)).length < (1 : Byte).val * (1 : Byte).val * 32 ∧
      BRUnpack toyLib [104, 105] (List.replicate 31 1) 1 1 = .ok (zeros 32, none) :=
  ⟨by decide, unpack_insufficient toyLib [104, 105] (List.replicate 31 1) 1 1
    (Or.inl (by decide))⟩

/-- C7 as stated fails: a 33-byte blob, the encoding of the base point followed by one more
byte, is unpacked as a matrix of one ring of one point, although its length is not 32. -/
theorem unpack_length_mismatch_counterexample :
    (toyLib.encode toyLib.G ++ [0]).length ≠ 1 * 1 * 32 ∧
      BRUnpack toyLib [104, 105] (toyLib.encode toyLib.G ++ [0]) 1 1 =
        .ok ((BRPack toyLib [104, 105] [[toyLib.G]]).1, some [[toyLib.G]]) := by
  refine ⟨by decide, ?_⟩
  have h : unpackRings toyLib (1 : Byte).val (1 : Byte).val [] (toyLib.encode toyLib.G ++ [0])
      = .ok (some ([[toyLib.G]], toyLib.encode toyLib.G)) := by
    have h0 := unpackRings_pack toyLib 1 [[toyLib.G]]
      (by intro ring hr; simp at hr; rw [hr]; rfl) [] [0]
    simpa using h0
  unfold BRUnpack
  rw [BRPack_eq, h]
  simp

/-- C7, amended: `BRUnpack` for `n` rings of `m` points returns no matrix when the key blob is
shorter than `n*m*32` bytes; a longer blob is not rejected for its length: the key list packed
from an `n` by `m` matrix, followed by any further bytes, unpacks to the same matrix and the
same digest as the packed key list alone. -/
theorem unpack_length_mismatch_amended (B : Lib) (msg pubs extra : List Byte)
    (pub : List (List B.Pt)) (n m : Nat) (hn : pub.length = n) (hn2 : n ≤ 255)
    (hm : ∀ ring ∈ pub, ring.length = m) (hm2 : m ≤ 255) :
    (pubs.length < n * m * 32 →
        BRUnpack B msg pubs (Fin.ofNat n) (Fin.ofNat m) = .ok (zeros 32, none)) ∧
      BRUnpack B msg ((BRPack B msg pub).2 ++ extra) (Fin.ofNat n) (Fin.ofNat m) =
        .ok ((BRPack B msg pub).1, some pub) := by
  have h1 : (Fin.ofNat n : Byte).val = n := by
    simp only [Fin.ofNat]; omega
  have h2 : (Fin.ofNat m : Byte).val = m := by
    simp only [Fin.ofNat]; omega
  constructor
  · intro hlt
    exact BRUnpack_nil B msg pubs _ _ (Or.inl (by rw [h1, h2]; exact hlt))
  · unfold BRUnpack
    rw [BRPack_eq, h1, h2, ← hn, unpackRings_pack B m pub hm [] extra]
    simp

/-- C7, amended, on the one-key matrix of the base point and three further bytes. -/
theorem unpack_length_mismatch_amended_witness :
    BRUnpack toyLib [104, 105] ((BRPack toyLib [104, 105] [[toyLib.G]]).2 ++ [1, 2, 3])
        (Fin.ofNat 1) (Fin.ofNat 1) =
      .ok ((BRPack toyLib [104, 105] [[toyLib.G]]).1, some [[toyLib.G]]) :=
  (unpack_length_mismatch_amended toyLib [104, 105] [] [1, 2, 3] [[toyLib.G]] 1 1 rfl
    (by decide) (by intro ring hr; simp at hr; rw [hr]; rfl) (by decide)).2

/-! ## Loops -/

theorem mapRun_ok {α β : Type} (f : α → Run β) (g : α → β) (ts : List α)
    (h : ∀ t ∈ ts, f t = .ok (g t)) : mapRun f ts = .ok (ts.map g) := by
  induction ts with
  | nil => rfl
  | cons a as ih =>
    unfold mapRun
    rw [h a (List.mem_cons_self _ _), ih (fun t ht => h t (List.mem_cons_of_mem _ ht))]
    rfl

theorem mapRun_eq_ok {α β : Type} (f : α → Run β) (ts : List α) (bs : List β)
    (h : mapRun f ts = .ok bs) :
    bs.length = ts.length ∧
      ∀ (k : Nat) (t : α), ts[k]? = some t → ∃ b, bs[k]? = some b ∧ f t = .ok b := by
  induction ts generalizing bs with
  | nil =>
    simp only [mapRun, Except.ok.injEq] at h
    subst h
    simp
  | cons a as ih =>
    unfold mapRun at h
    cases ha : f a with
    | error e => rw [ha] at h; cases h
    | ok b =>
      rw [ha] at h
      cases has : mapRun f as with
      | error e => rw [has] at h; cases h
      | ok bs1 =>
        rw [has] at h
        simp only [Except.ok.injEq] at h
        subst h
        obtain ⟨i1, i2⟩ := ih bs1 has
        refine ⟨by simp [i1], ?_⟩
        intro k t hk
        cases k with
        | zero =>
          simp only [List.getElem?_cons_zero, Option.some.injEq] at hk
          subst hk
          exact ⟨b, by simp, ha⟩
        | succ k =>
          simp only [List.getElem?_cons_succ] at hk ⊢
          exact i2 k t hk

theorem mapRun_eq_error {α β : Type} (f : α → Run β) (ts : List α) (e : Fault)
    (h : mapRun f ts = .error e) : ∃ t ∈ ts, f t = .error e := by
  induction ts with
  | nil => cases h
  | cons a as ih =>
    unfold mapRun at h
    cases ha : f a with
    | error e1 =>
      rw [ha] at h
      simp only [Except.error.injEq] at h
      subst h
      exact ⟨a, List.mem_cons_self _ _, ha⟩
    | ok b =>
      rw [ha] at h
      cases has : mapRun f as with
      | error e1 =>
        rw [has] at h
        simp only [Except.error.injEq] at h
        subst h
        obtain ⟨t, ht, hft⟩ := ih has
        exact ⟨t, List.mem_cons_of_mem _ ht, hft⟩
      | ok bs1 => rw [has] at h; cases h

theorem foldRun_append {α σ : Type} (f : σ → α → Run σ) (xs ys : List α) (s s1 : σ)
    (h : foldRun f xs s = .ok s1) : foldRun f (xs ++ ys) s = foldRun f ys s1 := by
  induction xs generalizing s with
  | nil =>
    simp only [foldRun, Except.ok.injEq] at h
    subst h
    rfl
  | cons a as ih =>
    rw [List.cons_append, foldRun]
    rw [foldRun] at h
    cases ha : f s a with
    | error e => rw [ha] at h; cases h
    | ok s2 =>
      rw [ha] at h
      exact ih s2 h

theorem foldRun_pure {α σ : Type} (f : σ → α → Run σ) (g : σ → α → σ) (P : σ → Prop)
    (xs : List α) (s : σ) (hs : P s)
    (hstep : ∀ s, P s → ∀ a ∈ xs, f s a = .ok (g s a) ∧ P (g s a)) :
    foldRun f xs s = .ok (xs.foldl g s) ∧ P (xs.foldl g s) := by
  induction xs generalizing s with
  | nil => exact ⟨rfl, hs⟩
  | cons a as ih =>
    obtain ⟨h1, h2⟩ := hstep s hs a (List.mem_cons_self _ _)
    unfold foldRun
    rw [h1]
    exact ih (g s a) h2 (fun s1 hs1 b hb => hstep s1 hs1 b (List.mem_cons_of_mem _ hb))

/-! ## The chain of a ring -/

theorem idx_of_getElem? {α : Type} (l : List α) (i : Nat) (a : α) (h : l[i]? = some a) :
    idx l i = .ok a := by
  unfold idx
  rw [h]

theorem idx_ok_iff {α : Type} (l : List α) (i : Nat) (a : α) :
    idx l i = .ok a ↔ l[i]? = some a := by
  unfold idx
  cases l[i]? with
  | none => simp
  | some b => simp

theorem copy32_of_length (s : List Byte) (hs : s.length = 32) : copy32 s = s := by
  rw [copy32_of_le s (by omega), List.take_of_length_le (by omega)]

theorem clampSave_32 (s : List Byte) (hs : s.length = 32) :
    clampSave s = .ok (clamp s, nibble s) := by
  rw [clampSave_eq s (by omega), copy32_of_length s hs]
  rfl

theorem copyInto_32 (old src : List Byte) (ho : old.length = 32) (hs : 32 ≤ src.length) :
    copyInto old src = copy32 src := by
  rw [copy32_of_le src hs]
  unfold copyInto
  rw [ho, List.drop_of_length_le (by omega), List.append_nil]

theorem chunk_length (r : List Byte) (t m i : Nat) : (chunk r t m i).length = 32 :=
  copy32_length _

theorem clamp_length (s : List Byte) : (clamp s).length = s.length := by
  unfold clamp
  rw [List.length_set]

theorem signStep_eq (B : Lib) (msghash r : List Byte) (pub : List (List B.Pt)) (t m : Nat)
    (ring : List B.Pt) (row : List (List Byte)) (e : List Byte) (i : Nat)
    (hring : pub[t]? = some ring) (hi : i < ring.length) (hrow : i < row.length)
    (h32 : ∀ x ∈ row, x.length = 32) (hr : slotOff t m i + 32 ≤ r.length) :
    signStep B msghash r pub t m (row, e) i =
      .ok (row.set i (chunk r t m i),
        link B msghash t m (ring.getD i 0) e (chunk r t m i) i) := by
  unfold signStep
  have h1 : row[i]? = some row[i] := List.getElem?_eq_getElem hrow
  have h2 : (row[i]).length = 32 := h32 _ (List.getElem_mem _)
  have h3 : ring[i]? = some (ring.getD i 0) := by
    rw [List.getD_eq_getElem?_getD, List.getElem?_eq_getElem hi]
    rfl
  simp only [idx_of_getElem? _ _ _ h1, idx_of_getElem? _ _ _ hring, idx_of_getElem? _ _ _ h3]
  unfold sliceFrom
  rw [if_pos (by omega)]
  simp only
  rw [copyInto_32 _ _ h2 (by rw [List.length_drop]; omega)]
  have h4 : copy32 (List.drop (slotOff t m i) r) = chunk r t m i := rfl
  rw [h4, clampSave_32 _ (chunk_length r t m i)]
  rfl

/-- The row after the inner loop of `BRSign` has run over the slots `slots`. -/
theorem signWalk_eq (B : Lib) (msghash r : List Byte) (pub : List (List B.Pt)) (t m : Nat)
    (ring : List B.Pt) (slots : List Nat) (row : List (List Byte)) (e : List Byte)
    (hring : pub[t]? = some ring) (hi : ∀ i ∈ slots, i < ring.length ∧ i < row.length)
    (h32 : ∀ x ∈ row, x.length = 32) (hr : ∀ i ∈ slots, slotOff t m i + 32 ≤ r.length) :
    foldRun (signStep B msghash r pub t m) slots (row, e) =
      .ok (slots.foldl (fun row i => row.set i (chunk r t m i)) row,
        chain B msghash t m ring (chunk r t m) slots e) := by
  induction slots generalizing row e with
  | nil => rfl
  | cons i rest ih =>
    obtain ⟨hi1, hi2⟩ := hi i (List.mem_cons_self _ _)
    unfold foldRun
    rw [signStep_eq B msghash r pub t m ring row e i hring hi1 hi2 h32
      (hr i (List.mem_cons_self _ _))]
    simp only
    rw [ih]
    · rfl
    · intro k hk
      rw [List.length_set]
      exact hi k (List.mem_cons_of_mem _ hk)
    · intro x hx
      rcases List.mem_or_eq_of_mem_set hx with h | h
      · exact h32 x h
      · rw [h]; exact chunk_length r t m i
    · intro k hk
      exact hr k (List.mem_cons_of_mem _ hk)

theorem getElem?_foldl_set {α : Type} (f : Nat → α) (slots : List Nat) (row : List α)
    (i : Nat) :
    (slots.foldl (fun row i => row.set i (f i)) row)[i]? =
      if i ∈ slots ∧ i < row.length then some (f i) else row[i]? := by
  induction slots generalizing row with
  | nil => simp
  | cons k rest ih =>
    rw [List.foldl_cons, ih, List.length_set, List.getElem?_set]
    by_cases h1 : i ∈ rest
    · by_cases h2 : i < row.length
      · simp [h1, h2]
      · simp only [h1, h2, and_false, ↓reduceIte, List.mem_cons, or_true]
        by_cases h3 : k = i
        · rw [if_pos h3, if_neg (by omega)]
          rw [List.getElem?_eq_none (by omega)]
        · rw [if_neg h3]
    · by_cases h3 : k = i
      · subst h3
        by_cases h2 : k < row.length
        · simp [h1, h2]
        · simp only [h1, h2, and_false, ↓reduceIte, List.mem_cons, true_or, and_true]
          rw [List.getElem?_eq_none (by omega)]
      · have h4 : ¬ i = k := fun h => h3 h.symm
        simp [h1, h3, h4]

theorem length_foldl_set {α : Type} (f : Nat → α) (slots : List Nat) (row : List α) :
    (slots.foldl (fun row i => row.set i (f i)) row).length = row.length := by
  induction slots generalizing row with
  | nil => rfl
  | cons k rest ih => rw [List.foldl_cons, ih, List.length_set]

theorem chain_congr (B : Lib) (msghash : List Byte) (t m : Nat) (ring : List B.Pt)
    (c c1 : Nat → List Byte) (slots : List Nat) (e : List Byte)
    (h : ∀ i ∈ slots, c i = c1 i) :
    chain B msghash t m ring c slots e = chain B msghash t m ring c1 slots e := by
  induction slots generalizing e with
  | nil => rfl
  | cons i rest ih =>
    unfold chain at ih ⊢
    rw [List.foldl_cons, List.foldl_cons, h i (List.mem_cons_self _ _)]
    exact ih _ (fun k hk => h k (List.mem_cons_of_mem _ hk))

theorem chain_append (B : Lib) (msghash : List Byte) (t m : Nat) (ring : List B.Pt)
    (c : Nat → List Byte) (xs ys : List Nat) (e : List Byte) :
    chain B msghash t m ring c (xs ++ ys) e =
      chain B msghash t m ring c ys (chain B msghash t m ring c xs e) := by
  unfold chain
  rw [List.foldl_append]

theorem verifyStep_eq (B : Lib) (msghash : List Byte) (pub : List (List B.Pt))
    (brss : List (List (List Byte))) (t m : Nat) (ring : List B.Pt)
    (row : List (List Byte)) (e : List Byte) (i : Nat)
    (hring : pub[t]? = some ring) (hrow : brss[t]? = some row)
    (hi1 : i < ring.length) (hi2 : i < row.length) :
    verifyStep B msghash pub brss t m e i =
      .ok (link B msghash t m (ring.getD i 0) e (row.getD i []) i) := by
  have h1 : row[i]? = some (row.getD i []) := by
    rw [List.getD_eq_getElem?_getD, List.getElem?_eq_getElem hi2]
    rfl
  have h3 : ring[i]? = some (ring.getD i 0) := by
    rw [List.getD_eq_getElem?_getD, List.getElem?_eq_getElem hi1]
    rfl
  unfold verifyStep
  simp only [idx_of_getElem? _ _ _ h1, idx_of_getElem? _ _ _ hring,
    idx_of_getElem? _ _ _ h3, idx_of_getElem? _ _ _ hrow]
  rfl

/-- The inner loop of `Verify` on a ring walks the chain of the row. -/
theorem verifyWalk_eq (B : Lib) (msghash : List Byte) (pub : List (List B.Pt))
    (brss : List (List (List Byte))) (t m : Nat) (ring : List B.Pt)
    (row : List (List Byte)) (slots : List Nat) (e : List Byte)
    (hring : pub[t]? = some ring) (hrow : brss[t]? = some row)
    (hi : ∀ i ∈ slots, i < ring.length ∧ i < row.length) :
    foldRun (verifyStep B msghash pub brss t m) slots e =
      .ok (chain B msghash t m ring (fun i => row.getD i []) slots e) := by
  induction slots generalizing e with
  | nil => rfl
  | cons i rest ih =>
    obtain ⟨hi1, hi2⟩ := hi i (List.mem_cons_self _ _)
    rw [foldRun, verifyStep_eq B msghash pub brss t m ring row e i hring hrow hi1 hi2]
    simp only
    rw [ih _ (fun k hk => hi k (List.mem_cons_of_mem _ hk))]
    rfl

/-! ## The real slot -/

theorem nib16 : ∀ a h : Fin 16,
    ((⟨a.val, by omega⟩ : Byte) ||| ⟨16 * h.val, by omega⟩) &&& 0x0f = ⟨a.val, by omega⟩ ∧
    ((⟨a.val, by omega⟩ : Byte) ||| ⟨16 * h.val, by omega⟩) &&& 0xf0 =
      ⟨16 * h.val, by omega⟩ := by
  decide!

theorem byte_low_zero : ∀ w : Byte, w &&& 0x0f = 0 → w.val = 16 * (w.val / 16) := by decide!

theorem byte_f0_and_0f (b : Byte) : (b &&& 0xf0) &&& 0x0f = 0 := by
  revert b; decide!

theorem byte_or_nibble (a w : Byte) (ha : a &&& 0xf0 = 0) (hw : w &&& 0x0f = 0) :
    (a ||| w) &&& 0x0f = a ∧ (a ||| w) &&& 0xf0 = w := by
  have h1 := (byte_and_f0_eq_zero_iff a).1 ha
  have h2 := byte_low_zero w hw
  have h3 := nib16 ⟨a.val, h1⟩ ⟨w.val / 16, by omega⟩
  have ea : (⟨a.val, by omega⟩ : Byte) = a := Fin.ext rfl
  have ew : (⟨16 * (w.val / 16), by omega⟩ : Byte) = w := Fin.ext h2.symm
  simp only [ea, ew] at h3
  exact h3

theorem set31_byte31 (l : List Byte) (hl : l.length = 32) : l.set 31 (byte31 l) = l := by
  apply List.ext_getElem?
  intro i
  rw [List.getElem?_set]
  by_cases h : 31 = i
  · subst h
    rw [if_pos rfl, if_pos (by omega)]
    unfold byte31
    rw [List.getD_eq_getElem?_getD, List.getElem?_eq_getElem (by omega)]
    rfl
  · rw [if_neg h]

/-- The response `z | saved` that `BRSign` stores for the real slot splits back into the
scalar `z` and the nibble `saved`. -/
theorem real_response_split (z : List Byte) (saved : Byte) (hz : z.length = 32)
    (hz0 : byte31 z &&& 0xf0 = 0) (hs : saved &&& 0x0f = 0) :
    clamp (z.set 31 (byte31 z ||| saved)) = z ∧
      nibble (z.set 31 (byte31 z ||| saved)) = saved := by
  obtain ⟨h1, h2⟩ := byte_or_nibble _ _ hz0 hs
  unfold clamp nibble
  rw [byte31_set31 z hz, h1, h2, List.set_set, set31_byte31 z hz]
  exact ⟨rfl, rfl⟩

theorem mod_L_smul (B : Lib) (x : Nat) : (x % L) • B.G = x • B.G := by
  conv_rhs => rw [← Nat.div_add_mod x L]
  rw [add_smul, mul_comm, mul_smul, B.order_G, smul_zero, zero_add]

/-- At the real slot the point `e*(-P) + z*G` of the verifier is the commitment `k*G` of the
signer. -/
theorem real_point (B : Lib) (p e k : List Byte) :
    Point.MulAdd B (Point.Negate B (Scalar.MulBase B p)) e (Scalar.MulAdd p e k) =
      Point.ToProjective B (Scalar.MulBase B k) := by
  unfold Point.MulAdd Point.Negate Scalar.MulBase Point.ToProjective Scalar.MulAdd
  rw [leNat_ScMulAdd, mod_L_smul, smul_neg, add_smul, mul_comm, mul_smul, neg_add_cancel_left]

theorem ScMulAdd_length (a b c : List Byte) : (ScMulAdd a b c).length = 32 :=
  toLE_length _ _

theorem reduce_length (s : List Byte) : (reduce s).length = 32 := toLE_length _ _

theorem slotOff_le (t m i : Nat) : slotOff t m i ≤ 224 ∧ slotOff t m i ≤ (t * m + i) * 32 := by
  unfold slotOff
  generalize t * m = q
  omega

theorem slotOff_bound (t m i n : Nat) (ht : t < n) (hi : i < m) :
    slotOff t m i + 32 ≤ n * m * 32 := by
  have h1 := (slotOff_le t m i).2
  have h2 : (t + 1) * m ≤ n * m := Nat.mul_le_mul_right m ht
  have h3 : (t + 1) * m = t * m + m := by ring
  omega

theorem range_split (j m : Nat) (h : j < m) :
    List.range m = List.range j ++ j :: List.range' (j + 1) (m - (j + 1)) := by
  have h1 : m = (m - j) + j := by omega
  conv_lhs => rw [h1, List.range_eq_range', ← List.range'_append 0 j (m - j) 1]
  rw [List.range_eq_range']
  congr 1
  have h2 : m - j = (m - (j + 1)) + 1 := by omega
  rw [h2, List.range'_succ]
  simp

theorem signOpen_eq (B : Lib) (msghash r : List Byte) (pub : List (List B.Pt))
    (indices : List Byte) (m t : Nat) (ring : List B.Pt) (jb : Byte)
    (hring : pub[t]? = some ring) (hlen : ring.length = m) (hj : indices[t]? = some jb)
    (hjm : jb.val < m) (hm : m ≤ 255)
    (hr : ∀ i, i < m → slotOff t m i + 32 ≤ r.length) :
    signOpen B msghash r pub indices m t = .ok (openedOf B msghash r ring t m jb.val) := by
  unfold signOpen
  simp only [idx_of_getElem? _ _ _ hj]
  unfold sliceFrom
  have h1 := hr jb.val hjm
  rw [if_pos (by omega)]
  simp only
  rw [clampSave_eq _ (by rw [List.length_drop]; omega)]
  simp only
  rw [if_neg (by omega)]
  have h2 : (jb.val + 1) % 256 = jb.val + 1 := by omega
  rw [h2]
  rw [signWalk_eq B msghash r pub t m ring _ _ _ hring]
  · simp only [openedOf, seedOf, h2]
    rfl
  · intro i hi
    rw [List.mem_range'_1] at hi
    rw [List.length_replicate]
    omega
  · intro x hx
    rw [List.eq_of_mem_replicate hx]
    simp [zeros]
  · intro i hi
    rw [List.mem_range'_1] at hi
    exact hr i (by omega)

theorem rowOf_length (B : Lib) (msghash r : List Byte) (ring : List B.Pt) (p : List Byte)
    (t m j : Nat) (e0 : List Byte) : (rowOf B msghash r ring p t m j e0).length = m := by
  simp [rowOf]

theorem rowOf_entry_length (B : Lib) (msghash r : List Byte) (ring : List B.Pt)
    (p : List Byte) (t m j : Nat) (e0 : List Byte) :
    ∀ x ∈ rowOf B msghash r ring p t m j e0, x.length = 32 := by
  intro x hx
  simp only [rowOf, List.mem_map] at hx
  obtain ⟨i, -, rfl⟩ := hx
  by_cases h : i = j
  · rw [if_pos h, List.length_set]
    exact ScMulAdd_length _ _ _
  · rw [if_neg h]
    exact chunk_length _ _ _ _

/-- Iteration `t` of the second loop of `BRSign` on a valid ring: the range check fires, or
the row is `rowOf`. -/
theorem signClose_eq (B : Lib) (msghash r : List Byte) (pub : List (List B.Pt))
    (priv : List (List Byte)) (indices : List Byte) (m : Nat) (e0 : List Byte)
    (opened : List Opened) (t : Nat) (ring : List B.Pt) (jb : Byte) (p : List Byte)
    (hring : pub[t]? = some ring) (hlen : ring.length = m) (hj : indices[t]? = some jb)
    (hjm : jb.val < m) (hp : priv[t]? = some p)
    (ho : opened[t]? = some (openedOf B msghash r ring t m jb.val))
    (hr : ∀ i, i < m → slotOff t m i + 32 ≤ r.length) :
    signClose B msghash r pub priv indices m e0 opened t =
      if byte31 (realResponse B msghash r ring p t m jb.val e0) &&& 0xf0 ≠ 0 then
        .error .rangeCheck
      else .ok (rowOf B msghash r ring p t m jb.val e0) := by
  unfold signClose
  simp only [idx_of_getElem? _ _ _ hj, idx_of_getElem? _ _ _ ho, idx_of_getElem? _ _ _ hp]
  have hrow0 : (openedOf B msghash r ring t m jb.val).row.length = m := by
    simp only [openedOf, length_foldl_set, List.length_replicate]
  have h32 : ∀ x ∈ (openedOf B msghash r ring t m jb.val).row, x.length = 32 := by
    intro x hx
    obtain ⟨i, hi⟩ := List.getElem?_of_mem hx
    simp only [openedOf] at hi
    rw [getElem?_foldl_set] at hi
    split at hi
    · simp only [Option.some.injEq] at hi
      rw [← hi]; exact chunk_length _ _ _ _
    · rw [List.getElem?_replicate] at hi
      split at hi
      · simp only [Option.some.injEq] at hi
        rw [← hi]; simp [zeros]
      · cases hi
  rw [signWalk_eq B msghash r pub t m ring _ _ _ hring ?_ h32 ?_]
  · simp only
    have hz : Scalar.MulAdd p
        (chain B msghash t m ring (chunk r t m) (List.range jb.val) e0)
        (openedOf B msghash r ring t m jb.val).k =
        realResponse B msghash r ring p t m jb.val e0 := rfl
    rw [hz]
    by_cases hrc : byte31 (realResponse B msghash r ring p t m jb.val e0) &&& 0xf0 ≠ 0
    · rw [if_pos hrc, if_pos hrc]
    · rw [if_neg hrc, if_neg hrc]
      have hlen2 : (List.foldl (fun row i => row.set i (chunk r t m i))
          (openedOf B msghash r ring t m jb.val).row (List.range jb.val)).length = m := by
        rw [length_foldl_set, hrow0]
      have hidx : ∃ x, idx (List.foldl (fun row i => row.set i (chunk r t m i))
          (openedOf B msghash r ring t m jb.val).row (List.range jb.val)) jb.val = .ok x := by
        refine ⟨_, idx_of_getElem? _ _ _ (List.getElem?_eq_getElem (by omega))⟩
      obtain ⟨x, hx⟩ := hidx
      rw [hx]
      simp only
      congr 1
      apply List.ext_getElem?
      intro i
      rw [List.getElem?_set, hlen2, getElem?_foldl_set, hrow0]
      simp only [openedOf, rowOf]
      rw [getElem?_foldl_set, List.length_replicate, List.getElem?_replicate,
        List.getElem?_map]
      by_cases him : i < m
      · rw [List.getElem?_range him]
        simp only [Option.map_some', List.mem_range, List.mem_range'_1]
        by_cases hij : jb.val = i
        · subst hij
          simp [hjm]
        · have hij2 : ¬ i = jb.val := fun h => hij h.symm
          rw [if_neg hij, if_neg hij2]
          by_cases hlt : i < jb.val
          · simp [hlt, him]
          · have : jb.val + 1 ≤ i ∧ i < jb.val + 1 + (m - (jb.val + 1)) := by omega
            simp [hlt, him, this]
      · rw [List.getElem?_eq_none (l := List.range m) (by simp; omega)]
        have hij : ¬ jb.val = i := by omega
        simp [him, hij]
  · intro i hi
    rw [List.mem_range] at hi
    rw [hrow0]
    omega
  · intro i hi
    rw [List.mem_range] at hi
    exact hr i (by omega)

theorem rowOf_getD (B : Lib) (msghash r : List Byte) (ring : List B.Pt) (p : List Byte)
    (t m j : Nat) (e0 : List Byte) (i : Nat) (hi : i < m) :
    (rowOf B msghash r ring p t m j e0).getD i [] =
      if i = j then
        (realResponse B msghash r ring p t m j e0).set 31
          (byte31 (realResponse B msghash r ring p t m j e0) ||| nibble (chunk r t m j))
      else chunk r t m i := by
  rw [List.getD_eq_getElem?_getD]
  simp only [rowOf, List.getElem?_map, List.getElem?_range hi, Option.map_some',
    Option.getD_some]

theorem chain_cons (B : Lib) (msghash : List Byte) (t m : Nat) (ring : List B.Pt)
    (c : Nat → List Byte) (i : Nat) (rest : List Nat) (e : List Byte) :
    chain B msghash t m ring c (i :: rest) e =
      chain B msghash t m ring c rest (link B msghash t m (ring.getD i 0) e (c i) i) := rfl

/-- The chain of the verifier over the row that `BRSign` emits for a ring ends in the closing
challenge that the first loop of `BRSign` wrote to `E`. -/
theorem ring_closes (B : Lib) (msghash r : List Byte) (ring : List B.Pt) (p : List Byte)
    (t m j : Nat) (e0 : List Byte) (hjm : j < m)
    (hkey : ring[j]? = some (Scalar.MulBase B p))
    (hrc : byte31 (realResponse B msghash r ring p t m j e0) &&& 0xf0 = 0) :
    chain B msghash t m ring (fun i => (rowOf B msghash r ring p t m j e0).getD i [])
        (List.range m) e0 =
      (openedOf B msghash r ring t m j).closing := by
  rw [range_split j m hjm, chain_append, chain_cons]
  have hA : chain B msghash t m ring (fun i => (rowOf B msghash r ring p t m j e0).getD i [])
      (List.range j) e0 = realChallenge B msghash r ring t m j e0 := by
    unfold realChallenge
    apply chain_congr
    intro i hi
    rw [List.mem_range] at hi
    rw [rowOf_getD _ _ _ _ _ _ _ _ _ _ (by omega), if_neg (by omega)]
  have hB : link B msghash t m (ring.getD j 0) (realChallenge B msghash r ring t m j e0)
      ((rowOf B msghash r ring p t m j e0).getD j []) j = seedOf B msghash r t m j := by
    rw [rowOf_getD _ _ _ _ _ _ _ _ _ _ hjm, if_pos rfl]
    have hP : ring.getD j 0 = Scalar.MulBase B p := by
      rw [List.getD_eq_getElem?_getD, hkey]
      rfl
    obtain ⟨s1, s2⟩ := real_response_split (realResponse B msghash r ring p t m j e0)
      (nibble (chunk r t m j)) (ScMulAdd_length _ _ _) hrc (byte_f0_and_0f _)
    unfold link
    rw [s1, s2, hP]
    unfold seedOf
    congr 1
    exact real_point B p _ _
  rw [hA, hB]
  unfold openedOf
  simp only
  apply chain_congr
  intro i hi
  rw [List.mem_range'_1] at hi
  rw [rowOf_getD _ _ _ _ _ _ _ _ _ _ (by omega), if_neg (by omega)]

theorem padTo_length (N : Nat) (data : Option (List Byte))
    (hd : ∀ d, data = some d → d.length ≤ N) : (padTo N data).length = N := by
  cases data with
  | none => simp [padTo, zeros]
  | some d =>
    have := hd d rfl
    simp only [padTo, List.length_append, zeros, List.length_replicate]
    omega

theorem xorStream_length (B : Lib) (msg : List Byte) (priv : List (List Byte))
    (indices d : List Byte) : (xorStream B msg priv indices d).length = d.length := by
  simp [xorStream]

theorem XORKeyStream_same_length (B : Lib) (out inp counter key : List Byte)
    (h : inp.length = out.length) :
    XORKeyStream B out inp counter key =
      .ok (List.zipWith (fun a b => a ^^^ b) inp
        ((List.range inp.length).map (B.salsa counter key))) := by
  unfold XORKeyStream
  rw [if_neg (by omega), List.drop_of_length_le (by omega), List.append_nil]

theorem xornoise_eq (B : Lib) (msg r : List Byte) (data : Option (List Byte))
    (priv : List (List Byte)) (indices : List Byte)
    (hd : ∀ d, data = some d → d.length ≤ r.length) :
    xornoise B msg r data priv indices =
      .ok (xorStream B msg priv indices (padTo r.length data)) := by
  have hl := padTo_length r.length data hd
  cases data with
  | none =>
    unfold xornoise
    exact XORKeyStream_same_length B _ _ _ _ (by simp [zeros])
  | some d =>
    have h1 := hd d rfl
    unfold xornoise
    simp only
    by_cases h : d.length < r.length
    · rw [if_pos h]
      exact XORKeyStream_same_length B _ _ _ _ hl
    · rw [if_neg h]
      have h0 : r.length - d.length = 0 := by omega
      have h2 : padTo r.length (some d) = d := by
        simp [padTo, h0, zeros]
      rw [h2]
      exact XORKeyStream_same_length B _ _ _ _ (by omega)

theorem valid_ring (B : Lib) (pub : List (List B.Pt)) (priv : List (List Byte))
    (indices : List Byte) (n m : Nat) (hv : ValidInput B pub priv indices n m)
    (t : Nat) (ht : t < n) :
    pub[t]? = some (pub.getD t []) ∧ (pub.getD t []).length = m ∧
      indices[t]? = some (indices.getD t 0) ∧ (indices.getD t 0).val < m ∧
      priv[t]? = some (priv.getD t []) ∧
      (pub.getD t [])[(indices.getD t 0).val]? = some (Scalar.MulBase B (priv.getD t [])) := by
  obtain ⟨ring, p, j, h1, h2, h3, h4, h5⟩ := hv.real t ht
  have e1 : pub.getD t [] = ring := by rw [List.getD_eq_getElem?_getD, h1]; rfl
  have e2 : priv.getD t [] = p := by rw [List.getD_eq_getElem?_getD, h2]; rfl
  have e3 : indices.getD t 0 = j := by rw [List.getD_eq_getElem?_getD, h3]; rfl
  rw [e1, e2, e3]
  refine ⟨h1, hv.slots ring (List.getElem?_mem h1), h3, h4, h2, h5⟩

theorem randomness_length (B : Lib) (msghash : List Byte) (data : Option (List Byte))
    (priv : List (List Byte)) (indices : List Byte) (n m : Nat)
    (hd : ∀ d, data = some d → d.length ≤ n * m * 32) :
    (randomness B msghash data priv indices n m).length = n * m * 32 := by
  unfold randomness
  rw [xorStream_length, padTo_length _ _ hd]

theorem openedAll_getElem? (B : Lib) (msghash r : List Byte) (pub : List (List B.Pt))
    (indices : List Byte) (n m t : Nat) (ht : t < n) :
    (openedAll B msghash r pub indices n m)[t]? =
      some (openedOf B msghash r (pub.getD t []) t m (indices.getD t 0).val) := by
  simp only [openedAll, List.getElem?_map, List.getElem?_range ht, Option.map_some']

/-- The first loop of `BRSign` on a valid input. -/
theorem signOpen_all (B : Lib) (msghash r : List Byte) (pub : List (List B.Pt))
    (priv : List (List Byte)) (indices : List Byte) (n m : Nat)
    (hv : ValidInput B pub priv indices n m) (hr : r.length = n * m * 32) :
    mapRun (signOpen B msghash r pub indices m) (List.range n) =
      .ok (openedAll B msghash r pub indices n m) := by
  unfold openedAll
  apply mapRun_ok
  intro t ht
  rw [List.mem_range] at ht
  obtain ⟨h1, h2, h3, h4, -, -⟩ := valid_ring B pub priv indices n m hv t ht
  exact signOpen_eq B msghash r pub indices m t _ _ h1 h2 h3 h4 hv.m_le
    (fun i hi => by rw [hr]; exact slotOff_bound t m i n ht hi)

/-- Iteration `t` of the second loop of `BRSign` on a valid input. -/
theorem signClose_valid (B : Lib) (msghash r : List Byte) (pub : List (List B.Pt))
    (priv : List (List Byte)) (indices : List Byte) (n m : Nat)
    (hv : ValidInput B pub priv indices n m) (hr : r.length = n * m * 32)
    (t : Nat) (ht : t < n) :
    signClose B msghash r pub priv indices m (challenge0 B msghash r pub indices n m)
        (openedAll B msghash r pub indices n m) t =
      if byte31 (realResponse B msghash r (pub.getD t []) (priv.getD t []) t m
          (indices.getD t 0).val (challenge0 B msghash r pub indices n m)) &&& 0xf0 ≠ 0 then
        .error .rangeCheck
      else .ok (rowOf B msghash r (pub.getD t []) (priv.getD t []) t m
          (indices.getD t 0).val (challenge0 B msghash r pub indices n m)) := by
  obtain ⟨h1, h2, h3, h4, h5, -⟩ := valid_ring B pub priv indices n m hv t ht
  exact signClose_eq B msghash r pub priv indices m _ _ t _ _ _ h1 h2 h3 h4 h5
    (openedAll_getElem? B msghash r pub indices n m t ht)
    (fun i hi => by rw [hr]; exact slotOff_bound t m i n ht hi)

/-- The second loop of `BRSign` on a valid input: it ends in the range check of a ring, or
it returns the grid `rowsOf` and the range check has passed in every ring. -/
theorem signClose_all (B : Lib) (msghash r : List Byte) (pub : List (List B.Pt))
    (priv : List (List Byte)) (indices : List Byte) (n m : Nat)
    (hv : ValidInput B pub priv indices n m) (hr : r.length = n * m * 32) :
    (mapRun (signClose B msghash r pub priv indices m
          (challenge0 B msghash r pub indices n m)
          (openedAll B msghash r pub indices n m)) (List.range n) = .error .rangeCheck ∧
        ¬ rangeOk B msghash r pub priv indices n m) ∨
      (mapRun (signClose B msghash r pub priv indices m
          (challenge0 B msghash r pub indices n m)
          (openedAll B msghash r pub indices n m)) (List.range n) =
          .ok (rowsOf B msghash r pub priv indices n m) ∧
        rangeOk B msghash r pub priv indices n m) := by
  by_cases hok : rangeOk B msghash r pub priv indices n m
  · right
    refine ⟨?_, hok⟩
    unfold rowsOf
    apply mapRun_ok
    intro t ht
    rw [List.mem_range] at ht
    rw [signClose_valid B msghash r pub priv indices n m hv hr t ht, if_neg]
    rw [not_not]
    exact hok t ht
  · left
    refine ⟨?_, hok⟩
    cases hres : mapRun (signClose B msghash r pub priv indices m
          (challenge0 B msghash r pub indices n m)
          (openedAll B msghash r pub indices n m)) (List.range n) with
    | error e =>
      obtain ⟨t, ht, hft⟩ := mapRun_eq_error _ _ _ hres
      rw [List.mem_range] at ht
      rw [signClose_valid B msghash r pub priv indices n m hv hr t ht] at hft
      split at hft
      · simp only [Except.error.injEq] at hft
        rw [← hft]
      · cases hft
    | ok bs =>
      exfalso
      apply hok
      intro t ht
      obtain ⟨-, h2⟩ := mapRun_eq_ok _ _ _ hres
      obtain ⟨b, -, hb⟩ := h2 t t (List.getElem?_range ht)
      rw [signClose_valid B msghash r pub priv indices n m hv hr t ht] at hb
      split at hb
      · cases hb
      · rename_i hneg
        rw [not_not] at hneg
        exact hneg

/-- `BRSign` on a valid input and a payload of at most `n*m*32` bytes: it panics in its range
check, or it returns the signature `signatureOf` and the range check has passed in every
ring.  No other panic occurs. -/
theorem BRSign_cases (B : Lib) (msghash : List Byte) (data : Option (List Byte))
    (pub : List (List B.Pt)) (priv : List (List Byte)) (indices : List Byte) (n m : Nat)
    (hv : ValidInput B pub priv indices n m)
    (hd : ∀ d, data = some d → d.length ≤ n * m * 32) :
    (BRSign B msghash data pub priv indices = .error .rangeCheck ∧
        ¬ rangeOk B msghash (randomness B msghash data priv indices n m) pub priv indices
          n m) ∨
      (BRSign B msghash data pub priv indices =
          .ok (signatureOf B msghash (randomness B msghash data priv indices n m) pub priv
            indices n m) ∧
        rangeOk B msghash (randomness B msghash data priv indices n m) pub priv indices
          n m) := by
  have hpub0 : pub[0]? = some (pub.getD 0 []) :=
    (valid_ring B pub priv indices n m hv 0 hv.n_pos).1
  have hm0 : (pub.getD 0 []).length = m :=
    (valid_ring B pub priv indices n m hv 0 hv.n_pos).2.1
  have hn := hv.rings
  have hn2 := hv.n_le
  have hm2 := hv.m_le
  have hrl := randomness_length B msghash data priv indices n m hd
  have hx : xornoise B msghash (zeros (pub.length * (pub.getD 0 []).length * 32)) data priv
      indices = .ok (randomness B msghash data priv indices n m) := by
    rw [xornoise_eq]
    · simp only [zeros, List.length_replicate, hn, hm0]
      rfl
    · intro d hdd
      simp only [zeros, List.length_replicate, hn, hm0]
      exact hd d hdd
  unfold BRSign
  simp only [idx_of_getElem? _ _ _ hpub0, hx]
  have e1 : pub.length % 256 = n := by omega
  have e2 : (pub.getD 0 []).length % 256 = m := by omega
  rw [e1, e2, signOpen_all B msghash _ pub priv indices n m hv hrl]
  simp only
  rcases signClose_all B msghash _ pub priv indices n m hv hrl with ⟨h1, h2⟩ | ⟨h1, h2⟩
  · left
    refine ⟨?_, h2⟩
    unfold challenge0 at h1
    rw [h1]
  · right
    refine ⟨?_, h2⟩
    unfold challenge0 at h1
    rw [h1]
    rfl

/-! ## Loading what `BRSign` emits -/

theorem length_flatten_uniform {α : Type} (xs : List (List α)) (c : Nat)
    (h : ∀ x ∈ xs, x.length = c) : xs.flatten.length = xs.length * c := by
  induction xs with
  | nil => simp
  | cons x rest ih =>
    rw [List.flatten_cons, List.length_append, h x (List.mem_cons_self _ _),
      ih (fun y hy => h y (List.mem_cons_of_mem _ hy)), List.length_cons]
    ring

theorem loadRow_flatten (row : List (List Byte)) (h32 : ∀ x ∈ row, x.length = 32)
    (x rest : List Byte) (hx : x.length = 32) :
    ∃ y, y.length = 32 ∧ loadRow row.length (x ++ (row.flatten ++ rest)) = (row, y ++ rest) := by
  induction row generalizing x with
  | nil => exact ⟨x, hx, by simp [loadRow]⟩
  | cons a as ih =>
    have ha : a.length = 32 := h32 a (List.mem_cons_self _ _)
    obtain ⟨y, hy, hrec⟩ := ih (fun z hz => h32 z (List.mem_cons_of_mem _ hz)) a ha
    refine ⟨y, hy, ?_⟩
    rw [List.length_cons, loadRow]
    have hdrop : (x ++ ((a :: as).flatten ++ rest)).drop 32 = a ++ (as.flatten ++ rest) := by
      rw [List.drop_append_of_le_length (by omega), List.drop_of_length_le (by omega),
        List.nil_append, List.flatten_cons, List.append_assoc]
    simp only [hdrop, hrec]
    rw [List.take_append_of_le_length (by omega), List.take_of_length_le (by omega),
      copy32_of_length a ha]

theorem loadRows_flatten (m : Nat) (rows : List (List (List Byte)))
    (hm : ∀ row ∈ rows, row.length = m) (h32 : ∀ row ∈ rows, ∀ x ∈ row, x.length = 32)
    (x rest : List Byte) (hx : x.length = 32) :
    loadRows m rows.length (x ++ (rows.flatten.flatten ++ rest)) = rows := by
  induction rows generalizing x with
  | nil => rfl
  | cons row rows ih =>
    have hr : row.length = m := hm row (List.mem_cons_self _ _)
    obtain ⟨y, hy, hrow⟩ := loadRow_flatten row (h32 row (List.mem_cons_self _ _)) x
      (rows.flatten.flatten ++ rest) hx
    rw [List.length_cons, loadRows]
    simp only [List.flatten_cons, List.flatten_append, List.append_assoc]
    rw [← hr, hrow]
    simp only
    rw [hr, ih (fun r hr => hm r (List.mem_cons_of_mem _ hr))
      (fun r hr => h32 r (List.mem_cons_of_mem _ hr)) y hy]

theorem grid_length (n m : Nat) (rows : List (List (List Byte))) (hn : rows.length = n)
    (hm : ∀ row ∈ rows, row.length = m) (h32 : ∀ row ∈ rows, ∀ x ∈ row, x.length = 32) :
    rows.flatten.flatten.length = n * m * 32 := by
  rw [length_flatten_uniform rows.flatten 32, length_flatten_uniform rows m hm, hn]
  intro x hx
  rw [List.mem_flatten] at hx
  obtain ⟨row, hrow, hxr⟩ := hx
  exact h32 row hrow x hxr

/-- `load` parses a well-shaped signature back into its challenge and its grid. -/
theorem load_grid {Pt : Type} (pub : List (List Pt)) (n m : Nat) (e0 : List Byte)
    (rows : List (List (List Byte))) (hpub : pub.length = n) (hn1 : 1 ≤ n)
    (hpub0 : (pub.getD 0 []).length = m) (hm1 : 1 ≤ m) (he : e0.length = 32)
    (hn : rows.length = n) (hm : ∀ row ∈ rows, row.length = m)
    (h32 : ∀ row ∈ rows, ∀ x ∈ row, x.length = 32) :
    BRSignature.load (e0 ++ rows.flatten.flatten) pub = (n % 256, m % 256, e0, some rows) := by
  unfold BRSignature.load
  cases pub with
  | nil => simp at hpub; omega
  | cons pub0 rest =>
    simp only [List.getD_cons_zero] at hpub0
    simp only
    rw [if_neg (by omega), if_neg]
    · rw [hpub0, hpub, List.take_append_of_le_length (by omega),
        List.take_of_length_le (by omega), copy32_of_length e0 he]
      have h := loadRows_flatten m rows hm h32 e0 [] he
      rw [List.append_nil, hn] at h
      rw [h]
    · rw [not_not, List.length_append, grid_length n m rows hn hm h32, he, hpub0, hpub]
      ring

theorem foldRun_acc {α : Type} (f : List Byte → α → Run (List Byte)) (g : α → List Byte)
    (ts : List α) (E : List Byte) (h : ∀ t ∈ ts, ∀ E, f E t = .ok (E ++ g t)) :
    foldRun f ts E = .ok (E ++ (ts.map g).flatten) := by
  induction ts generalizing E with
  | nil => simp [foldRun]
  | cons t rest ih =>
    rw [foldRun, h t (List.mem_cons_self _ _) E]
    simp only
    rw [ih _ (fun t1 ht1 => h t1 (List.mem_cons_of_mem _ ht1))]
    simp

theorem rowsOf_shape (B : Lib) (msghash r : List Byte) (pub : List (List B.Pt))
    (priv : List (List Byte)) (indices : List Byte) (n m : Nat) :
    (rowsOf B msghash r pub priv indices n m).length = n ∧
      (∀ row ∈ rowsOf B msghash r pub priv indices n m, row.length = m) ∧
      ∀ row ∈ rowsOf B msghash r pub priv indices n m, ∀ x ∈ row, x.length = 32 := by
  refine ⟨by simp [rowsOf], ?_, ?_⟩
  · intro row hrow
    simp only [rowsOf, List.mem_map] at hrow
    obtain ⟨t, -, rfl⟩ := hrow
    exact rowOf_length _ _ _ _ _ _ _ _ _
  · intro row hrow
    simp only [rowsOf, List.mem_map] at hrow
    obtain ⟨t, -, rfl⟩ := hrow
    exact rowOf_entry_length _ _ _ _ _ _ _ _ _

theorem rowsOf_getElem? (B : Lib) (msghash r : List Byte) (pub : List (List B.Pt))
    (priv : List (List Byte)) (indices : List Byte) (n m t : Nat) (ht : t < n) :
    (rowsOf B msghash r pub priv indices n m)[t]? =
      some (rowOf B msghash r (pub.getD t []) (priv.getD t []) t m (indices.getD t 0).val
        (challenge0 B msghash r pub indices n m)) := by
  simp only [rowsOf, List.getElem?_map, List.getElem?_range ht, Option.map_some']

/-- `Verify` accepts the signature `signatureOf` of a valid input when the range check of
`BRSign` has passed in every ring. -/
theorem Verify_signatureOf (B : Lib) (msghash r : List Byte) (pub : List (List B.Pt))
    (priv : List (List Byte)) (indices : List Byte) (n m : Nat)
    (hv : ValidInput B pub priv indices n m)
    (hok : rangeOk B msghash r pub priv indices n m) :
    BRSignature.Verify B (signatureOf B msghash r pub priv indices n m) msghash pub =
      .ok true := by
  obtain ⟨s1, s2, s3⟩ := rowsOf_shape B msghash r pub priv indices n m
  have hload := load_grid pub n m (challenge0 B msghash r pub indices n m)
    (rowsOf B msghash r pub priv indices n m) hv.rings hv.n_pos
    (valid_ring B pub priv indices n m hv 0 hv.n_pos).2.1 hv.m_pos (reduce_length _) s1 s2 s3
  have hn2 := hv.n_le
  have hm2 := hv.m_le
  have e1 : n % 256 = n := by omega
  have e2 : m % 256 = m := by omega
  unfold BRSignature.Verify signatureOf
  rw [hload, e1, e2]
  simp only
  have hE : foldRun (verifyRing B msghash pub (rowsOf B msghash r pub priv indices n m) m
      (challenge0 B msghash r pub indices n m)) (List.range n) [] =
      .ok ([] ++ ((List.range n).map (fun t =>
        (openedOf B msghash r (pub.getD t []) t m (indices.getD t 0).val).closing)).flatten) := by
    apply foldRun_acc
    intro t ht E
    rw [List.mem_range] at ht
    obtain ⟨h1, h2, -, h4, -, h6⟩ := valid_ring B pub priv indices n m hv t ht
    unfold verifyRing
    rw [verifyWalk_eq B msghash pub _ t m _ _ _ _ h1
      (rowsOf_getElem? B msghash r pub priv indices n m t ht)
      (fun i hi => by
        rw [List.mem_range] at hi
        rw [h2, rowOf_length]
        exact ⟨hi, hi⟩)]
    simp only
    rw [ring_closes B msghash r _ _ t m _ _ h4 h6 (hok t ht)]
  rw [hE]
  simp only [List.nil_append]
  rw [if_neg]
  rw [not_not]
  unfold challenge0 openedAll
  rw [List.map_map]
  rfl

theorem toy_valid : ValidInput toyLib toyPub toyPriv toyIndices 2 3 where
  rings := rfl
  n_pos := by decide
  n_le := by decide
  slots := by
    intro ring hr
    simp only [toyPub, List.mem_cons, List.mem_singleton, List.not_mem_nil, or_false] at hr
    rcases hr with h | h <;> rw [h] <;> rfl
  m_pos := by decide
  m_le := by decide
  real := by
    intro t ht
    match t, ht with
    | 0, _ =>
      exact ⟨[⟨7, by decide⟩, Scalar.MulBase toyLib (HashToScalar toyLib [1]), ⟨11, by decide⟩],
        HashToScalar toyLib [1], 1, rfl, rfl, rfl, by decide, rfl⟩
    | 1, _ =>
      exact ⟨[⟨13, by decide⟩, ⟨17, by decide⟩, Scalar.MulBase toyLib (HashToScalar toyLib [2])],
        HashToScalar toyLib [2], 2, rfl, rfl, rfl, by decide, rfl⟩

theorem toy_payload_fits : ∀ d, some toyPayload = some d → d.length ≤ 2 * 3 * 32 := by
  intro d hd
  simp only [Option.some.injEq] at hd
  subst hd
  decide

/-- C1: on a valid signing input (`1 ≤ n, m ≤ 255`, `indices[t] < m`,
`priv[t]*G = pub[t][indices[t]]`) and a payload of at most `n*m*32` bytes, `BRSign` returns a
signature unless its range check fires, and `Verify` returns true on every signature that
`BRSign` returns. -/
theorem sign_verify_roundtrip (B : Lib) (msghash : List Byte) (data : Option (List Byte))
    (pub : List (List B.Pt)) (priv : List (List Byte)) (indices : List Byte) (n m : Nat)
    (hv : ValidInput B pub priv indices n m)
    (hd : ∀ d, data = some d → d.length ≤ n * m * 32) :
    (BRSign B msghash data pub priv indices ≠ .error .rangeCheck →
        ∃ sig, BRSign B msghash data pub priv indices = .ok sig) ∧
      ∀ sig, BRSign B msghash data pub priv indices = .ok sig →
        BRSignature.Verify B sig msghash pub = .ok true := by
  rcases BRSign_cases B msghash data pub priv indices n m hv hd with ⟨h1, -⟩ | ⟨h1, h2⟩
  · refine ⟨fun h => absurd h1 h, ?_⟩
    intro sig hs
    rw [h1] at hs
    cases hs
  · refine ⟨fun _ => ⟨_, h1⟩, ?_⟩
    intro sig hs
    rw [h1] at hs
    simp only [Except.ok.injEq] at hs
    rw [← hs]
    exact Verify_signatureOf B msghash _ pub priv indices n m hv h2

set_option maxRecDepth 100000 in
theorem toy_sign_no_range_fault :
    BRSign toyLib (BRPack toyLib toyMsg toyPub).1 (some toyPayload) toyPub toyPriv toyIndices
      ≠ .error .rangeCheck := by decide!

/-- C1 on the sample input of two rings of three keys. -/
theorem sign_verify_roundtrip_witness :
    ∃ sig, BRSign toyLib (BRPack toyLib toyMsg toyPub).1 (some toyPayload) toyPub toyPriv
        toyIndices = .ok sig ∧
      BRSignature.Verify toyLib sig (BRPack toyLib toyMsg toyPub).1 toyPub = .ok true :=
  (sign_verify_roundtrip toyLib (BRPack toyLib toyMsg toyPub).1 (some toyPayload) toyPub
      toyPriv toyIndices 2 3 toy_valid toy_payload_fits).1
    toy_sign_no_range_fault |>.elim
    (fun sig hs => ⟨sig, hs,
      (sign_verify_roundtrip toyLib (BRPack toyLib toyMsg toyPub).1 (some toyPayload) toyPub
        toyPriv toyIndices 2 3 toy_valid toy_payload_fits).2 sig hs⟩)

/-! ## Layout of the signature -/

theorem flatten_drop_take {α : Type} (xs : List (List α)) (c : Nat)
    (h : ∀ x ∈ xs, x.length = c) (k : Nat) (hk : k < xs.length) :
    (xs.flatten.drop (k * c)).take c = xs.getD k [] := by
  induction xs generalizing k with
  | nil => simp at hk
  | cons x rest ih =>
    have hx : x.length = c := h x (List.mem_cons_self _ _)
    cases k with
    | zero =>
      simp only [Nat.zero_mul, List.drop_zero, List.flatten_cons, List.getD_cons_zero]
      rw [List.take_append_of_le_length (by omega), List.take_of_length_le (by omega)]
    | succ k =>
      simp only [List.flatten_cons, List.getD_cons_succ]
      have e : (k + 1) * c = x.length + k * c := by rw [hx]; ring
      rw [e, ← List.drop_drop, List.drop_append_of_le_length (le_refl _),
        List.drop_of_length_le (le_refl _), List.nil_append]
      exact ih (fun y hy => h y (List.mem_cons_of_mem _ hy)) k
        (by simp only [List.length_cons] at hk; omega)

theorem flatten_getD {α : Type} (xs : List (List α)) (c : Nat)
    (h : ∀ x ∈ xs, x.length = c) (t i : Nat) (hi : i < c) (d : α) :
    xs.flatten.getD (t * c + i) d = (xs.getD t []).getD i d := by
  induction xs generalizing t with
  | nil => simp
  | cons x rest ih =>
    have hx : x.length = c := h x (List.mem_cons_self _ _)
    cases t with
    | zero =>
      simp only [Nat.zero_mul, Nat.zero_add, List.flatten_cons, List.getD_cons_zero]
      rw [List.getD_eq_getElem?_getD, List.getD_eq_getElem?_getD,
        List.getElem?_append_left (by omega)]
    | succ t =>
      simp only [List.flatten_cons, List.getD_cons_succ]
      have e0 : (t + 1) * c = t * c + c := by ring
      rw [List.getD_eq_getElem?_getD, List.getElem?_append_right (by rw [hx, e0]; omega),
        ← List.getD_eq_getElem?_getD]
      have e : (t + 1) * c + i - x.length = t * c + i := by
        rw [hx]
        omega
      rw [e]
      exact ih (fun y hy => h y (List.mem_cons_of_mem _ hy)) t

/-- C3, amended: the byte string that `BRSign` returns on a valid signing input of `n` rings
of `m` keys, `1 ≤ n, m ≤ 255`, has `32 + n*m*32` bytes: the global challenge `e0` (32 bytes),
then the `n*m` response elements of 32 bytes each in row-major order, the element of slot `i`
of ring `t` at offset `32 + (t*m+i)*32`; `load` parses it back into `e0` and the grid. -/
theorem signature_layout (B : Lib) (msghash : List Byte) (data : Option (List Byte))
    (pub : List (List B.Pt)) (priv : List (List Byte)) (indices : List Byte) (n m : Nat)
    (hv : ValidInput B pub priv indices n m)
    (hd : ∀ d, data = some d → d.length ≤ n * m * 32)
    (sig : List Byte) (hs : BRSign B msghash data pub priv indices = .ok sig) :
    sig.length = 32 + n * m * 32 ∧
      ∃ e0 s, sig = e0 ++ s.flatten.flatten ∧ e0.length = 32 ∧ s.length = n ∧
        (∀ row ∈ s, row.length = m ∧ ∀ x ∈ row, x.length = 32) ∧
        e0 = challenge0 B msghash (randomness B msghash data priv indices n m) pub indices
          n m ∧
        s = rowsOf B msghash (randomness B msghash data priv indices n m) pub priv indices
          n m ∧
        sig.take 32 = e0 ∧
        (∀ t i, t < n → i < m →
          (sig.drop (32 + (t * m + i) * 32)).take 32 = (s.getD t []).getD i []) ∧
        BRSignature.load sig pub = (n, m, e0, some s) := by
  rcases BRSign_cases B msghash data pub priv indices n m hv hd with ⟨h1, -⟩ | ⟨h1, -⟩
  · rw [h1] at hs
    cases hs
  · rw [h1] at hs
    simp only [Except.ok.injEq] at hs
    subst hs
    obtain ⟨s1, s2, s3⟩ := rowsOf_shape B msghash
      (randomness B msghash data priv indices n m) pub priv indices n m
    have he : (challenge0 B msghash (randomness B msghash data priv indices n m) pub indices
        n m).length = 32 := reduce_length _
    have hflat : ∀ x ∈ (rowsOf B msghash (randomness B msghash data priv indices n m) pub
        priv indices n m).flatten, x.length = 32 := by
      intro x hx
      rw [List.mem_flatten] at hx
      obtain ⟨row, hrow, hxr⟩ := hx
      exact s3 row hrow x hxr
    have hload := load_grid pub n m _ _ hv.rings hv.n_pos
      (valid_ring B pub priv indices n m hv 0 hv.n_pos).2.1 hv.m_pos he s1 s2 s3
    have hn2 := hv.n_le
    have hm2 := hv.m_le
    have e1 : n % 256 = n := by omega
    have e2 : m % 256 = m := by omega
    rw [e1, e2] at hload
    refine ⟨?_, _, _, rfl, he, s1, fun row hrow => ⟨s2 row hrow, s3 row hrow⟩, rfl, rfl,
      ?_, ?_, hload⟩
    · unfold signatureOf
      rw [List.length_append, he, grid_length n m _ s1 s2 s3]
    · unfold signatureOf
      rw [List.take_append_of_le_length (by omega), List.take_of_length_le (by omega)]
    · intro t i ht hi
      unfold signatureOf
      have hdrop : ∀ (a b : List Byte) (k : Nat), a.length = 32 →
          (a ++ b).drop (32 + k) = b.drop k := by
        intro a b k ha
        have h0 : (a ++ b).drop 32 = b := by
          rw [List.drop_append_of_le_length (by omega), List.drop_of_length_le (by omega),
            List.nil_append]
        rw [← List.drop_drop, h0]
      rw [hdrop _ _ _ he]
      have hlen : (rowsOf B msghash (randomness B msghash data priv indices n m) pub
          priv indices n m).flatten.length = n * m := by
        rw [length_flatten_uniform _ m s2, s1]
      have hlt : t * m + i < n * m := by
        have h2 : (t + 1) * m ≤ n * m := Nat.mul_le_mul_right m ht
        have h3 : (t + 1) * m = t * m + m := by ring
        omega
      rw [flatten_drop_take _ 32 hflat (t * m + i) (by rw [hlen]; exact hlt)]
      exact flatten_getD _ m s2 t i hi []

/-- C3, amended, on the sample input: the signature has `32 + 2*3*32 = 224` bytes. -/
theorem signature_layout_witness :
    ∃ sig, BRSign toyLib (BRPack toyLib toyMsg toyPub).1 (some toyPayload) toyPub toyPriv
        toyIndices = .ok sig ∧ sig.length = 32 + 2 * 3 * 32 := by
  cases hs : BRSign toyLib (BRPack toyLib toyMsg toyPub).1 (some toyPayload) toyPub toyPriv
      toyIndices with
  | error e =>
    rcases BRSign_cases toyLib (BRPack toyLib toyMsg toyPub).1 (some toyPayload) toyPub
      toyPriv toyIndices 2 3 toy_valid toy_payload_fits with ⟨h1, -⟩ | ⟨h1, -⟩
    · exact absurd h1 toy_sign_no_range_fault
    · rw [h1] at hs; cases hs
  | ok sig =>
    exact ⟨sig, rfl, (signature_layout toyLib (BRPack toyLib toyMsg toyPub).1
      (some toyPayload) toyPub toyPriv toyIndices 2 3 toy_valid toy_payload_fits sig hs).1⟩

/-! ## What `Recover` writes -/

theorem foldRun_inv {α σ : Type} (f : σ → α → Run σ) (P : σ → Prop)
    (hstep : ∀ s a s1, P s → f s a = .ok s1 → P s1) (xs : List α) (s s1 : σ) (hs : P s)
    (h : foldRun f xs s = .ok s1) : P s1 := by
  induction xs generalizing s with
  | nil =>
    simp only [foldRun, Except.ok.injEq] at h
    rw [← h]; exact hs
  | cons a rest ih =>
    rw [foldRun] at h
    cases ha : f s a with
    | error e => rw [ha] at h; cases h
    | ok s2 =>
      rw [ha] at h
      exact ih s2 (hstep s a s2 hs ha) h

theorem loadRow_entry_length (cnt : Nat) (p : List Byte) :
    ∀ x ∈ (loadRow cnt p).1, x.length = 32 := by
  induction cnt generalizing p with
  | zero => intro x hx; simp [loadRow] at hx
  | succ cnt ih =>
    intro x hx
    simp only [loadRow, List.mem_cons] at hx
    rcases hx with h | h
    · rw [h]; exact copy32_length _
    · exact ih _ x h

theorem loadRows_entry_length (m cnt : Nat) (p : List Byte) :
    ∀ row ∈ loadRows m cnt p, ∀ x ∈ row, x.length = 32 := by
  induction cnt generalizing p with
  | zero => intro row hrow; simp [loadRows] at hrow
  | succ cnt ih =>
    intro row hrow
    simp only [loadRows, List.mem_cons] at hrow
    rcases hrow with h | h
    · rw [h]; exact loadRow_entry_length m p
    · exact ih _ row h

theorem load_entry_length {Pt : Type} (brs : List Byte) (pub : List (List Pt)) (n m : Nat)
    (e0 : List Byte) (brss : List (List (List Byte)))
    (h : BRSignature.load brs pub = (n, m, e0, some brss)) :
    ∀ row ∈ brss, ∀ x ∈ row, x.length = 32 := by
  unfold BRSignature.load at h
  cases pub with
  | nil => simp at h
  | cons pub0 rest =>
    simp only at h
    split at h
    · simp at h
    · split at h
      · simp at h
      · simp only [Prod.mk.injEq, Option.some.injEq] at h
        obtain ⟨-, -, -, h4⟩ := h
        rw [← h4]
        exact loadRows_entry_length _ _ _

/-- A write of `src` at offset `off` leaves every byte from `off + len(src)` on unchanged. -/
theorem writeAt_tail (data : List Byte) (off : Nat) (src data1 : List Byte) (K : Nat)
    (h : writeAt data off src = .ok data1) (hK : off + src.length ≤ K) :
    data1.length = data.length ∧ data1.drop K = data.drop K := by
  unfold writeAt at h
  split at h
  · rename_i hoff
    simp only [Except.ok.injEq] at h
    subst h
    have hlen : (data.take off ++ copyInto (data.drop off) src).length = data.length := by
      rw [List.length_append, copyInto_length, List.length_take, List.length_drop]
      omega
    refine ⟨hlen, ?_⟩
    apply List.ext_getElem?
    intro i
    rw [List.getElem?_drop, List.getElem?_drop,
      List.getElem?_append_right (by rw [List.length_take]; omega), List.length_take,
      Nat.min_eq_left hoff]
    unfold copyInto
    by_cases hc : src.length ≤ data.length - off
    · rw [List.length_drop, List.take_of_length_le hc,
        List.getElem?_append_right (by omega), List.getElem?_drop, List.getElem?_drop]
      congr 1
      omega
    · rw [List.getElem?_eq_none (l := data) (by omega)]
      apply List.getElem?_eq_none
      rw [List.length_append, List.length_take, List.length_drop, List.length_drop,
        List.length_drop]
      omega
  · cases h

theorem recoverStep_tail (B : Lib) (msghash : List Byte) (pub : List (List B.Pt))
    (priv : List (List Byte)) (indices : List Byte) (brss : List (List (List Byte)))
    (h32 : ∀ row ∈ brss, ∀ x ∈ row, x.length = 32)
    (t m : Nat) (st : List Byte × List Byte) (i : Nat) (st1 : List Byte × List Byte)
    (h : recoverStep B msghash pub priv indices brss t m st i = .ok st1) :
    st1.1.length = st.1.length ∧ st1.1.drop 256 = st.1.drop 256 := by
  unfold recoverStep at h
  cases hrow : idx brss t with
  | error e => rw [hrow] at h; cases h
  | ok row =>
    rw [hrow] at h
    simp only at h
    cases hsi : idx row i with
    | error e => rw [hsi] at h; cases h
    | ok si =>
      rw [hsi] at h
      simp only at h
      have hsi32 : si.length = 32 :=
        h32 row (List.getElem?_mem ((idx_ok_iff _ _ _).1 hrow)) si
          (List.getElem?_mem ((idx_ok_iff _ _ _).1 hsi))
      have hoff := (slotOff_le t m i).1
      cases hj : idx indices t with
      | error e => rw [hj] at h; cases h
      | ok jb =>
        rw [hj] at h
        simp only at h
        by_cases hij : i = jb.val
        · rw [if_pos hij] at h
          cases hp : idx priv t with
          | error e => rw [hp] at h; cases h
          | ok p =>
            rw [hp] at h
            simp only at h
            split at h
            · cases h
            · rename_i data1 hw
              have := writeAt_tail _ _ _ _ 256 hw
                (by rw [List.length_set]; unfold Scalar.MulAdd; rw [ScMulAdd_length]; omega)
              split at h
              · cases h
              · split at h
                · cases h
                · simp only [Except.ok.injEq] at h
                  rw [← h]
                  exact this
        · rw [if_neg hij] at h
          split at h
          · cases h
          · rename_i data1 hw
            have := writeAt_tail _ _ _ _ 256 hw (by omega)
            split at h
            · cases h
            · split at h
              · cases h
              · simp only [Except.ok.injEq] at h
                rw [← h]
                exact this

theorem recoverRing_tail (B : Lib) (msghash : List Byte) (pub : List (List B.Pt))
    (priv : List (List Byte)) (indices : List Byte) (brss : List (List (List Byte)))
    (h32 : ∀ row ∈ brss, ∀ x ∈ row, x.length = 32)
    (m : Nat) (e0 : List Byte) (st : List Byte × List Byte) (t : Nat)
    (st1 : List Byte × List Byte)
    (h : recoverRing B msghash pub priv indices brss m e0 st t = .ok st1) :
    st1.1.length = st.1.length ∧ st1.1.drop 256 = st.1.drop 256 := by
  unfold recoverRing at h
  split at h
  · cases h
  · rename_i st2 hf
    simp only [Except.ok.injEq] at h
    rw [← h]
    exact foldRun_inv (recoverStep B msghash pub priv indices brss t m)
      (fun s => s.1.length = st.1.length ∧ s.1.drop 256 = st.1.drop 256)
      (fun s a s1 hs hstep => by
        obtain ⟨a1, a2⟩ := recoverStep_tail B msghash pub priv indices brss h32 t m s a s1 hstep
        exact ⟨a1.trans hs.1, a2.trans hs.2⟩)
      (List.range m) (st.1, e0) st2 ⟨rfl, rfl⟩ hf

theorem byte_zero_xor (b : Byte) : (0 : Byte) ^^^ b = b := by
  revert b; decide!

/-- Whatever the signature, the bytes that `Recover` returns from offset 256 on are the bare
key stream: the loop of `Recover` writes at the byte offsets `(t*m+i)*32`, which are below
256, so the buffer stays zero from offset 256 on until it is XORed with the key stream. -/
theorem Recover_tail (B : Lib) (brs msghash : List Byte) (pub : List (List B.Pt))
    (priv : List (List Byte)) (indices : List Byte) (d : List Byte)
    (h : BRSignature.Recover B brs msghash pub priv indices = .ok (some d)) :
    ∀ i, 256 ≤ i → i < d.length → d[i]? = some (keystream B msghash priv indices i) := by
  unfold BRSignature.Recover at h
  split at h
  · cases h
  · rename_i n m e0 brss hload
    have h32 := load_entry_length brs pub n m e0 brss hload
    simp only at h
    split at h
    · cases h
    · rename_i st hf
      have hinv := foldRun_inv (recoverRing B msghash pub priv indices brss m e0)
        (fun s => s.1.length = n * m * 32 ∧ s.1.drop 256 = (zeros (n * m * 32)).drop 256)
        (fun s a s1 hs hstep => by
          obtain ⟨a1, a2⟩ := recoverRing_tail B msghash pub priv indices brss h32 m e0 s a s1
            hstep
          exact ⟨a1.trans hs.1, a2.trans hs.2⟩)
        (List.range n) (zeros (n * m * 32), []) st ⟨by simp [zeros], rfl⟩ hf
      obtain ⟨hl, hz⟩ := hinv
      rw [xornoise_eq B msghash st.1 (some st.1) priv indices
        (by intro d1 hd1; simp only [Option.some.injEq] at hd1; rw [← hd1])] at h
      simp only at h
      split at h
      · cases h
      · simp only [Except.ok.injEq, Option.some.injEq] at h
        subst h
        intro i hi hlt
        rw [xorStream_length, padTo_length _ _
          (by intro d1 hd1; simp only [Option.some.injEq] at hd1; rw [← hd1])] at hlt
        have hpad : padTo st.1.length (some st.1) = st.1 := by
          simp [padTo, zeros]
        rw [hpad]
        have hsti : st.1[i]? = some 0 := by
          have h1 : (st.1.drop 256)[i - 256]? = ((zeros (n * m * 32)).drop 256)[i - 256]? := by
            rw [hz]
          rw [List.getElem?_drop, List.getElem?_drop] at h1
          have e : 256 + (i - 256) = i := by omega
          rw [e] at h1
          rw [h1]
          simp only [zeros, List.getElem?_replicate]
          rw [if_pos (by omega)]
        unfold xorStream
        rw [List.getElem?_zipWith, hsti, List.getElem?_map, List.getElem?_range hlt]
        simp only [Option.map_some']
        rw [byte_zero_xor]

theorem toy9_valid : ValidInput toyLib toyPub9 toyPriv9 toyIndices9 3 3 where
  rings := rfl
  n_pos := by decide
  n_le := by decide
  slots := by
    intro ring hr
    simp only [toyPub9, List.mem_cons, List.mem_singleton, List.not_mem_nil, or_false] at hr
    rcases hr with h | h | h <;> rw [h] <;> rfl
  m_pos := by decide
  m_le := by decide
  real := by
    intro t ht
    match t, ht with
    | 0, _ =>
      exact ⟨[toyDecoy 0 0, Scalar.MulBase toyLib (HashToScalar toyLib [0]), toyDecoy 0 2],
        HashToScalar toyLib [0], 1, rfl, rfl, rfl, by decide, rfl⟩
    | 1, _ =>
      exact ⟨[toyDecoy 1 0, toyDecoy 1 1, Scalar.MulBase toyLib (HashToScalar toyLib [1])],
        HashToScalar toyLib [1], 2, rfl, rfl, rfl, by decide, rfl⟩
    | 2, _ =>
      exact ⟨[Scalar.MulBase toyLib (HashToScalar toyLib [2]), toyDecoy 2 1, toyDecoy 2 2],
        HashToScalar toyLib [2], 0, rfl, rfl, rfl, by decide, rfl⟩

theorem toy9_payload_fits : ∀ d, some toyPayload9 = some d → d.length ≤ 3 * 3 * 32 := by
  intro d hd
  simp only [Option.some.injEq] at hd
  subst hd
  unfold toyPayload9
  rw [List.length_replicate]

set_option maxRecDepth 100000 in
theorem toy9_sign_no_range_fault :
    BRSign toyLib (BRPack toyLib toyMsg toyPub9).1 (some toyPayload9) toyPub9 toyPriv9
      toyIndices9 ≠ .error .rangeCheck := by decide!

set_option maxRecDepth 100000 in
theorem toy9_stream_differs :
    (padTo (3 * 3 * 32) (some toyPayload9))[287]? ≠
      some (keystream toyLib (BRPack toyLib toyMsg toyPub9).1 toyPriv9 toyIndices9 287) := by
  decide!

/-- C2 fails on the code: whatever the signature, `Recover` does not return the padded payload
when that payload differs from the key stream at an offset from 256 on, because the byte
offsets `(t*m+i)*32` of `Recover` wrap at 256 and the buffer is never written there. -/
theorem recover_misses_payload (B : Lib) (sig msghash : List Byte)
    (data : Option (List Byte)) (pub : List (List B.Pt)) (priv : List (List Byte))
    (indices : List Byte) (n m i : Nat)
    (hd : ∀ d, data = some d → d.length ≤ n * m * 32) (h256 : 256 ≤ i) (hi : i < n * m * 32)
    (hne : (padTo (n * m * 32) data)[i]? ≠ some (keystream B msghash priv indices i)) :
    BRSignature.Recover B sig msghash pub priv indices ≠
      .ok (some (padTo (n * m * 32) data)) := by
  intro h
  exact hne (Recover_tail B sig msghash pub priv indices _ h i h256
    (by rw [padTo_length _ _ hd]; exact hi))

/-- C2 on the second sample input, a valid input of three rings of three keys and a payload
of 288 bytes: `BRSign` returns a signature, and `Recover` does not return the payload from
it. -/
theorem recover_misses_payload_witness :
    ∃ sig, BRSign toyLib (BRPack toyLib toyMsg toyPub9).1 (some toyPayload9) toyPub9 toyPriv9
        toyIndices9 = .ok sig ∧
      BRSignature.Recover toyLib sig (BRPack toyLib toyMsg toyPub9).1 toyPub9 toyPriv9
        toyIndices9 ≠ .ok (some (padTo (3 * 3 * 32) (some toyPayload9))) := by
  rcases BRSign_cases toyLib (BRPack toyLib toyMsg toyPub9).1 (some toyPayload9) toyPub9
    toyPriv9 toyIndices9 3 3 toy9_valid toy9_payload_fits with ⟨h1, -⟩ | ⟨h1, -⟩
  · exact absurd h1 toy9_sign_no_range_fault
  · exact ⟨_, h1, recover_misses_payload toyLib _ (BRPack toyLib toyMsg toyPub9).1
      (some toyPayload9) toyPub9 toyPriv9 toyIndices9 3 3 287 toy9_payload_fits (by decide)
      (by decide) toy9_stream_differs⟩

set_option maxRecDepth 100000 in
/-- The evaluation of the second sample input: `Recover` returns the first 256 bytes of the
payload followed by 32 bytes of key stream. -/
theorem toy9_sign_then_recover :
    signThenRecover toyLib (BRPack toyLib toyMsg toyPub9).1 (some toyPayload9) toyPub9
        toyPriv9 toyIndices9 =
      .ok (some (toyPayload9.take 256 ++ (List.range' 256 32).map
        (keystream toyLib (BRPack toyLib toyMsg toyPub9).1 toyPriv9 toyIndices9))) := by
  decide!

set_option maxRecDepth 100000 in
theorem toy256_sign :
    BRSign toyLib (zeros 32) none toyPub256 toyPriv256 toyIndices256 =
      .ok (reduce (toyLib.sha512 [])) := by decide!

/-- C3 as stated fails: for the matrix of 256 rings of one key, every key the public key of
its private key, `BRSign` returns the 32 bytes of `e0` alone and not `32 + 256*1*32` bytes,
because the number of rings is kept in a byte and `byte(256)` is 0. -/
theorem signature_layout_counterexample :
    toyPub256.length = 256 ∧ (∀ ring ∈ toyPub256, ring.length = 1) ∧
      (∀ t, t < 256 → ∃ ring p j, toyPub256[t]? = some ring ∧ toyPriv256[t]? = some p ∧
        toyIndices256[t]? = some j ∧ j.val < 1 ∧
        ring[j.val]? = some (Scalar.MulBase toyLib p)) ∧
      ∃ sig, BRSign toyLib (zeros 32) none toyPub256 toyPriv256 toyIndices256 = .ok sig ∧
        sig.length = 32 ∧ sig.length ≠ 32 + 256 * 1 * 32 := by
  refine ⟨by unfold toyPub256; rw [List.length_replicate], ?_, ?_, _, toy256_sign,
    reduce_length _, ?_⟩
  · intro ring hr
    rw [List.eq_of_mem_replicate hr]
    rfl
  · intro t ht
    refine ⟨[Scalar.MulBase toyLib (HashToScalar toyLib [1])], HashToScalar toyLib [1], 0,
      ?_, ?_, ?_, by decide, rfl⟩
    · simp only [toyPub256, List.getElem?_replicate, ht, ↓reduceIte]
    · simp only [toyPriv256, List.getElem?_replicate, ht, ↓reduceIte]
    · simp only [toyIndices256, List.getElem?_replicate, ht, ↓reduceIte]
  · rw [reduce_length]
    decide

/-! ## The chain of `Recover` -/

theorem mod_L_smul_of (B : Lib) (P : B.Pt) (hP : L • P = 0) (x : Nat) :
    (x % L) • P = x • P := by
  conv_rhs => rw [← Nat.div_add_mod x L]
  rw [add_smul, mul_comm, mul_smul, hP, smul_zero, zero_add]

/-- For a point of the subgroup of order `L`, the negated scalar of `Recover` times the point
is the scalar of `Verify` times the negated point. -/
theorem negate_smul (B : Lib) (P : B.Pt) (hP : L • P = 0) (e : List Byte) :
    leNat (Scalar.Negate e) • P = leNat e • (-P) := by
  have hv : leNat (Scalar.Negate e) = ((L - 1) * leNat e + 0) % L := by
    unfold Scalar.Negate
    rw [leNat_ScMulAdd, leNat_negone, leNat_zeros]
  rw [hv, Nat.add_zero, mod_L_smul_of B P hP, smul_neg]
  have h : ((L - 1) * leNat e) • P + leNat e • P = 0 := by
    rw [← add_smul]
    have h2 : (L - 1) * leNat e + leNat e = leNat e * L := by
      have := L_pos
      obtain ⟨k, hk⟩ : ∃ k, L = k + 1 := ⟨L - 1, by omega⟩
      rw [hk]; simp; ring
    rw [h2, mul_smul, hP, smul_zero]
  exact eq_neg_of_add_eq_zero_left h

theorem recover_point (B : Lib) (P : B.Pt) (hP : L • P = 0) (e z : List Byte) :
    Point.MulAdd B P (Scalar.Negate e) z = Point.MulAdd B (Point.Negate B P) e z := by
  unfold Point.MulAdd Point.Negate
  rw [negate_smul B P hP]

/-- The nonce that `Recover` solves for at the real slot: `(-e)*priv + (priv*e + k) = k`
modulo `L`, and `k` is below `2^252`. -/
theorem recover_nonce (p e k : List Byte) (hk : k.length = 32) (hk2 : leNat k < 2 ^ 252) :
    Scalar.MulAdd (Scalar.Negate e) p (Scalar.MulAdd p e k) = k := by
  unfold Scalar.MulAdd
  have hv : leNat (Scalar.Negate e) = ((L - 1) * leNat e + 0) % L := by
    unfold Scalar.Negate
    rw [leNat_ScMulAdd, leNat_negone, leNat_zeros]
  have hkL : leNat k < L := lt_trans hk2 (by unfold L; norm_num)
  have hval : (leNat (Scalar.Negate e) * leNat p + leNat (ScMulAdd p e k)) % L = leNat k := by
    rw [hv, leNat_ScMulAdd, Nat.add_zero, Nat.add_mod, Nat.mod_mod, Nat.mul_mod, Nat.mod_mod,
      ← Nat.mul_mod, ← Nat.add_mod]
    have h2 : (L - 1) * leNat e * leNat p + (leNat p * leNat e + leNat k) =
        leNat k + L * (leNat e * leNat p) := by
      have := L_pos
      obtain ⟨q, hq⟩ : ∃ q, L = q + 1 := ⟨L - 1, by omega⟩
      rw [hq]; simp; ring
    rw [h2, Nat.add_mul_mod_self_left, Nat.mod_eq_of_lt hkL]
  unfold ScMulAdd at hval ⊢
  rw [hval]
  have := toLE_leNat k
  rw [hk] at this
  exact this

theorem clamp_or_nibble (c : List Byte) (hc : c.length = 32) :
    (clamp c).set 31 (byte31 (clamp c) ||| nibble c) = c := by
  unfold clamp nibble
  rw [byte31_set31 c hc, List.set_set, byte_split, set31_byte31 c hc]

theorem byte_xor_xor (a k : Byte) : (a ^^^ k) ^^^ k = a := by
  apply Fin.ext
  show ((a.val ^^^ k.val) % 256 ^^^ k.val) % 256 = a.val
  have h1 : a.val ^^^ k.val < 256 := Nat.xor_lt_two_pow (n := 8) a.isLt k.isLt
  rw [Nat.mod_eq_of_lt h1, Nat.xor_assoc, Nat.xor_self, Nat.xor_zero,
    Nat.mod_eq_of_lt a.isLt]

/-- The key stream of `xornoise` applied twice gives the buffer back. -/
theorem xorStream_xorStream (B : Lib) (msg : List Byte) (priv : List (List Byte))
    (indices d : List Byte) :
    xorStream B msg priv indices (xorStream B msg priv indices d) = d := by
  apply List.ext_getElem?
  intro i
  unfold xorStream
  rw [List.getElem?_zipWith, List.getElem?_zipWith, List.getElem?_map, List.getElem?_map,
    List.length_zipWith, List.length_map, List.length_range, Nat.min_self]
  by_cases hi : i < d.length
  · rw [List.getElem?_range hi, List.getElem?_eq_getElem hi]
    simp only [Option.map_some']
    rw [byte_xor_xor]
  · rw [List.getElem?_eq_none (l := d) (by omega)]

theorem foldRun_range {σ : Type} (f : σ → Nat → Run σ) (Inv : Nat → σ → Prop) (m : Nat)
    (hstep : ∀ i, i < m → ∀ s, Inv i s → ∃ s1, f s i = .ok s1 ∧ Inv (i + 1) s1)
    (s0 : σ) (h0 : Inv 0 s0) :
    ∃ s1, foldRun f (List.range m) s0 = .ok s1 ∧ Inv m s1 := by
  induction m with
  | zero => exact ⟨s0, rfl, h0⟩
  | succ m ih =>
    obtain ⟨s1, h1, hi1⟩ := ih (fun i hi s hs => hstep i (by omega) s hs)
    obtain ⟨s2, h2, hi2⟩ := hstep m (by omega) s1 hi1
    refine ⟨s2, ?_, hi2⟩
    rw [List.range_succ, foldRun_append f _ _ _ _ h1, foldRun, h2]
    rfl

theorem chain_range_succ (B : Lib) (msghash : List Byte) (t m : Nat) (ring : List B.Pt)
    (c : Nat → List Byte) (i : Nat) (e : List Byte) :
    chain B msghash t m ring c (List.range (i + 1)) e =
      link B msghash t m (ring.getD i 0) (chain B msghash t m ring c (List.range i) e)
        (c i) i := by
  rw [List.range_succ, chain_append]
  rfl

theorem chain_rowOf_prefix (B : Lib) (msghash r : List Byte) (ring : List B.Pt)
    (p : List Byte) (t m j : Nat) (e0 : List Byte) (hjm : j < m) :
    chain B msghash t m ring (fun i => (rowOf B msghash r ring p t m j e0).getD i [])
      (List.range j) e0 = realChallenge B msghash r ring t m j e0 := by
  unfold realChallenge
  apply chain_congr
  intro i hi
  rw [List.mem_range] at hi
  rw [rowOf_getD _ _ _ _ _ _ _ _ _ _ (by omega), if_neg (by omega)]

/-- The body of the inner loop of `Recover` on a row that `BRSign` emitted, at a key of the
subgroup of order `L`: it writes the chunk of randomness of the slot and advances the chain as
`Verify` does. -/
theorem recoverStep_eq (B : Lib) (msghash r : List Byte) (pub : List (List B.Pt))
    (priv : List (List Byte)) (indices : List Byte) (brss : List (List (List Byte)))
    (t m : Nat) (ring : List B.Pt) (jb : Byte) (p e0 : List Byte)
    (hring : pub[t]? = some ring) (hlen : ring.length = m) (hj : indices[t]? = some jb)
    (hjm : jb.val < m) (hp : priv[t]? = some p)
    (hkey : ring[jb.val]? = some (Scalar.MulBase B p))
    (hrow : brss[t]? = some (rowOf B msghash r ring p t m jb.val e0))
    (hrc : byte31 (realResponse B msghash r ring p t m jb.val e0) &&& 0xf0 = 0)
    (i : Nat) (hi : i < m) (hP : L • ring.getD i 0 = 0)
    (data e data1 : List Byte)
    (he : e = chain B msghash t m ring
      (fun i => (rowOf B msghash r ring p t m jb.val e0).getD i []) (List.range i) e0)
    (hw : writeAt data (slotOff t m i) (chunk r t m i) = .ok data1) :
    recoverStep B msghash pub priv indices brss t m (data, e) i =
      .ok (data1, chain B msghash t m ring
        (fun i => (rowOf B msghash r ring p t m jb.val e0).getD i [])
        (List.range (i + 1)) e0) := by
  have hsi : (rowOf B msghash r ring p t m jb.val e0)[i]? =
      some ((rowOf B msghash r ring p t m jb.val e0).getD i []) := by
    rw [List.getD_eq_getElem?_getD, List.getElem?_eq_getElem (by rw [rowOf_length]; exact hi)]
    rfl
  have hPi : ring[i]? = some (ring.getD i 0) := by
    rw [List.getD_eq_getElem?_getD, List.getElem?_eq_getElem (by omega)]
    rfl
  unfold recoverStep
  simp only [idx_of_getElem? _ _ _ hrow, idx_of_getElem? _ _ _ hsi, idx_of_getElem? _ _ _ hj,
    idx_of_getElem? _ _ _ hring, idx_of_getElem? _ _ _ hPi, idx_of_getElem? _ _ _ hp]
  have hfin : chameleon B
      (Point.MulAdd B (ring.getD i 0) (Scalar.Negate e)
        (((rowOf B msghash r ring p t m jb.val e0).getD i []).set 31
          (byte31 ((rowOf B msghash r ring p t m jb.val e0).getD i []) &&& 0x0f)))
      msghash t ((i + 1) % 256 % m)
      (byte31 ((rowOf B msghash r ring p t m jb.val e0).getD i []) &&& 0xf0) =
      chain B msghash t m ring
        (fun i => (rowOf B msghash r ring p t m jb.val e0).getD i [])
        (List.range (i + 1)) e0 := by
    rw [chain_range_succ, ← he, recover_point B _ hP]
    rfl
  rw [hfin]
  by_cases hij : i = jb.val
  · rw [if_pos hij]
    have hval : (Scalar.MulAdd (Scalar.Negate e) p
          (((rowOf B msghash r ring p t m jb.val e0).getD i []).set 31
            (byte31 ((rowOf B msghash r ring p t m jb.val e0).getD i []) &&& 0x0f))).set 31
        (byte31 (Scalar.MulAdd (Scalar.Negate e) p
          (((rowOf B msghash r ring p t m jb.val e0).getD i []).set 31
            (byte31 ((rowOf B msghash r ring p t m jb.val e0).getD i []) &&& 0x0f))) |||
          byte31 ((rowOf B msghash r ring p t m jb.val e0).getD i []) &&& 0xf0) =
        chunk r t m i := by
      generalize hjv : jb.val = j at *
      subst hij
      rw [rowOf_getD _ _ _ _ _ _ _ _ _ _ hi, if_pos rfl]
      obtain ⟨s1, s2⟩ := real_response_split (realResponse B msghash r ring p t m i e0)
        (nibble (chunk r t m i)) (ScMulAdd_length _ _ _) hrc (byte_f0_and_0f _)
      have s1' : ((realResponse B msghash r ring p t m i e0).set 31
          (byte31 (realResponse B msghash r ring p t m i e0) |||
            nibble (chunk r t m i))).set 31
          (byte31 ((realResponse B msghash r ring p t m i e0).set 31
            (byte31 (realResponse B msghash r ring p t m i e0) |||
              nibble (chunk r t m i))) &&& 0x0f) =
          realResponse B msghash r ring p t m i e0 := s1
      have s2' : byte31 ((realResponse B msghash r ring p t m i e0).set 31
          (byte31 (realResponse B msghash r ring p t m i e0) |||
            nibble (chunk r t m i))) &&& 0xf0 = nibble (chunk r t m i) := s2
      rw [s1', s2', he, chain_rowOf_prefix B msghash r ring p t m i e0 hi]
      have hk : Scalar.MulAdd (Scalar.Negate (realChallenge B msghash r ring t m i e0)) p
          (realResponse B msghash r ring p t m i e0) = clamp (chunk r t m i) := by
        unfold realResponse
        exact recover_nonce p _ _ (by rw [clamp_length]; exact chunk_length _ _ _ _)
          (leNat_clamp_lt _ (chunk_length _ _ _ _))
      rw [hk]
      exact clamp_or_nibble (chunk r t m i) (chunk_length _ _ _ _)
    rw [hval, hw]
  · rw [if_neg hij, rowOf_getD _ _ _ _ _ _ _ _ _ _ hi, if_neg hij, hw]

theorem slotOff_small (t m i : Nat) (h : t * m + i < 8) : slotOff t m i = 32 * (t * m + i) := by
  unfold slotOff
  generalize t * m = q at h
  omega

theorem writeAt_chunk (data r : List Byte) (c : Nat) (hN : data.length = r.length)
    (hoff : 32 * c + 32 ≤ r.length) (hpre : data.take (32 * c) = r.take (32 * c)) :
    ∃ data1, writeAt data (32 * c) (copy32 (r.drop (32 * c))) = .ok data1 ∧
      data1.length = r.length ∧ data1.take (32 * (c + 1)) = r.take (32 * (c + 1)) := by
  have hsrc : copy32 (r.drop (32 * c)) = (r.drop (32 * c)).take 32 :=
    copy32_of_le _ (by rw [List.length_drop]; omega)
  have hsl : ((r.drop (32 * c)).take 32).length = 32 := by
    rw [List.length_take, List.length_drop]; omega
  refine ⟨_, by unfold writeAt; rw [if_pos (by omega)], ?_, ?_⟩
  · rw [List.length_append, copyInto_length, List.length_take, List.length_drop]
    omega
  · rw [hsrc]
    unfold copyInto
    have hin : List.take (data.drop (32 * c)).length ((r.drop (32 * c)).take 32) =
        (r.drop (32 * c)).take 32 :=
      List.take_of_length_le (by rw [hsl, List.length_drop]; omega)
    rw [hin, ← List.append_assoc]
    have e : 32 * (c + 1) = 32 * c + 32 := by ring
    have hl : (data.take (32 * c) ++ (r.drop (32 * c)).take 32).length = 32 * c + 32 := by
      rw [List.length_append, hsl, List.length_take]; omega
    rw [e, List.take_append_of_le_length (by omega), List.take_of_length_le (by omega), hpre,
      List.take_add]

/-- The inner loop of `Recover` on ring `t` of a signature that `BRSign` emitted, for at most
eight slots and keys of the subgroup of order `L`: it copies the randomness of the ring into
the buffer and ends in the closing challenge of the ring. -/
theorem recoverWalk_eq (B : Lib) (msghash r : List Byte) (pub : List (List B.Pt))
    (priv : List (List Byte)) (indices : List Byte) (brss : List (List (List Byte)))
    (t m n : Nat) (ring : List B.Pt) (jb : Byte) (p e0 : List Byte)
    (hring : pub[t]? = some ring) (hlen : ring.length = m) (hj : indices[t]? = some jb)
    (hjm : jb.val < m) (hp : priv[t]? = some p)
    (hkey : ring[jb.val]? = some (Scalar.MulBase B p))
    (hrow : brss[t]? = some (rowOf B msghash r ring p t m jb.val e0))
    (hrc : byte31 (realResponse B msghash r ring p t m jb.val e0) &&& 0xf0 = 0)
    (hsub : ∀ P ∈ ring, L • P = 0) (ht : t < n) (hslots : n * m ≤ 8)
    (hr : r.length = n * m * 32) (data : List Byte) (hd : data.length = r.length)
    (hpre : data.take (32 * (t * m)) = r.take (32 * (t * m))) :
    ∃ data1, foldRun (recoverStep B msghash pub priv indices brss t m) (List.range m)
        (data, e0) = .ok (data1, (openedOf B msghash r ring t m jb.val).closing) ∧
      data1.length = r.length ∧
      data1.take (32 * ((t + 1) * m)) = r.take (32 * ((t + 1) * m)) := by
  have hbound : (t + 1) * m ≤ n * m := Nat.mul_le_mul_right m ht
  have hexp : (t + 1) * m = t * m + m := by ring
  obtain ⟨s1, h1, h2, h3, h4⟩ := foldRun_range
    (recoverStep B msghash pub priv indices brss t m)
    (fun i s => s.1.length = r.length ∧
      s.1.take (32 * (t * m + i)) = r.take (32 * (t * m + i)) ∧
      s.2 = chain B msghash t m ring
        (fun i => (rowOf B msghash r ring p t m jb.val e0).getD i []) (List.range i) e0)
    m
    (fun i hi s hs => by
      obtain ⟨a1, a2, a3⟩ := hs
      have hsmall : t * m + i < 8 := by omega
      obtain ⟨data1, w1, w2, w3⟩ := writeAt_chunk s.1 r (t * m + i) a1
        (by rw [hr]; omega) a2
      have hw : writeAt s.1 (slotOff t m i) (chunk r t m i) = .ok data1 := by
        unfold chunk
        rw [slotOff_small t m i hsmall]
        exact w1
      have hP : L • ring.getD i 0 = 0 := by
        apply hsub
        rw [List.getD_eq_getElem?_getD, List.getElem?_eq_getElem (by omega)]
        exact List.getElem_mem _
      have hstep := recoverStep_eq B msghash r pub priv indices brss t m ring jb p e0 hring
        hlen hj hjm hp hkey hrow hrc i hi hP s.1 s.2 data1 a3 hw
      exact ⟨_, hstep, w2, w3, rfl⟩)
    (data, e0) ⟨hd, by simpa using hpre, rfl⟩
  obtain ⟨d1, e1⟩ := s1
  simp only at h2 h3 h4
  refine ⟨d1, ?_, h2, ?_⟩
  · rw [h1, h4, ring_closes B msghash r ring p t m jb.val e0 hjm hkey hrc]
  · rw [hexp]; exact h3

/-- `Recover` on the signature `signatureOf` of a valid input with at most eight slots and
keys of the subgroup of order `L`, when the range check of `BRSign` has passed: it returns
the randomness array with the key stream removed. -/
theorem Recover_signatureOf (B : Lib) (msghash r : List Byte) (pub : List (List B.Pt))
    (priv : List (List Byte)) (indices : List Byte) (n m : Nat)
    (hv : ValidInput B pub priv indices n m)
    (hsub : ∀ ring ∈ pub, ∀ P ∈ ring, L • P = 0) (hslots : n * m ≤ 8)
    (hr : r.length = n * m * 32)
    (hok : rangeOk B msghash r pub priv indices n m) :
    BRSignature.Recover B (signatureOf B msghash r pub priv indices n m) msghash pub priv
        indices = .ok (some (xorStream B msghash priv indices r)) := by
  obtain ⟨s1, s2, s3⟩ := rowsOf_shape B msghash r pub priv indices n m
  have hload := load_grid pub n m (challenge0 B msghash r pub indices n m)
    (rowsOf B msghash r pub priv indices n m) hv.rings hv.n_pos
    (valid_ring B pub priv indices n m hv 0 hv.n_pos).2.1 hv.m_pos (reduce_length _) s1 s2 s3
  have hn2 := hv.n_le
  have hm2 := hv.m_le
  have e1 : n % 256 = n := by omega
  have e2 : m % 256 = m := by omega
  obtain ⟨st, hf, i1, i2, i3⟩ := foldRun_range
    (recoverRing B msghash pub priv indices (rowsOf B msghash r pub priv indices n m) m
      (challenge0 B msghash r pub indices n m))
    (fun t s => s.1.length = r.length ∧
      s.1.take (32 * (t * m)) = r.take (32 * (t * m)) ∧
      s.2 = ((List.range t).map (fun t =>
        (openedOf B msghash r (pub.getD t []) t m (indices.getD t 0).val).closing)).flatten)
    n
    (fun t ht s hs => by
      obtain ⟨a1, a2, a3⟩ := hs
      obtain ⟨h1, h2, h3, h4, h5, h6⟩ := valid_ring B pub priv indices n m hv t ht
      obtain ⟨data1, w1, w2, w3⟩ := recoverWalk_eq B msghash r pub priv indices
        (rowsOf B msghash r pub priv indices n m) t m n _ _ _
        (challenge0 B msghash r pub indices n m) h1 h2 h3 h4 h5 h6
        (rowsOf_getElem? B msghash r pub priv indices n m t ht) (hok t ht)
        (hsub _ (List.getElem?_mem h1)) ht hslots hr s.1 a1 a2
      refine ⟨(data1, s.2 ++
        (openedOf B msghash r (pub.getD t []) t m (indices.getD t 0).val).closing), ?_, w2,
        w3, ?_⟩
      · unfold recoverRing
        rw [w1]
      · simp only
        rw [a3, List.range_succ, List.map_append, List.flatten_append]
        simp)
    (zeros (n * m * 32), []) ⟨by simp [zeros, hr], by simp, rfl⟩
  have hdata : st.1 = r := by
    have h1 : st.1.take (32 * (n * m)) = st.1 :=
      List.take_of_length_le (by rw [i1, hr]; omega)
    have h2 : r.take (32 * (n * m)) = r := List.take_of_length_le (by rw [hr]; omega)
    rw [← h1, i2, h2]
  unfold BRSignature.Recover signatureOf
  rw [hload, e1, e2]
  simp only
  rw [hf]
  simp only
  rw [hdata, xornoise_eq B msghash r (some r) priv indices
    (by intro d hd; simp only [Option.some.injEq] at hd; rw [← hd])]
  simp only
  have hpad : padTo r.length (some r) = r := by simp [padTo, zeros]
  rw [hpad, if_neg]
  rw [not_not, i3]
  unfold challenge0 openedAll
  rw [List.map_map]
  rfl

/-- Where the round trip of C2 does hold: on a valid signing input with at most eight slots
(`n*m ≤ 8`) whose keys all lie in the subgroup of order `L`, and a payload of at most `n*m*32`
bytes, `Recover` returns the zero-padded payload from every signature that `BRSign` returns. -/
theorem sign_recover_roundtrip_small (B : Lib) (msghash : List Byte)
    (data : Option (List Byte)) (pub : List (List B.Pt)) (priv : List (List Byte))
    (indices : List Byte) (n m : Nat) (hv : ValidInput B pub priv indices n m)
    (hd : ∀ d, data = some d → d.length ≤ n * m * 32)
    (hsub : ∀ ring ∈ pub, ∀ P ∈ ring, L • P = 0) (hslots : n * m ≤ 8)
    (sig : List Byte) (hs : BRSign B msghash data pub priv indices = .ok sig) :
    BRSignature.Recover B sig msghash pub priv indices =
      .ok (some (padTo (n * m * 32) data)) := by
  rcases BRSign_cases B msghash data pub priv indices n m hv hd with ⟨h1, -⟩ | ⟨h1, h2⟩
  · rw [h1] at hs
    cases hs
  · rw [h1] at hs
    simp only [Except.ok.injEq] at hs
    rw [← hs, Recover_signatureOf B msghash _ pub priv indices n m hv hsub hslots
      (randomness_length B msghash data priv indices n m hd) h2]
    unfold randomness
    rw [xorStream_xorStream]

theorem toy6_valid : ValidInput toyLib toyPub6 toyPriv toyIndices 2 3 where
  rings := rfl
  n_pos := by decide
  n_le := by decide
  slots := by
    intro ring hr
    simp only [toyPub6, List.mem_cons, List.mem_singleton, List.not_mem_nil, or_false] at hr
    rcases hr with h | h <;> rw [h] <;> rfl
  m_pos := by decide
  m_le := by decide
  real := by
    intro t ht
    match t, ht with
    | 0, _ =>
      exact ⟨[toyDecoy 0 0, Scalar.MulBase toyLib (HashToScalar toyLib [1]), toyDecoy 0 2],
        HashToScalar toyLib [1], 1, rfl, rfl, rfl, by decide, rfl⟩
    | 1, _ =>
      exact ⟨[toyDecoy 1 0, toyDecoy 1 1, Scalar.MulBase toyLib (HashToScalar toyLib [2])],
        HashToScalar toyLib [2], 2, rfl, rfl, rfl, by decide, rfl⟩

/-- A multiple of the base point lies in the subgroup of order `L`. -/
theorem MulBase_subgroup (B : Lib) (a : List Byte) : L • Scalar.MulBase B a = 0 := by
  unfold Scalar.MulBase
  rw [smul_comm, B.order_G, smul_zero]

theorem toy6_subgroup : ∀ ring ∈ toyPub6, ∀ P ∈ ring, L • P = 0 := by
  intro ring hr
  simp only [toyPub6, List.mem_cons, List.mem_singleton, List.not_mem_nil, or_false] at hr
  rcases hr with h | h <;> subst h <;> intro P hP <;>
    simp only [List.mem_cons, List.mem_singleton, List.not_mem_nil, or_false] at hP <;>
    rcases hP with h | h | h <;> subst h <;> exact MulBase_subgroup toyLib _

set_option maxRecDepth 100000 in
theorem toy6_sign_no_range_fault :
    BRSign toyLib (BRPack toyLib toyMsg toyPub6).1 (some toyPayload) toyPub6 toyPriv
      toyIndices ≠ .error .rangeCheck := by decide!

/-- The round trip on the third sample input: `BRSign` returns a signature and `Recover`
returns the padded payload from it. -/
theorem sign_recover_roundtrip_small_witness :
    ∃ sig, BRSign toyLib (BRPack toyLib toyMsg toyPub6).1 (some toyPayload) toyPub6 toyPriv
        toyIndices = .ok sig ∧
      BRSignature.Recover toyLib sig (BRPack toyLib toyMsg toyPub6).1 toyPub6 toyPriv
        toyIndices = .ok (some (padTo (2 * 3 * 32) (some toyPayload))) := by
  rcases BRSign_cases toyLib (BRPack toyLib toyMsg toyPub6).1 (some toyPayload) toyPub6
    toyPriv toyIndices 2 3 toy6_valid toy_payload_fits with ⟨h1, -⟩ | ⟨h1, -⟩
  · exact absurd h1 toy6_sign_no_range_fault
  · exact ⟨_, h1, sign_recover_roundtrip_small toyLib _ (some toyPayload) toyPub6 toyPriv
      toyIndices 2 3 toy6_valid toy_payload_fits toy6_subgroup (by decide) _ h1⟩

set_option maxRecDepth 100000 in
/-- The evaluation of the first sample input, whose decoys are points outside the subgroup of
the base point: `BRSign` returns a signature that `Verify` accepts, and `Recover` returns nil
from it. -/
theorem toy_recover_rejects :
    signThenVerify toyLib (BRPack toyLib toyMsg toyPub).1 (some toyPayload) toyPub toyPriv
        toyIndices = .ok true ∧
      signThenRecover toyLib (BRPack toyLib toyMsg toyPub).1 (some toyPayload) toyPub toyPriv
        toyIndices = .ok none := by
  decide!

/-! ## The key stream -/

theorem byte_xor_cancel (a b k : Byte) : (a ^^^ k) ^^^ (b ^^^ k) = a ^^^ b := by
  apply Fin.ext
  show ((a.val ^^^ k.val) % 256 ^^^ (b.val ^^^ k.val) % 256) % 256 = (a.val ^^^ b.val) % 256
  have h1 : a.val ^^^ k.val < 256 := Nat.xor_lt_two_pow (n := 8) a.isLt k.isLt
  have h2 : b.val ^^^ k.val < 256 := Nat.xor_lt_two_pow (n := 8) b.isLt k.isLt
  rw [Nat.mod_eq_of_lt h1, Nat.mod_eq_of_lt h2]
  congr 1
  rw [Nat.xor_assoc, ← Nat.xor_assoc k.val, Nat.xor_comm k.val b.val, Nat.xor_assoc b.val,
    Nat.xor_self, Nat.xor_zero]

theorem xorStream_xor (B : Lib) (msg : List Byte) (priv : List (List Byte))
    (indices d1 d2 : List Byte) (h : d1.length = d2.length) :
    List.zipWith (fun a b => a ^^^ b) (xorStream B msg priv indices d1)
        (xorStream B msg priv indices d2) =
      List.zipWith (fun a b => a ^^^ b) d1 d2 := by
  apply List.ext_getElem?
  intro i
  unfold xorStream
  simp only [List.getElem?_zipWith, List.getElem?_map]
  by_cases hi : i < d1.length
  · rw [List.getElem?_range hi, List.getElem?_range (by omega), List.getElem?_eq_getElem hi,
      List.getElem?_eq_getElem (show i < d2.length by omega)]
    simp only [Option.map_some']
    rw [byte_xor_cancel]
  · rw [List.getElem?_eq_none (l := d1) (by omega)]

/-- C13: `xornoise` applied to a payload of at most `N` bytes gives an array of `N` bytes, and
`xornoise` applied in place to that array, with the same digest, keys and indices, gives the
payload zero-padded to `N` bytes; a nil payload gives the same array as `N` zero bytes. -/
theorem xornoise_self_inverse (B : Lib) (msg rbuf : List Byte) (data : Option (List Byte))
    (priv : List (List Byte)) (indices : List Byte)
    (hd : ∀ d, data = some d → d.length ≤ rbuf.length) :
    ∃ r1, xornoise B msg rbuf data priv indices = .ok r1 ∧ r1.length = rbuf.length ∧
      xornoise B msg r1 (some r1) priv indices = .ok (padTo rbuf.length data) ∧
      xornoise B msg rbuf none priv indices =
        xornoise B msg rbuf (some (zeros rbuf.length)) priv indices := by
  have hl : (xorStream B msg priv indices (padTo rbuf.length data)).length = rbuf.length := by
    rw [xorStream_length, padTo_length _ _ hd]
  refine ⟨_, xornoise_eq B msg rbuf data priv indices hd, hl, ?_, ?_⟩
  · rw [xornoise_eq B msg _ (some _) priv indices
      (by intro d h; simp only [Option.some.injEq] at h; rw [← h])]
    have hpad : ∀ x : List Byte, padTo x.length (some x) = x := by
      intro x; simp [padTo, zeros]
    rw [hpad, xorStream_xorStream]
  · rw [xornoise_eq B msg rbuf none priv indices (by intro d h; cases h),
      xornoise_eq B msg rbuf (some (zeros rbuf.length)) priv indices
        (by intro d h; simp only [Option.some.injEq] at h; rw [← h]; simp [zeros])]
    simp [padTo, zeros]

/-- C13 on the payload of the sample input and a buffer of 64 bytes. -/
theorem xornoise_self_inverse_witness :
    ∃ r1, xornoise toyLib toyMsg (zeros 64) (some toyPayload) toyPriv toyIndices = .ok r1 ∧
      r1.length = 64 ∧
      xornoise toyLib toyMsg r1 (some r1) toyPriv toyIndices =
        .ok (padTo 64 (some toyPayload)) := by
  obtain ⟨r1, h1, h2, h3, -⟩ := xornoise_self_inverse toyLib toyMsg (zeros 64)
    (some toyPayload) toyPriv toyIndices
    (by intro d h; simp only [Option.some.injEq] at h; rw [← h]; decide)
  exact ⟨r1, h1, h2, h3⟩

/-- C19: for two payloads of at most `N` bytes and the same digest, keys and indices, the two
arrays that `xornoise` returns are the padded payloads XORed with one and the same key stream,
a function of the digest, the keys and the indices only; so the XOR of the two arrays is the
XOR of the two padded payloads. -/
theorem keystream_payload_independent (B : Lib) (msg rbuf1 rbuf2 : List Byte)
    (p1 p2 : Option (List Byte)) (priv : List (List Byte)) (indices : List Byte) (N : Nat)
    (hb1 : rbuf1.length = N) (hb2 : rbuf2.length = N)
    (h1 : ∀ d, p1 = some d → d.length ≤ N) (h2 : ∀ d, p2 = some d → d.length ≤ N) :
    ∃ r1 r2, xornoise B msg rbuf1 p1 priv indices = .ok r1 ∧
      xornoise B msg rbuf2 p2 priv indices = .ok r2 ∧
      r1 = List.zipWith (fun a b => a ^^^ b) (padTo N p1)
        ((List.range N).map (keystream B msg priv indices)) ∧
      r2 = List.zipWith (fun a b => a ^^^ b) (padTo N p2)
        ((List.range N).map (keystream B msg priv indices)) ∧
      List.zipWith (fun a b => a ^^^ b) r1 r2 =
        List.zipWith (fun a b => a ^^^ b) (padTo N p1) (padTo N p2) := by
  subst hb1
  have hl1 := padTo_length rbuf1.length p1 h1
  have hl2 := padTo_length rbuf1.length p2 h2
  refine ⟨xorStream B msg priv indices (padTo rbuf1.length p1),
    xorStream B msg priv indices (padTo rbuf1.length p2),
    xornoise_eq B msg rbuf1 p1 priv indices h1, ?_, ?_, ?_, ?_⟩
  · rw [xornoise_eq B msg rbuf2 p2 priv indices (by rw [hb2]; exact h2), hb2]
  · unfold xorStream; rw [hl1]
  · unfold xorStream; rw [hl2]
  · exact xorStream_xor B msg priv indices _ _ (by rw [hl1, hl2])

/-- C19 on the payload of the sample input and the nil payload, with buffers of 64 bytes. -/
theorem keystream_payload_independent_witness :
    ∃ r1 r2, xornoise toyLib toyMsg (zeros 64) (some toyPayload) toyPriv toyIndices = .ok r1 ∧
      xornoise toyLib toyMsg (zeros 64) none toyPriv toyIndices = .ok r2 ∧
      List.zipWith (fun a b => a ^^^ b) r1 r2 =
        List.zipWith (fun a b => a ^^^ b) (padTo 64 (some toyPayload)) (padTo 64 none) := by
  obtain ⟨r1, r2, h1, h2, -, -, h5⟩ := keystream_payload_independent toyLib toyMsg (zeros 64)
    (zeros 64) (some toyPayload) none toyPriv toyIndices 64 (by simp [zeros]) (by simp [zeros])
    (by intro d h; simp only [Option.some.injEq] at h; rw [← h]; decide)
    (by intro d h; cases h)
  exact ⟨r1, r2, h1, h2, h5⟩

/-- C12 fails on the code: the counter that `xornoise` passes to the stream cipher is bytes
0-15 of the SHA-384 digest, the first half of the key, and not bytes 32-47, which are not
used: `copy(counter[:], hdata[:32])` copies from the start of `hdata`. -/
theorem xornoise_key_and_counter (B : Lib) (msg r d : List Byte)
    (priv : List (List Byte)) (indices : List Byte) :
    xornoise B msg r (some d) priv indices =
      XORKeyStream B r (if d.length < r.length then d ++ zeros (r.length - d.length) else d)
        ((B.sha384 (msg ++ priv.flatten ++ indices)).take 16)
        ((B.sha384 (msg ++ priv.flatten ++ indices)).take 32) ∧
      xornoise B msg r none priv indices =
        XORKeyStream B r (zeros r.length)
          ((B.sha384 (msg ++ priv.flatten ++ indices)).take 16)
          ((B.sha384 (msg ++ priv.flatten ++ indices)).take 32) ∧
      (B.sha384 (msg ++ priv.flatten ++ indices)).take 16 =
        ((B.sha384 (msg ++ priv.flatten ++ indices)).take 32).take 16 := by
  have hlen := B.sha384_length (msg ++ priv.flatten ++ indices)
  have hkey : copy32 (B.sha384 (msg ++ priv.flatten ++ indices)) =
      (B.sha384 (msg ++ priv.flatten ++ indices)).take 32 := copy32_of_le _ (by omega)
  have htt : ((B.sha384 (msg ++ priv.flatten ++ indices)).take 32).take 16 =
      (B.sha384 (msg ++ priv.flatten ++ indices)).take 16 := by
    rw [List.take_take]
    rfl
  have hctr : copyInto (zeros 16) ((B.sha384 (msg ++ priv.flatten ++ indices)).take 32) =
      (B.sha384 (msg ++ priv.flatten ++ indices)).take 16 := by
    unfold copyInto
    have h0 : (zeros 16).length = 16 := by simp [zeros]
    rw [List.drop_of_length_le (by rw [h0, List.length_take, hlen]; omega), List.append_nil,
      h0, htt]
  refine ⟨?_, ?_, htt.symm⟩
  · unfold xornoise
    simp only [hkey, hctr]
  · unfold xornoise
    simp only [hkey, hctr]

set_option maxRecDepth 100000 in
/-- The evaluation of C12 on the sample input: the counter of the code, bytes 0-15 of the
digest, is not bytes 32-47, and the array that `xornoise` returns is not the one that the
split of the specification gives. -/
theorem xornoise_split_differs :
    (toyLib.sha384 (toyMsg ++ toyPriv.flatten ++ toyIndices)).take 16 ≠
        (toyLib.sha384 (toyMsg ++ toyPriv.flatten ++ toyIndices)).drop 32 ∧
      xornoise toyLib toyMsg (zeros 64) (some toyPayload) toyPriv toyIndices ≠
        xornoiseSplit toyLib toyMsg (zeros 64) (some toyPayload) toyPriv toyIndices := by
  decide!

/-! ## The preimage of the digest -/

theorem preimage_ring_fold (B : Lib) (ring : List B.Pt) (acc : List Byte) :
    ring.foldl (fun acc v => acc ++ Point.Marshal B v) acc =
      acc ++ (ring.map B.encode).flatten := by
  induction ring generalizing acc with
  | nil => simp
  | cons P ps ih =>
    rw [List.foldl_cons, ih]
    simp only [List.map_cons, List.flatten_cons, List.append_assoc]
    rfl

theorem preimage_fold (B : Lib) (pub : List (List B.Pt)) (acc : List Byte) :
    pub.foldl (fun acc ring => ring.foldl (fun acc v => acc ++ Point.Marshal B v) acc) acc =
      acc ++ (pub.flatten.map B.encode).flatten := by
  induction pub generalizing acc with
  | nil => simp
  | cons ring rest ih =>
    rw [List.foldl_cons, preimage_ring_fold, ih]
    simp only [List.flatten_cons, List.map_append, List.flatten_append, List.append_assoc]

theorem BRPackPreimage_eq (B : Lib) (msg : List Byte) (pub : List (List B.Pt)) :
    BRPackPreimage B msg pub = (pub.flatten.map B.encode).flatten ++ msg := by
  unfold BRPackPreimage
  rw [preimage_fold, List.nil_append]

/-- The digest of `BRPack` is SHA-512/256 of `BRPackPreimage`. -/
theorem BRPack_digest (B : Lib) (msg : List Byte) (pub : List (List B.Pt)) :
    (BRPack B msg pub).1 = B.sha512_256 (BRPackPreimage B msg pub) := by
  rw [BRPack_eq, BRPackPreimage_eq]

theorem flatten_inj_of_lengths {α : Type} (xs ys : List (List α))
    (hl : xs.map List.length = ys.map List.length) (hf : xs.flatten = ys.flatten) :
    xs = ys := by
  induction xs generalizing ys with
  | nil =>
    cases ys with
    | nil => rfl
    | cons y ys => simp at hl
  | cons x xs ih =>
    cases ys with
    | nil => simp at hl
    | cons y ys =>
      simp only [List.map_cons, List.cons.injEq] at hl
      simp only [List.flatten_cons] at hf
      obtain ⟨h1, h2⟩ := List.append_inj hf hl.1
      rw [h1, ih ys hl.2 h2]

theorem encodings_lengths (B : Lib) (ps : List B.Pt) :
    (ps.map B.encode).map List.length = List.replicate ps.length 32 := by
  induction ps with
  | nil => rfl
  | cons P ps ih =>
    simp only [List.map_cons, B.encode_length, ih, List.length_cons, List.replicate_succ]

/-- C18 as stated fails: one ring of two points and two rings of one point each give the same
bytes to the hash, and so do the matrix of one point with a message that starts with the
encoding of a second point and the matrix of both points with the rest of the message. -/
theorem preimage_binding_counterexample :
    ([[toyLib.G, 0]] : List (List toyLib.Pt)) ≠ [[toyLib.G], [0]] ∧
      BRPackPreimage toyLib toyMsg [[toyLib.G, 0]] =
        BRPackPreimage toyLib toyMsg [[toyLib.G], [0]] ∧
      toyLib.encode 0 ++ toyMsg ≠ toyMsg ∧
      ([[toyLib.G]] : List (List toyLib.Pt)) ≠ [[toyLib.G, 0]] ∧
      BRPackPreimage toyLib (toyLib.encode 0 ++ toyMsg) [[toyLib.G]] =
        BRPackPreimage toyLib toyMsg [[toyLib.G, 0]] ∧
      (BRPack toyLib (toyLib.encode 0 ++ toyMsg) [[toyLib.G]]).1 =
        (BRPack toyLib toyMsg [[toyLib.G, 0]]).1 := by
  refine ⟨by simp, ?_, ?_, by simp, ?_, ?_⟩
  · simp [BRPackPreimage_eq]
  · intro h
    have := congrArg List.length h
    simp [toyLib.encode_length, toyMsg] at this
  · simp [BRPackPreimage_eq]
  · simp [BRPack_digest, BRPackPreimage_eq]

/-- C18, amended: for two matrices of the same shape, the bytes that `BRPack` feeds to its
hash are equal only if the messages are equal and every point has the same encoding in both
matrices; so with the shape fixed, two different pairs of message and key set share a digest
only through a collision of the hash. -/
theorem preimage_binding_amended (B : Lib) (msg msg1 : List Byte)
    (pub pub1 : List (List B.Pt))
    (hshape : pub.map List.length = pub1.map List.length)
    (heq : BRPackPreimage B msg pub = BRPackPreimage B msg1 pub1) :
    msg = msg1 ∧
      pub.map (fun ring => ring.map (Point.Encode B)) =
        pub1.map (fun ring => ring.map (Point.Encode B)) := by
  rw [BRPackPreimage_eq, BRPackPreimage_eq] at heq
  have hcount : pub.flatten.length = pub1.flatten.length := by
    rw [List.length_flatten, List.length_flatten, hshape]
  have hlen : ((pub.flatten.map B.encode).flatten).length =
      ((pub1.flatten.map B.encode).flatten).length := by
    rw [encodings_length, encodings_length, hcount]
  obtain ⟨h1, h2⟩ := List.append_inj heq hlen
  refine ⟨h2, ?_⟩
  have hchunks : pub.flatten.map B.encode = pub1.flatten.map B.encode :=
    flatten_inj_of_lengths _ _ (by rw [encodings_lengths, encodings_lengths, hcount]) h1
  apply flatten_inj_of_lengths
  · simp only [List.map_map]
    have : (List.length ∘ fun ring : List B.Pt => ring.map (Point.Encode B)) = List.length := by
      funext ring; simp
    rw [this, hshape]
  · have e : ∀ p : List (List B.Pt),
        (p.map (fun ring => ring.map (Point.Encode B))).flatten = p.flatten.map B.encode := by
      intro p
      induction p with
      | nil => rfl
      | cons r rs ih =>
        simp only [List.map_cons, List.flatten_cons, List.map_append, ih]
        rfl
    rw [e, e, hchunks]

/-- C18, amended, on two equal one-key matrices. -/
theorem preimage_binding_amended_witness :
    toyMsg = toyMsg ∧
      ([[toyLib.G]] : List (List toyLib.Pt)).map (fun ring => ring.map (Point.Encode toyLib)) =
        ([[toyLib.G]] : List (List toyLib.Pt)).map
          (fun ring => ring.map (Point.Encode toyLib)) :=
  preimage_binding_amended toyLib toyMsg toyMsg [[toyLib.G]] [[toyLib.G]] rfl rfl

/-! ## The scenario of `Test1x1BRS` -/

theorem test_valid (B : Lib) : ValidInput B (testPub B) (testPriv B) testIndices 1 1 where
  rings := rfl
  n_pos := le_refl 1
  n_le := by omega
  slots := by
    intro ring hr
    simp only [testPub, List.mem_singleton] at hr
    rw [hr]; rfl
  m_pos := le_refl 1
  m_le := by omega
  real := by
    intro t ht
    obtain rfl : t = 0 := by omega
    exact ⟨[Scalar.MulBase B (HashToScalar B [49, 50, 51])], HashToScalar B [49, 50, 51], 0,
      rfl, rfl, rfl, by decide, rfl⟩

theorem test_payload_fits : ∀ d, some testPayload = some d → d.length ≤ 1 * 1 * 32 := by
  intro d hd
  simp only [Option.some.injEq] at hd
  subst hd
  decide

theorem signatureOf_length (B : Lib) (msghash r : List Byte) (pub : List (List B.Pt))
    (priv : List (List Byte)) (indices : List Byte) (n m : Nat) :
    (signatureOf B msghash r pub priv indices n m).length = 32 + n * m * 32 := by
  obtain ⟨s1, s2, s3⟩ := rowsOf_shape B msghash r pub priv indices n m
  unfold signatureOf challenge0
  rw [List.length_append, reduce_length, grid_length n m _ s1 s2 s3]

set_option maxRecDepth 100000 in
/-- C14 as stated fails: the payload of the scenario has 32 bytes, not 33, and the buffer that
`Recover` returns, equal to the payload, has the 32 bytes of the one slot. -/
theorem test_scenario_counterexample :
    testPayload.length ≠ 33 ∧ testPayload.length = 32 ∧
      signThenRecover toyLib (BRPack toyLib testMsg (testPub toyLib)).1 (some testPayload)
        (testPub toyLib) (testPriv toyLib) testIndices = .ok (some testPayload) := by
  decide!

/-! ## The range check of `BRSign` -/

theorem byte31_toLE_f0 (v : Nat) (hv : v < L) :
    byte31 (toLE 32 v) &&& 0xf0 = 0 ↔ v < 2 ^ 252 := by
  rw [byte_and_f0_eq_zero_iff, byte31_toLE]
  have h2 : v / 256 ^ 31 < 256 := by
    apply Nat.div_lt_of_lt_mul
    exact lt_trans hv (by unfold L; norm_num)
  simp only [Fin.ofNat, Nat.mod_eq_of_lt h2]
  have h3 : (2 : Nat) ^ 252 = 256 ^ 31 * 16 := by norm_num
  rw [h3, Nat.div_lt_iff_lt_mul (by norm_num)]
  constructor <;> intro h <;> linarith

theorem realResponse_lt (B : Lib) (msghash r : List Byte) (ring : List B.Pt) (p : List Byte)
    (t m j : Nat) (e0 : List Byte) :
    leNat (realResponse B msghash r ring p t m j e0) < L := by
  unfold realResponse Scalar.MulAdd
  rw [leNat_ScMulAdd]
  exact Nat.mod_lt _ L_pos

theorem realResponse_check (B : Lib) (msghash r : List Byte) (ring : List B.Pt)
    (p : List Byte) (t m j : Nat) (e0 : List Byte) :
    byte31 (realResponse B msghash r ring p t m j e0) &&& 0xf0 = 0 ↔
      leNat (realResponse B msghash r ring p t m j e0) < 2 ^ 252 := by
  have h := realResponse_lt B msghash r ring p t m j e0
  have e : realResponse B msghash r ring p t m j e0 =
      toLE 32 (leNat (realResponse B msghash r ring p t m j e0)) := by
    have h1 := toLE_leNat (realResponse B msghash r ring p t m j e0)
    have h2 : (realResponse B msghash r ring p t m j e0).length = 32 := ScMulAdd_length _ _ _
    rw [h2] at h1
    exact h1.symm
  have h3 := byte31_toLE_f0 _ h
  rw [← e] at h3
  exact h3

set_option maxRecDepth 100000 in
/-- C11 as stated fails: on a valid input of one ring of one key, with a private key below `L`
and the public key of that private key, `BRSign` panics in its range check: the response
`priv*e + k` modulo `L` is `L - 1`, which is not below `2^252`. -/
theorem range_check_counterexample :
    leNat toyPrivRC < L ∧
      BRSign toyLib (zeros 32) (some toyPayloadRC) [[Scalar.MulBase toyLib toyPrivRC]]
        [toyPrivRC] [0] = .error .rangeCheck ∧
      leNat (realResponse toyLib (zeros 32)
        (randomness toyLib (zeros 32) (some toyPayloadRC) [toyPrivRC] [0] 1 1)
        [Scalar.MulBase toyLib toyPrivRC] toyPrivRC 0 1 0
        (challenge0 toyLib (zeros 32)
          (randomness toyLib (zeros 32) (some toyPayloadRC) [toyPrivRC] [0] 1 1)
          [[Scalar.MulBase toyLib toyPrivRC]] [0] 1 1)) = L - 1 ∧
      2 ^ 252 ≤ L - 1 := by
  decide!

/-- C11, amended: on a valid signing input the real-slot response `priv*e + k` modulo `L` of
every ring is below `L`; `BRSign` panics in its range check exactly when the response of some
ring is not below `2^252`, that is lies in `[2^252, L)`, and returns a signature otherwise; no
other panic occurs. -/
theorem range_check_amended (B : Lib) (msghash : List Byte) (data : Option (List Byte))
    (pub : List (List B.Pt)) (priv : List (List Byte)) (indices : List Byte) (n m : Nat)
    (hv : ValidInput B pub priv indices n m)
    (hd : ∀ d, data = some d → d.length ≤ n * m * 32) :
    (∀ t, t < n →
        leNat (realResponse B msghash (randomness B msghash data priv indices n m)
          (pub.getD t []) (priv.getD t []) t m (indices.getD t 0).val
          (challenge0 B msghash (randomness B msghash data priv indices n m) pub indices n m))
          < L) ∧
      (BRSign B msghash data pub priv indices = .error .rangeCheck ↔
        ∃ t, t < n ∧
          2 ^ 252 ≤ leNat (realResponse B msghash
            (randomness B msghash data priv indices n m) (pub.getD t []) (priv.getD t []) t m
            (indices.getD t 0).val
            (challenge0 B msghash (randomness B msghash data priv indices n m) pub indices
              n m))) ∧
      ((∃ sig, BRSign B msghash data pub priv indices = .ok sig) ↔
        ∀ t, t < n →
          leNat (realResponse B msghash
            (randomness B msghash data priv indices n m) (pub.getD t []) (priv.getD t []) t m
            (indices.getD t 0).val
            (challenge0 B msghash (randomness B msghash data priv indices n m) pub indices
              n m)) < 2 ^ 252) ∧
      BRSign B msghash data pub priv indices ≠ .error .runtime := by
  have hiff : rangeOk B msghash (randomness B msghash data priv indices n m) pub priv indices
      n m ↔ ∀ t, t < n →
        leNat (realResponse B msghash
          (randomness B msghash data priv indices n m) (pub.getD t []) (priv.getD t []) t m
          (indices.getD t 0).val
          (challenge0 B msghash (randomness B msghash data priv indices n m) pub indices
            n m)) < 2 ^ 252 := by
    unfold rangeOk
    constructor
    · intro h t ht
      exact (realResponse_check _ _ _ _ _ _ _ _ _).1 (h t ht)
    · intro h t ht
      exact (realResponse_check _ _ _ _ _ _ _ _ _).2 (h t ht)
  refine ⟨fun t _ => realResponse_lt _ _ _ _ _ _ _ _ _, ?_, ?_, ?_⟩
  · rcases BRSign_cases B msghash data pub priv indices n m hv hd with ⟨h1, h2⟩ | ⟨h1, h2⟩
    · rw [hiff] at h2
      push_neg at h2
      exact ⟨fun _ => h2, fun _ => h1⟩
    · rw [hiff] at h2
      constructor
      · intro h
        rw [h1] at h
        cases h
      · rintro ⟨t, ht, hge⟩
        exact absurd (h2 t ht) (by omega)
  · rcases BRSign_cases B msghash data pub priv indices n m hv hd with ⟨h1, h2⟩ | ⟨h1, h2⟩
    · rw [hiff] at h2
      constructor
      · rintro ⟨sig, hs⟩
        rw [h1] at hs
        cases hs
      · intro h
        exact absurd h h2
    · rw [hiff] at h2
      exact ⟨fun _ => h2, fun _ => ⟨_, h1⟩⟩
  · rcases BRSign_cases B msghash data pub priv indices n m hv hd with ⟨h1, -⟩ | ⟨h1, -⟩
    · rw [h1]; intro h; cases h
    · rw [h1]; intro h; cases h

/-- C11, amended, on the sample input: `BRSign` does not panic. -/
theorem range_check_amended_witness :
    BRSign toyLib (BRPack toyLib toyMsg toyPub).1 (some toyPayload) toyPub toyPriv toyIndices
      ≠ .error .runtime :=
  (range_check_amended toyLib (BRPack toyLib toyMsg toyPub).1 (some toyPayload) toyPub toyPriv
    toyIndices 2 3 toy_valid toy_payload_fits).2.2.2

/-! ## The chunks of randomness of the slots -/

theorem slotOff_mod8 (t m i : Nat) : slotOff t m i = 32 * ((t * m + i) % 8) := by
  unfold slotOff
  generalize t * m = q
  omega

theorem chunk_eq_take (r : List Byte) (t m i n : Nat) (ht : t < n) (hi : i < m)
    (hr : r.length = n * m * 32) :
    chunk r t m i = (r.drop (32 * ((t * m + i) % 8))).take 32 := by
  unfold chunk
  rw [slotOff_mod8]
  apply copy32_of_le
  rw [List.length_drop, hr]
  have h2 : (t + 1) * m ≤ n * m := Nat.mul_le_mul_right m ht
  have h3 : (t + 1) * m = t * m + m := by ring
  have h4 : (t * m + i) % 8 ≤ t * m + i := Nat.mod_le _ _
  omega

/-- The response element of slot `i` of ring `t` in the signature `signatureOf`. -/
theorem signatureOf_slot (B : Lib) (msghash r : List Byte) (pub : List (List B.Pt))
    (priv : List (List Byte)) (indices : List Byte) (n m t i : Nat) (ht : t < n)
    (hi : i < m) :
    ((signatureOf B msghash r pub priv indices n m).drop (32 + (t * m + i) * 32)).take 32 =
      (rowOf B msghash r (pub.getD t []) (priv.getD t []) t m (indices.getD t 0).val
        (challenge0 B msghash r pub indices n m)).getD i [] := by
  obtain ⟨s1, s2, s3⟩ := rowsOf_shape B msghash r pub priv indices n m
  have he : (challenge0 B msghash r pub indices n m).length = 32 := reduce_length _
  have hflat : ∀ x ∈ (rowsOf B msghash r pub priv indices n m).flatten, x.length = 32 := by
    intro x hx
    rw [List.mem_flatten] at hx
    obtain ⟨row, hrow, hxr⟩ := hx
    exact s3 row hrow x hxr
  have hdrop : ∀ (a b : List Byte) (k : Nat), a.length = 32 →
      (a ++ b).drop (32 + k) = b.drop k := by
    intro a b k ha
    have h0 : (a ++ b).drop 32 = b := by
      rw [List.drop_append_of_le_length (by omega), List.drop_of_length_le (by omega),
        List.nil_append]
    rw [← List.drop_drop, h0]
  have hlen : (rowsOf B msghash r pub priv indices n m).flatten.length = n * m := by
    rw [length_flatten_uniform _ m s2, s1]
  have hlt : t * m + i < n * m := by
    have h2 : (t + 1) * m ≤ n * m := Nat.mul_le_mul_right m ht
    have h3 : (t + 1) * m = t * m + m := by ring
    omega
  unfold signatureOf
  rw [hdrop _ _ _ he, flatten_drop_take _ 32 hflat (t * m + i) (by rw [hlen]; exact hlt),
    flatten_getD _ m s2 t i hi []]
  congr 1
  rw [List.getD_eq_getElem?_getD, rowsOf_getElem? B msghash r pub priv indices n m t ht]
  rfl

/-- C15 fails on the code: the chunk of randomness of slot `i` of ring `t` is read at offset
`32*((t*m+i) mod 8)`, because `(t*m+i)*32` is computed in a byte, and not at offset
`32*(t*m+i)`; so two decoy slots whose numbers `t*m+i` are equal modulo 8 are given the same
chunk and the signature carries the same 32 bytes for both. -/
theorem slots_share_chunks (B : Lib) (msghash : List Byte) (data : Option (List Byte))
    (pub : List (List B.Pt)) (priv : List (List Byte)) (indices : List Byte) (n m : Nat)
    (hv : ValidInput B pub priv indices n m)
    (hd : ∀ d, data = some d → d.length ≤ n * m * 32)
    (sig : List Byte) (hs : BRSign B msghash data pub priv indices = .ok sig)
    (t i t1 i1 : Nat) (ht : t < n) (hi : i < m) (ht1 : t1 < n) (hi1 : i1 < m)
    (hdec : i ≠ (indices.getD t 0).val) (hdec1 : i1 ≠ (indices.getD t1 0).val)
    (hcong : (t * m + i) % 8 = (t1 * m + i1) % 8) :
    (sig.drop (32 + (t * m + i) * 32)).take 32 =
        ((randomness B msghash data priv indices n m).drop
          (32 * ((t * m + i) % 8))).take 32 ∧
      (sig.drop (32 + (t * m + i) * 32)).take 32 =
        (sig.drop (32 + (t1 * m + i1) * 32)).take 32 := by
  rcases BRSign_cases B msghash data pub priv indices n m hv hd with ⟨h1, -⟩ | ⟨h1, -⟩
  · rw [h1] at hs
    cases hs
  · rw [h1] at hs
    simp only [Except.ok.injEq] at hs
    subst hs
    have hr := randomness_length B msghash data priv indices n m hd
    have ha : ((signatureOf B msghash (randomness B msghash data priv indices n m) pub priv
        indices n m).drop (32 + (t * m + i) * 32)).take 32 =
        ((randomness B msghash data priv indices n m).drop
          (32 * ((t * m + i) % 8))).take 32 := by
      rw [signatureOf_slot B msghash _ pub priv indices n m t i ht hi,
        rowOf_getD _ _ _ _ _ _ _ _ _ _ hi, if_neg hdec, chunk_eq_take _ t m i n ht hi hr]
    have hb : ((signatureOf B msghash (randomness B msghash data priv indices n m) pub priv
        indices n m).drop (32 + (t1 * m + i1) * 32)).take 32 =
        ((randomness B msghash data priv indices n m).drop
          (32 * ((t1 * m + i1) % 8))).take 32 := by
      rw [signatureOf_slot B msghash _ pub priv indices n m t1 i1 ht1 hi1,
        rowOf_getD _ _ _ _ _ _ _ _ _ _ hi1, if_neg hdec1, chunk_eq_take _ t1 m i1 n ht1 hi1 hr]
    refine ⟨ha, ?_⟩
    rw [ha, hb, hcong]

/-- C15 on the second sample input, three rings of three keys: the decoy slot 2 of ring 2,
the ninth slot, carries the same 32 bytes as the decoy slot 0 of ring 0. -/
theorem slots_share_chunks_witness :
    ∃ sig, BRSign toyLib (BRPack toyLib toyMsg toyPub9).1 (some toyPayload9) toyPub9 toyPriv9
        toyIndices9 = .ok sig ∧
      (sig.drop (32 + (2 * 3 + 2) * 32)).take 32 = (sig.drop (32 + (0 * 3 + 0) * 32)).take 32 := by
  rcases BRSign_cases toyLib (BRPack toyLib toyMsg toyPub9).1 (some toyPayload9) toyPub9
    toyPriv9 toyIndices9 3 3 toy9_valid toy9_payload_fits with ⟨h1, -⟩ | ⟨h1, -⟩
  · exact absurd h1 toy9_sign_no_range_fault
  · exact ⟨_, h1, (slots_share_chunks toyLib _ (some toyPayload9) toyPub9 toyPriv9 toyIndices9
      3 3 toy9_valid toy9_payload_fits _ h1 2 2 0 0 (by decide) (by decide) (by decide)
      (by decide) (by decide) (by decide) (by decide)).2⟩

/-- The nonce of a ring is published when its real slot shares its chunk with a decoy slot:
the scalar part of the response of the decoy slot in the signature is the nonce `k[t]`. -/
theorem nonce_published (B : Lib) (msghash : List Byte) (data : Option (List Byte))
    (pub : List (List B.Pt)) (priv : List (List Byte)) (indices : List Byte) (n m : Nat)
    (hv : ValidInput B pub priv indices n m)
    (hd : ∀ d, data = some d → d.length ≤ n * m * 32)
    (sig : List Byte) (hs : BRSign B msghash data pub priv indices = .ok sig)
    (t t1 i1 : Nat) (ht : t < n) (ht1 : t1 < n) (hi1 : i1 < m)
    (hdec1 : i1 ≠ (indices.getD t1 0).val)
    (hcong : (t * m + (indices.getD t 0).val) % 8 = (t1 * m + i1) % 8) :
    clamp ((sig.drop (32 + (t1 * m + i1) * 32)).take 32) =
      (openedOf B msghash (randomness B msghash data priv indices n m) (pub.getD t []) t m
        (indices.getD t 0).val).k := by
  rcases BRSign_cases B msghash data pub priv indices n m hv hd with ⟨h1, -⟩ | ⟨h1, -⟩
  · rw [h1] at hs
    cases hs
  · rw [h1] at hs
    simp only [Except.ok.injEq] at hs
    subst hs
    have hr := randomness_length B msghash data priv indices n m hd
    have hj := (valid_ring B pub priv indices n m hv t ht).2.2.2.1
    rw [signatureOf_slot B msghash _ pub priv indices n m t1 i1 ht1 hi1,
      rowOf_getD _ _ _ _ _ _ _ _ _ _ hi1, if_neg hdec1, chunk_eq_take _ t1 m i1 n ht1 hi1 hr,
      ← hcong, ← chunk_eq_take _ t m _ n ht hj hr]
    rfl

/-! ## What `Verify` checks -/

theorem loadRow_length (cnt : Nat) (p : List Byte) : (loadRow cnt p).1.length = cnt := by
  induction cnt generalizing p with
  | zero => rfl
  | succ cnt ih => simp [loadRow, ih]

theorem loadRows_shape (m cnt : Nat) (p : List Byte) :
    (loadRows m cnt p).length = cnt ∧ ∀ row ∈ loadRows m cnt p, row.length = m := by
  induction cnt generalizing p with
  | zero => exact ⟨rfl, by intro row hrow; simp [loadRows] at hrow⟩
  | succ cnt ih =>
    obtain ⟨h1, h2⟩ := ih (loadRow m p).2
    refine ⟨by simp [loadRows, h1], ?_⟩
    intro row hrow
    simp only [loadRows, List.mem_cons] at hrow
    rcases hrow with h | h
    · rw [h]; exact loadRow_length m p
    · exact h2 row h

theorem load_of_length {Pt : Type} (sig : List Byte) (pub : List (List Pt)) (n m : Nat)
    (hpub : pub.length = n) (hn1 : 1 ≤ n) (hpub0 : (pub.getD 0 []).length = m) (hm1 : 1 ≤ m)
    (hlen : sig.length = 32 + n * m * 32) :
    BRSignature.load sig pub =
      (n % 256, m % 256, sig.take 32, some (loadRows m n sig)) := by
  unfold BRSignature.load
  cases pub with
  | nil => simp at hpub; omega
  | cons pub0 rest =>
    simp only [List.getD_cons_zero] at hpub0
    simp only
    rw [if_neg (by omega), if_neg]
    · rw [hpub0, hpub, copy32_of_length _ (by rw [List.length_take]; omega)]
    · rw [not_not, hlen, hpub0, hpub]
      ring

theorem load_of_length_ne {Pt : Type} (sig : List Byte) (pub : List (List Pt)) (n m : Nat)
    (hpub : pub.length = n) (hpub0 : (pub.getD 0 []).length = m)
    (hlen : sig.length ≠ 32 + n * m * 32) :
    BRSignature.load sig pub = (0, 0, zeros 32, none) := by
  unfold BRSignature.load
  cases pub with
  | nil => rfl
  | cons pub0 rest =>
    simp only [List.getD_cons_zero] at hpub0
    simp only
    by_cases hm : pub0.length = 0
    · rw [if_pos hm]
    · rw [if_neg hm, if_pos]
      rw [hpub0, hpub]
      intro hc
      apply hlen
      rw [hc]
      ring

/-- The outer loop of `Verify` on a rectangular matrix and a grid of its shape: the closing
values of the rings `0 .. cnt-1`. -/
theorem verifyRings_eq (B : Lib) (msghash : List Byte) (pub : List (List B.Pt))
    (brss : List (List (List Byte))) (n m cnt : Nat) (e0 : List Byte)
    (hpub : pub.length = n) (hm : ∀ ring ∈ pub, ring.length = m)
    (hb : brss.length = n) (hbm : ∀ row ∈ brss, row.length = m) (hcnt : cnt ≤ n) :
    foldRun (verifyRing B msghash pub brss m e0) (List.range cnt) [] =
      .ok (((List.range cnt).map (fun t =>
        chain B msghash t m (pub.getD t []) (fun i => (brss.getD t []).getD i [])
          (List.range m) e0)).flatten) := by
  have h := foldRun_acc (verifyRing B msghash pub brss m e0)
    (fun t => chain B msghash t m (pub.getD t []) (fun i => (brss.getD t []).getD i [])
      (List.range m) e0) (List.range cnt) []
    (by
      intro t ht E
      rw [List.mem_range] at ht
      have h1 : pub[t]? = some (pub.getD t []) := by
        rw [List.getD_eq_getElem?_getD, List.getElem?_eq_getElem (by omega)]
        rfl
      have h2 : brss[t]? = some (brss.getD t []) := by
        rw [List.getD_eq_getElem?_getD, List.getElem?_eq_getElem (by omega)]
        rfl
      have h3 : (pub.getD t []).length = m := hm _ (List.getElem?_mem h1)
      have h4 : (brss.getD t []).length = m := hbm _ (List.getElem?_mem h2)
      unfold verifyRing
      rw [verifyWalk_eq B msghash pub brss t m _ _ _ _ h1 h2
        (fun i hi => by rw [List.mem_range] at hi; rw [h3, h4]; exact ⟨hi, hi⟩)])
  rw [List.nil_append] at h
  exact h

theorem ringAccumulator_eq (B : Lib) (msghash : List Byte) (pub : List (List B.Pt))
    (e0 : List Byte) (brss : List (List (List Byte))) (n m : Nat) (hpub : pub.length = n)
    (hn1 : 1 ≤ n) (hm : ∀ ring ∈ pub, ring.length = m) :
    ringAccumulator B msghash pub e0 brss =
      ((List.range n).map (fun t =>
        chain B msghash t m (pub.getD t []) (fun i => (brss.getD t []).getD i [])
          (List.range m) e0)).flatten := by
  unfold ringAccumulator
  have h0 : (pub.getD 0 []).length = m := by
    apply hm
    rw [List.getD_eq_getElem?_getD, List.getElem?_eq_getElem (by omega)]
    exact List.getElem_mem _
  rw [hpub, h0]
  congr 1
  apply List.map_congr_left
  intro t ht
  rw [List.mem_range] at ht
  have h3 : (pub.getD t []).length = m := by
    apply hm
    rw [List.getD_eq_getElem?_getD, List.getElem?_eq_getElem (by omega)]
    exact List.getElem_mem _
  rw [h3]

theorem chain_length (B : Lib) (msghash : List Byte) (t m : Nat) (ring : List B.Pt)
    (c : Nat → List Byte) (k : Nat) (e : List Byte) :
    (chain B msghash t m ring c (List.range (k + 1)) e).length = 32 := by
  rw [chain_range_succ]
  exact reduce_length _

theorem ringAccumulator_length (B : Lib) (msghash : List Byte) (pub : List (List B.Pt))
    (e0 : List Byte) (brss : List (List (List Byte))) (n m : Nat) (hpub : pub.length = n)
    (hn1 : 1 ≤ n) (hm : ∀ ring ∈ pub, ring.length = m) (hm1 : 1 ≤ m) :
    (ringAccumulator B msghash pub e0 brss).length = n * 32 := by
  rw [ringAccumulator_eq B msghash pub e0 brss n m hpub hn1 hm]
  obtain ⟨k, rfl⟩ : ∃ k, m = k + 1 := ⟨m - 1, by omega⟩
  have h := length_flatten_uniform ((List.range n).map (fun t =>
        chain B msghash t (k + 1) (pub.getD t []) (fun i => (brss.getD t []).getD i [])
          (List.range (k + 1)) e0)) 32 (by
    intro x hx
    rw [List.mem_map] at hx
    obtain ⟨t, -, rfl⟩ := hx
    exact chain_length _ _ _ _ _ _ _ _)
  rw [h, List.length_map, List.length_range]

set_option maxRecDepth 1000000 in
/-- C16 fails on the code for a matrix of 256 rings of one point: `load` returns the number of
rings as a byte, which is 0, so `Verify` walks no ring and compares `e0` with the reduced hash
of the empty accumulator.  The signature `toySig256` is accepted, and its `e0` is not the
reduced hash of the 256 closing values. -/
theorem verify_rings_counterexample :
    toyPub256.length = 256 ∧ (∀ ring ∈ toyPub256, ring.length = 1) ∧
      BRSignature.Verify toyLib toySig256 (zeros 32) toyPub256 = .ok true ∧
      toySig256.take 32 ≠ reduce (toyLib.sha512 (ringAccumulator toyLib (zeros 32) toyPub256
        (toySig256.take 32) (loadRows 1 256 toySig256))) := by
  refine ⟨by decide!, by decide!, by decide!, by decide!⟩

/-- C16 for at most 255 rings of at most 255 points: `Verify` returns, and it returns true
exactly when the signature has the length `32 + n*m*32` and its `e0` is the reduced hash of the
accumulator of the `n` closing values, one per ring, each walked over all `m` slots of the
ring from `e0`; the accumulator is `n*32` bytes long. -/
theorem verify_rings_amended (B : Lib) (sig msghash : List Byte) (pub : List (List B.Pt))
    (n m : Nat) (hpub : pub.length = n) (hm : ∀ ring ∈ pub, ring.length = m)
    (hn1 : 1 ≤ n) (hn : n ≤ 255) (hm1 : 1 ≤ m) (hm255 : m ≤ 255) :
    (BRSignature.Verify B sig msghash pub = .ok true ↔
        sig.length = 32 + n * m * 32 ∧
          sig.take 32 = reduce (B.sha512 (ringAccumulator B msghash pub (sig.take 32)
            (loadRows m n sig)))) ∧
      (∃ b, BRSignature.Verify B sig msghash pub = .ok b) ∧
      (ringAccumulator B msghash pub (sig.take 32) (loadRows m n sig)).length = n * 32 := by
  have h0 : (pub.getD 0 []).length = m := by
    apply hm
    rw [List.getD_eq_getElem?_getD, List.getElem?_eq_getElem (by omega)]
    exact List.getElem_mem _
  refine ⟨?_, ?_, ringAccumulator_length B msghash pub _ _ n m hpub hn1 hm hm1⟩
  · by_cases hlen : sig.length = 32 + n * m * 32
    · obtain ⟨hs1, hs2⟩ := loadRows_shape m n sig
      unfold BRSignature.Verify
      rw [load_of_length sig pub n m hpub hn1 h0 hm1 hlen]
      simp only
      rw [Nat.mod_eq_of_lt (by omega : n < 256), Nat.mod_eq_of_lt (by omega : m < 256),
        verifyRings_eq B msghash pub _ n m n _ hpub hm hs1 hs2 (le_refl _),
        ringAccumulator_eq B msghash pub _ _ n m hpub hn1 hm]
      simp only
      constructor
      · intro h
        refine ⟨hlen, ?_⟩
        by_contra hc
        rw [if_pos hc] at h
        cases h
      · intro h
        rw [if_neg (not_not.2 h.2)]
    · unfold BRSignature.Verify
      rw [load_of_length_ne sig pub n m hpub h0 hlen]
      simp only
      constructor
      · intro h; cases h
      · intro h; exact absurd h.1 hlen
  · by_cases hlen : sig.length = 32 + n * m * 32
    · obtain ⟨hs1, hs2⟩ := loadRows_shape m n sig
      unfold BRSignature.Verify
      rw [load_of_length sig pub n m hpub hn1 h0 hm1 hlen]
      simp only
      rw [Nat.mod_eq_of_lt (by omega : n < 256), Nat.mod_eq_of_lt (by omega : m < 256),
        verifyRings_eq B msghash pub _ n m n _ hpub hm hs1 hs2 (le_refl _)]
      simp only
      split
      · exact ⟨_, rfl⟩
      · exact ⟨_, rfl⟩
    · unfold BRSignature.Verify
      rw [load_of_length_ne sig pub n m hpub h0 hlen]
      exact ⟨_, rfl⟩

set_option maxRecDepth 100000 in
/-- The amended C16 on a matrix of one ring of one point and a signature of 64 zero bytes. -/
theorem verify_rings_amended_witness :
    ([[toyLib.G]] : List (List toyLib.Pt)).length = 1 ∧
      ((BRSignature.Verify toyLib (zeros 64) (zeros 32) [[toyLib.G]] = .ok true ↔
        (zeros 64).length = 32 + 1 * 1 * 32 ∧
          (zeros 64).take 32 = reduce (toyLib.sha512 (ringAccumulator toyLib (zeros 32)
            [[toyLib.G]] ((zeros 64).take 32) (loadRows 1 1 (zeros 64))))) ∧
      (∃ b, BRSignature.Verify toyLib (zeros 64) (zeros 32) [[toyLib.G]] = .ok b) ∧
      (ringAccumulator toyLib (zeros 32) [[toyLib.G]] ((zeros 64).take 32)
        (loadRows 1 1 (zeros 64))).length = 1 * 32) :=
  ⟨by decide, verify_rings_amended toyLib (zeros 64) (zeros 32) [[toyLib.G]] 1 1 (by decide)
    (by decide) (by decide) (by decide) (by decide) (by decide)⟩

/-! ## `Recover` against `Verify` -/

/-- The body of the inner loop of `Recover` on any response grid, at a point of the subgroup
of order `L`: it advances the challenge as `Verify` does and keeps the length of the buffer. -/
theorem recoverStep_link (B : Lib) (msghash : List Byte) (pub : List (List B.Pt))
    (priv : List (List Byte)) (indices : List Byte) (brss : List (List (List Byte)))
    (t m : Nat) (ring : List B.Pt) (row : List (List Byte)) (jb : Byte) (p : List Byte)
    (hring : pub[t]? = some ring) (hrow : brss[t]? = some row) (hj : indices[t]? = some jb)
    (hp : priv[t]? = some p) (i : Nat) (hi1 : i < ring.length) (hi2 : i < row.length)
    (hP : L • ring.getD i 0 = 0) (data e : List Byte) (hoff : slotOff t m i ≤ data.length) :
    ∃ data1, recoverStep B msghash pub priv indices brss t m (data, e) i =
        .ok (data1, link B msghash t m (ring.getD i 0) e (row.getD i []) i) ∧
      data1.length = data.length := by
  have hsi : row[i]? = some (row.getD i []) := by
    rw [List.getD_eq_getElem?_getD, List.getElem?_eq_getElem hi2]
    rfl
  have hPi : ring[i]? = some (ring.getD i 0) := by
    rw [List.getD_eq_getElem?_getD, List.getElem?_eq_getElem hi1]
    rfl
  have hw : ∀ src : List Byte, ∃ data1, writeAt data (slotOff t m i) src = .ok data1 ∧
      data1.length = data.length := by
    intro src
    refine ⟨_, by unfold writeAt; rw [if_pos hoff], ?_⟩
    rw [List.length_append, copyInto_length, List.length_take, List.length_drop]
    omega
  unfold recoverStep
  simp only [idx_of_getElem? _ _ _ hrow, idx_of_getElem? _ _ _ hsi, idx_of_getElem? _ _ _ hj,
    idx_of_getElem? _ _ _ hring, idx_of_getElem? _ _ _ hPi, idx_of_getElem? _ _ _ hp]
  rw [recover_point B _ hP]
  by_cases hij : i = jb.val
  · rw [if_pos hij]
    obtain ⟨data1, h1, h2⟩ := hw ((Scalar.MulAdd (Scalar.Negate e) p
      ((row.getD i []).set 31 (byte31 (row.getD i []) &&& 0x0f))).set 31
        (byte31 (Scalar.MulAdd (Scalar.Negate e) p
          ((row.getD i []).set 31 (byte31 (row.getD i []) &&& 0x0f))) |||
          byte31 (row.getD i []) &&& 0xf0))
    rw [h1]
    exact ⟨data1, rfl, h2⟩
  · rw [if_neg hij]
    obtain ⟨data1, h1, h2⟩ := hw (row.getD i [])
    rw [h1]
    exact ⟨data1, rfl, h2⟩

/-- The inner loop of `Recover` on ring `t` of any response grid, at points of the subgroup
of order `L`: it ends in the closing value of the chain that `Verify` walks. -/
theorem recoverWalk_chain (B : Lib) (msghash : List Byte) (pub : List (List B.Pt))
    (priv : List (List Byte)) (indices : List Byte) (brss : List (List (List Byte)))
    (t m n : Nat) (ring : List B.Pt) (row : List (List Byte)) (jb : Byte) (p e0 : List Byte)
    (hring : pub[t]? = some ring) (hrow : brss[t]? = some row) (hj : indices[t]? = some jb)
    (hp : priv[t]? = some p) (hlen : ring.length = m) (hrlen : row.length = m)
    (hsub : ∀ P ∈ ring, L • P = 0) (ht : t < n) (data : List Byte)
    (hd : data.length = n * m * 32) :
    ∃ data1, foldRun (recoverStep B msghash pub priv indices brss t m) (List.range m)
        (data, e0) = .ok (data1, chain B msghash t m ring (fun i => row.getD i [])
          (List.range m) e0) ∧
      data1.length = n * m * 32 := by
  obtain ⟨s1, h1, h2, h3⟩ := foldRun_range
    (recoverStep B msghash pub priv indices brss t m)
    (fun i s => s.1.length = n * m * 32 ∧
      s.2 = chain B msghash t m ring (fun i => row.getD i []) (List.range i) e0)
    m
    (fun i hi s hs => by
      obtain ⟨a1, a2⟩ := hs
      have hP : L • ring.getD i 0 = 0 := by
        apply hsub
        rw [List.getD_eq_getElem?_getD, List.getElem?_eq_getElem (by omega)]
        exact List.getElem_mem _
      have hoff := slotOff_bound t m i n ht hi
      obtain ⟨data1, w1, w2⟩ := recoverStep_link B msghash pub priv indices brss t m ring row
        jb p hring hrow hj hp i (by omega) (by omega) hP s.1 s.2 (by omega)
      refine ⟨_, w1, ?_, ?_⟩
      · show data1.length = n * m * 32
        rw [w2, a1]
      · show link B msghash t m (ring.getD i 0) s.2 (row.getD i []) i = _
        rw [chain_range_succ, a2])
    (data, e0) ⟨hd, rfl⟩
  obtain ⟨d1, e1⟩ := s1
  simp only at h2 h3
  exact ⟨d1, by rw [h1, h3], h2⟩

/-- The outer loop of `Recover` on a rectangular matrix of points of the subgroup of order
`L` and a grid of its shape: the accumulator is the one of `Verify`. -/
theorem recoverRings_eq (B : Lib) (msghash : List Byte) (pub : List (List B.Pt))
    (priv : List (List Byte)) (indices : List Byte) (brss : List (List (List Byte)))
    (n m : Nat) (e0 : List Byte)
    (hpub : pub.length = n) (hm : ∀ ring ∈ pub, ring.length = m)
    (hb : brss.length = n) (hbm : ∀ row ∈ brss, row.length = m)
    (hpriv : priv.length = n) (hind : indices.length = n)
    (hsub : ∀ ring ∈ pub, ∀ P ∈ ring, L • P = 0) :
    ∃ data1, foldRun (recoverRing B msghash pub priv indices brss m e0) (List.range n)
        (zeros (n * m * 32), []) =
        .ok (data1, ((List.range n).map (fun t =>
          chain B msghash t m (pub.getD t []) (fun i => (brss.getD t []).getD i [])
            (List.range m) e0)).flatten) ∧
      data1.length = n * m * 32 := by
  obtain ⟨s1, h1, h2, h3⟩ := foldRun_range
    (recoverRing B msghash pub priv indices brss m e0)
    (fun k s => s.1.length = n * m * 32 ∧
      s.2 = ((List.range k).map (fun t =>
        chain B msghash t m (pub.getD t []) (fun i => (brss.getD t []).getD i [])
          (List.range m) e0)).flatten)
    n
    (fun t ht s hs => by
      obtain ⟨a1, a2⟩ := hs
      have g1 : pub[t]? = some (pub.getD t []) := by
        rw [List.getD_eq_getElem?_getD, List.getElem?_eq_getElem (by omega)]
        rfl
      have g2 : brss[t]? = some (brss.getD t []) := by
        rw [List.getD_eq_getElem?_getD, List.getElem?_eq_getElem (by omega)]
        rfl
      have g3 : indices[t]? = some (indices.getD t 0) := by
        rw [List.getD_eq_getElem?_getD, List.getElem?_eq_getElem (by omega)]
        rfl
      have g4 : priv[t]? = some (priv.getD t []) := by
        rw [List.getD_eq_getElem?_getD, List.getElem?_eq_getElem (by omega)]
        rfl
      obtain ⟨data1, w1, w2⟩ := recoverWalk_chain B msghash pub priv indices brss t m n _ _ _ _
        e0 g1 g2 g3 g4 (hm _ (List.getElem?_mem g1)) (hbm _ (List.getElem?_mem g2))
        (hsub _ (List.getElem?_mem g1)) ht s.1 a1
      refine ⟨(data1, s.2 ++ chain B msghash t m (pub.getD t [])
        (fun i => (brss.getD t []).getD i []) (List.range m) e0), ?_, w2, ?_⟩
      · unfold recoverRing
        rw [w1]
      · show s.2 ++ _ = _
        rw [a2, List.range_succ, List.map_append, List.flatten_append]
        simp)
    (zeros (n * m * 32), []) ⟨by simp [zeros], rfl⟩
  obtain ⟨d1, e1⟩ := s1
  simp only at h2 h3
  exact ⟨d1, by rw [h1, h3], h2⟩

/-- Where every point of the matrix lies in the subgroup of order `L`, `Recover` returns, and
it returns a payload exactly when `Verify` returns true, for every signature and whatever the
private keys and indices: the two walk the same chains. -/
theorem recover_iff_verify_subgroup (B : Lib) (sig msghash : List Byte)
    (pub : List (List B.Pt)) (priv : List (List Byte)) (indices : List Byte) (n m : Nat)
    (hpub : pub.length = n) (hm : ∀ ring ∈ pub, ring.length = m)
    (hn1 : 1 ≤ n) (hn : n ≤ 255) (hm1 : 1 ≤ m) (hm255 : m ≤ 255)
    (hpriv : priv.length = n) (hind : indices.length = n)
    (hsub : ∀ ring ∈ pub, ∀ P ∈ ring, L • P = 0) :
    ((∃ d, BRSignature.Recover B sig msghash pub priv indices = .ok (some d)) ↔
        BRSignature.Verify B sig msghash pub = .ok true) ∧
      (∃ r, BRSignature.Recover B sig msghash pub priv indices = .ok r) := by
  have h0 : (pub.getD 0 []).length = m := by
    apply hm
    rw [List.getD_eq_getElem?_getD, List.getElem?_eq_getElem (by omega)]
    exact List.getElem_mem _
  by_cases hlen : sig.length = 32 + n * m * 32
  · obtain ⟨hs1, hs2⟩ := loadRows_shape m n sig
    obtain ⟨data1, w1, w2⟩ := recoverRings_eq B msghash pub priv indices (loadRows m n sig)
      n m (sig.take 32) hpub hm hs1 hs2 hpriv hind hsub
    have hx := xornoise_eq B msghash data1 (some data1) priv indices
      (fun d hd => by cases hd; exact le_refl _)
    unfold BRSignature.Verify BRSignature.Recover
    rw [load_of_length sig pub n m hpub hn1 h0 hm1 hlen]
    simp only
    rw [Nat.mod_eq_of_lt (by omega : n < 256), Nat.mod_eq_of_lt (by omega : m < 256),
      verifyRings_eq B msghash pub _ n m n _ hpub hm hs1 hs2 (le_refl _), w1]
    simp only
    rw [hx]
    simp only
    by_cases hc : sig.take 32 ≠ reduce (B.sha512 (((List.range n).map (fun t =>
        chain B msghash t m (pub.getD t []) (fun i => ((loadRows m n sig).getD t []).getD i [])
          (List.range m) (sig.take 32))).flatten))
    · rw [if_pos hc, if_pos hc]
      refine ⟨⟨?_, ?_⟩, _, rfl⟩
      · rintro ⟨d, hd⟩; cases hd
      · intro h; cases h
    · rw [if_neg hc, if_neg hc]
      exact ⟨⟨fun _ => rfl, fun _ => ⟨_, rfl⟩⟩, _, rfl⟩
  · unfold BRSignature.Verify BRSignature.Recover
    rw [load_of_length_ne sig pub n m hpub h0 hlen]
    simp only
    refine ⟨⟨?_, ?_⟩, _, rfl⟩
    · rintro ⟨d, hd⟩; cases hd
    · intro h; cases h

set_option maxRecDepth 100000 in
/-- The equivalence on the matrix `toyPub6`, whose points lie in the subgroup, with a
signature of zero bytes and private keys and indices that are not the signer's. -/
theorem recover_iff_verify_subgroup_witness :
    ((∃ d, BRSignature.Recover toyLib (zeros 224) (zeros 32) toyPub6 [zeros 32, zeros 32]
          [0, 0] = .ok (some d)) ↔
        BRSignature.Verify toyLib (zeros 224) (zeros 32) toyPub6 = .ok true) ∧
      (∃ r, BRSignature.Recover toyLib (zeros 224) (zeros 32) toyPub6 [zeros 32, zeros 32]
          [0, 0] = .ok r) :=
  recover_iff_verify_subgroup toyLib (zeros 224) (zeros 32) toyPub6 [zeros 32, zeros 32]
    [0, 0] 2 3 (by decide) (by decide) (by decide) (by decide) (by decide) (by decide)
    (by decide) (by decide) toy6_subgroup

set_option maxRecDepth 100000 in
/-- C17 fails on the code: the decoys of the sample matrix `toyPub` are valid points outside
the subgroup of order `L`; `BRSign` returns a signature for it which `Verify` accepts and
from which `Recover`, given the private keys and indices of the signer, returns nil.
`Recover` multiplies the point by the negated challenge, `Verify` the negated point by the
challenge, and the two products differ at such a point. -/
theorem recover_rejects_verified :
    (∃ ring ∈ toyPub, ∃ P ∈ ring, L • P ≠ 0) ∧
      ∃ sig, BRSign toyLib (BRPack toyLib toyMsg toyPub).1 (some toyPayload) toyPub toyPriv
          toyIndices = .ok sig ∧
        BRSignature.Verify toyLib sig (BRPack toyLib toyMsg toyPub).1 toyPub = .ok true ∧
        BRSignature.Recover toyLib sig (BRPack toyLib toyMsg toyPub).1 toyPub toyPriv
          toyIndices = .ok none := by
  refine ⟨⟨_, List.mem_cons_self _ _, _, List.mem_cons_self _ _,
    fun h => absurd (congrArg (fun x : Fin toyOrder => x.val) h) (by decide!)⟩, ?_⟩
  obtain ⟨h1, h2⟩ := toy_recover_rejects
  unfold signThenVerify at h1
  unfold signThenRecover at h2
  cases hs : BRSign toyLib (BRPack toyLib toyMsg toyPub).1 (some toyPayload) toyPub toyPriv
    toyIndices with
  | error e => rw [hs] at h1; cases h1
  | ok sig =>
    rw [hs] at h1 h2
    exact ⟨sig, rfl, h1, h2⟩

/-! ## The reference primitives -/

set_option maxRecDepth 1000000 in
/-- SHA-512, SHA-384 and SHA-512/256 of `"abc"` (FIPS 180-4, examples). -/
theorem sha512_vectors :
    sha512.Sum512 [97, 98, 99] =
      [221, 175, 53, 161, 147, 97, 122, 186, 204, 65, 115, 73, 174, 32, 65, 49,
       18, 230, 250, 78, 137, 169, 126, 162, 10, 158, 238, 230, 75, 85, 211, 154,
       33, 146, 153, 42, 39, 79, 193, 168, 54, 186, 60, 35, 163, 254, 235, 189,
       69, 77, 68, 35, 100, 60, 232, 14, 42, 154, 201, 79, 165, 76, 164, 159] ∧
    sha512.Sum384 [97, 98, 99] =
      [203, 0, 117, 63, 69, 163, 94, 139, 181, 160, 61, 105, 154, 198, 80, 7,
       39, 44, 50, 171, 14, 222, 209, 99, 26, 139, 96, 90, 67, 255, 91, 237,
       128, 134, 7, 43, 161, 231, 204, 35, 88, 186, 236, 161, 52, 200, 37, 167] ∧
    sha512.Sum512_256 [97, 98, 99] =
      [83, 4, 142, 38, 129, 148, 30, 249, 155, 46, 41, 183, 107, 76, 125, 171,
       228, 194, 208, 198, 52, 252, 109, 70, 224, 226, 241, 49, 7, 231, 175, 35] := by
  refine ⟨by decide!, by decide!, by decide!⟩

set_option maxRecDepth 1000000 in
/-- The first 64 bytes of the Salsa20 stream for the key `80 00 .. 00` and a zero counter
(ECRYPT test vectors, 256-bit key, set 1, vector 0). -/
theorem salsa_vector :
    (List.range 64).map (salsa.stream (zeros 16) (0x80 :: zeros 31)) =
      [227, 190, 143, 221, 139, 236, 162, 227, 234, 142, 249, 71, 91, 41, 166, 231,
       0, 57, 81, 225, 9, 122, 92, 56, 210, 59, 122, 95, 173, 159, 104, 68,
       178, 44, 151, 85, 158, 39, 35, 199, 203, 189, 63, 228, 252, 141, 154, 7,
       68, 101, 42, 131, 231, 42, 156, 70, 24, 118, 175, 77, 126, 241, 161, 23] := by
  decide!

set_option maxRecDepth 1000000 in
/-- The encoding of the base point, of the public key of test 1 of RFC 8032, and of `L * G`,
the neutral element. -/
theorem edwards25519_vectors :
    edwards25519.encodeBase 1 =
      [88, 102, 102, 102, 102, 102, 102, 102, 102, 102, 102, 102, 102, 102, 102, 102,
       102, 102, 102, 102, 102, 102, 102, 102, 102, 102, 102, 102, 102, 102, 102, 102] ∧
    edwards25519.encodeBase
        36144925721603087658594284515452164870581325872720374094707712194495455132720 =
      [215, 90, 152, 1, 130, 177, 10, 183, 213, 75, 254, 211, 201, 100, 7, 58,
       14, 225, 114, 243, 218, 166, 35, 37, 175, 2, 26, 104, 247, 7, 81, 26] ∧
    edwards25519.encodeBase L = 1 :: zeros 31 := by
  refine ⟨by decide!, by decide!, by decide!⟩

/-! ## The scenario of `Test1x1BRS` -/

theorem test_key (B : Lib) (h : ReferencePrimitives B) :
    HashToScalar B [49, 50, 51] = refKey := by
  unfold HashToScalar refKey
  rw [h.sum512]

theorem test_digest (B : Lib) (h : ReferencePrimitives B) :
    (BRPack B testMsg (testPub B)).1 = refDigest := by
  rw [BRPack_eq]
  unfold testPub refDigest
  rw [test_key B h, h.sum512_256]
  simp only [List.flatten_cons, List.flatten_nil, List.append_nil, List.map_cons, List.map_nil,
    h.encodeKey]

theorem test_randomness (B : Lib) (h : ReferencePrimitives B) :
    randomness B refDigest (some testPayload) (testPriv B) testIndices 1 1 = refRandom := by
  have hpad : padTo (1 * 1 * 32) (some testPayload) = testPayload := by
    simp [padTo, testPayload, zeros]
  unfold randomness xorStream keystream testPriv refRandom
  rw [hpad, test_key B h, h.sum384, h.stream]
  simp only [List.flatten_cons, List.flatten_nil, List.append_nil]

theorem test_closing (B : Lib) (h : ReferencePrimitives B) :
    seedOf B refDigest refRandom 0 1 0 = refClosing := by
  unfold seedOf chameleon hash512 PPoint.Encode Point.ToProjective refClosing
  have hk : B.encode (Scalar.MulBase B (clamp (chunk refRandom 0 1 0))) =
      edwards25519.encodeBase (leNat refNonce) := h.encodeNonce
  rw [hk, h.sum512]
  simp only [List.flatten_cons, List.flatten_nil, List.append_nil, List.append_assoc]

theorem test_challenge (B : Lib) (h : ReferencePrimitives B) :
    challenge0 B refDigest refRandom (testPub B) testIndices 1 1 = refE0 := by
  unfold challenge0 openedAll openedOf refE0
  have hr : List.range 1 = [0] := rfl
  rw [hr]
  simp only [List.map_cons, List.map_nil, List.flatten_cons, List.flatten_nil,
    List.append_nil]
  have hj : (testIndices.getD 0 0).val = 0 := rfl
  rw [hj]
  have hc : chain B refDigest 0 1 ((testPub B).getD 0 []) (chunk refRandom 0 1)
      (List.range' (0 + 1) (1 - (0 + 1))) (seedOf B refDigest refRandom 0 1 0) =
      seedOf B refDigest refRandom 0 1 0 := rfl
  rw [hc, test_closing B h, h.sum512]

theorem test_response (B : Lib) (h : ReferencePrimitives B) :
    realResponse B refDigest refRandom ((testPub B).getD 0 []) ((testPriv B).getD 0 []) 0 1
      (testIndices.getD 0 0).val (challenge0 B refDigest refRandom (testPub B) testIndices 1 1)
      = refResponse := by
  have hj : (testIndices.getD 0 0).val = 0 := rfl
  have hp : (testPriv B).getD 0 [] = refKey := by
    unfold testPriv
    rw [test_key B h]
    rfl
  rw [hj, hp, test_challenge B h]
  rfl

set_option maxRecDepth 1000000 in
theorem ref_response_lt : leNat refResponse < 2 ^ 252 := by decide!

theorem test_rangeOk (B : Lib) (h : ReferencePrimitives B) :
    rangeOk B refDigest refRandom (testPub B) (testPriv B) testIndices 1 1 := by
  intro t ht
  obtain rfl : t = 0 := by omega
  rw [test_response B h]
  have e := realResponse_check B refDigest refRandom ((testPub B).getD 0 [])
    ((testPriv B).getD 0 []) 0 1 (testIndices.getD 0 0).val
    (challenge0 B refDigest refRandom (testPub B) testIndices 1 1)
  rw [test_response B h] at e
  exact e.2 ref_response_lt

set_option maxRecDepth 1000000 in
theorem refLib_reference : ReferencePrimitives refLib where
  sum512 := rfl
  sum384 := rfl
  sum512_256 := rfl
  stream := rfl
  encodeKey := by decide!
  encodeNonce := by decide!

set_option maxHeartbeats 2000000 in
set_option maxRecDepth 1000000 in
/-- The values of the scenario of `Test1x1BRS` on the reference primitives: the private key,
the digest, the nonce and the signature. -/
theorem ref_values :
    refKey =
      [175, 214, 140, 91, 19, 80, 226, 36, 65, 4, 144, 116, 127, 235, 67, 78,
       40, 209, 124, 60, 54, 111, 64, 126, 125, 33, 240, 92, 25, 186, 182, 7] ∧
    refDigest =
      [4, 210, 54, 30, 208, 167, 162, 103, 241, 130, 155, 181, 196, 40, 60, 66,
       230, 254, 241, 142, 49, 136, 232, 223, 26, 41, 209, 5, 230, 184, 15, 191] ∧
    refNonce =
      [99, 213, 64, 155, 59, 246, 6, 28, 122, 140, 181, 170, 189, 38, 161, 206,
       240, 214, 68, 7, 8, 139, 0, 42, 221, 93, 246, 9, 217, 155, 123, 7] ∧
    refSignature =
      [165, 202, 134, 251, 201, 183, 113, 122, 128, 111, 183, 70, 108, 202, 83, 246,
       243, 48, 214, 240, 225, 23, 58, 119, 48, 149, 85, 81, 146, 33, 227, 3,
       84, 161, 176, 253, 139, 11, 216, 148, 117, 161, 179, 79, 170, 7, 24, 156,
       196, 34, 207, 115, 25, 231, 248, 171, 102, 50, 109, 193, 111, 63, 207, 25] := by
  refine ⟨by decide!, by decide!, by decide!, by decide!⟩

/-- On the reference primitives `BRSign` returns the signature `refSignature` in the scenario
of `Test1x1BRS`. -/
theorem test_scenario_signature (B : Lib) (h : ReferencePrimitives B) :
    BRSign B (BRPack B testMsg (testPub B)).1 (some testPayload) (testPub B) (testPriv B)
      testIndices = .ok refSignature := by
  rw [test_digest B h]
  rcases BRSign_cases B refDigest (some testPayload) (testPub B) (testPriv B) testIndices 1 1
    (test_valid B) test_payload_fits with ⟨-, h2⟩ | ⟨h1, -⟩
  · rw [test_randomness B h] at h2
    exact absurd (test_rangeOk B h) h2
  · rw [h1, test_randomness B h]
    unfold signatureOf rowsOf rowOf
    have hr : List.range 1 = [0] := rfl
    rw [hr]
    simp only [List.map_cons, List.map_nil, List.flatten_cons, List.flatten_nil,
      List.append_nil]
    rw [test_response B h, test_challenge B h]
    have hj : (testIndices.getD 0 0).val = 0 := rfl
    rw [hj, if_pos rfl]
    rfl

/-- C14, amended: in the scenario of `Test1x1BRS`, with the hashes, the key stream and the
point encodings of the imported packages, `BRPack` yields a digest of 32 bytes and a key blob
of 32 bytes, `BRSign` yields a signature of 64 bytes, `Verify` returns true, and `Recover`
returns a buffer equal to the payload, which is 32 bytes long. -/
theorem test_scenario_amended (B : Lib) (h : ReferencePrimitives B) :
    (BRPack B testMsg (testPub B)).1.length = 32 ∧
      (BRPack B testMsg (testPub B)).2.length = 32 ∧
      (∃ sig, BRSign B (BRPack B testMsg (testPub B)).1 (some testPayload) (testPub B)
          (testPriv B) testIndices = .ok sig ∧
        sig.length = 64 ∧
        BRSignature.Verify B sig (BRPack B testMsg (testPub B)).1 (testPub B) = .ok true ∧
        BRSignature.Recover B sig (BRPack B testMsg (testPub B)).1 (testPub B) (testPriv B)
          testIndices = .ok (some testPayload)) ∧
      testPayload.length = 32 := by
  have hpad : padTo (1 * 1 * 32) (some testPayload) = testPayload := by
    simp [padTo, testPayload, zeros]
  have hsub : ∀ ring ∈ testPub B, ∀ P ∈ ring, L • P = 0 := by
    intro ring hr P hP
    simp only [testPub, List.mem_singleton] at hr
    subst hr
    simp only [List.mem_singleton] at hP
    subst hP
    exact MulBase_subgroup B _
  refine ⟨?_, ?_, ?_, by decide⟩
  · rw [BRPack_eq]; exact B.sha512_256_length _
  · rw [BRPack_eq, encodings_length]; rfl
  · rcases BRSign_cases B (BRPack B testMsg (testPub B)).1 (some testPayload) (testPub B)
      (testPriv B) testIndices 1 1 (test_valid B) test_payload_fits with ⟨-, h2⟩ | ⟨h1, h2⟩
    · rw [test_digest B h, test_randomness B h] at h2
      exact absurd (test_rangeOk B h) h2
    · have hr := sign_recover_roundtrip_small B (BRPack B testMsg (testPub B)).1
        (some testPayload) (testPub B) (testPriv B) testIndices 1 1 (test_valid B)
        test_payload_fits hsub (by decide) _ h1
      rw [hpad] at hr
      exact ⟨_, h1, signatureOf_length _ _ _ _ _ _ _ _,
        Verify_signatureOf B _ _ _ _ _ 1 1 (test_valid B) h2, hr⟩

/-- The amended C14 on the instance `refLib`, which has the reference primitives. -/
theorem test_scenario_amended_witness :
    ReferencePrimitives refLib ∧
      (BRPack refLib testMsg (testPub refLib)).1.length = 32 ∧
      (BRPack refLib testMsg (testPub refLib)).2.length = 32 ∧
      (∃ sig, BRSign refLib (BRPack refLib testMsg (testPub refLib)).1 (some testPayload)
          (testPub refLib) (testPriv refLib) testIndices = .ok sig ∧
        sig.length = 64 ∧
        BRSignature.Verify refLib sig (BRPack refLib testMsg (testPub refLib)).1
          (testPub refLib) = .ok true ∧
        BRSignature.Recover refLib sig (BRPack refLib testMsg (testPub refLib)).1
          (testPub refLib) (testPriv refLib) testIndices = .ok (some testPayload)) ∧
      testPayload.length = 32 :=
  ⟨refLib_reference, test_scenario_amended refLib refLib_reference⟩

end RS25519
